import Mathlib

/-!
# Verification of `parallel-programming`

Five programs of the repository are embedded: the adaptive-quadrature task engine of
`05-intro-threads/src/integration.cc` (namespace `lockfree` in exact arithmetic, namespace
`binary64` for its refinement step on `double`), the merge sorts of `03-sort/src/sort.cpp`
(namespace `sort_cpp`), the harmonic sum of `05-intro-threads/src/sum.cc` (namespace
`sum_cc`), the column counts of `04-transfer-equation/src/transfer-solver.cc` (namespace
`transfer_solver`) and the sieves of `07-openmp-eratosthenes/src/main.cc` (namespace
`sieve`).  The definitions of all of them come first, the theorems after them.

## The adaptive-quadrature task engine

In the namespace `lockfree` the floating type `T` of the source is read as the exact
rationals `ℚ`, so `std::midpoint x y` is `(x + y) / 2` and `std::abs` is the absolute
value: this is the engine in exact arithmetic, without rounding, underflow, infinities or
NaN.  What the refinement step does on `double` itself is the subject of the namespace
`binary64`.

The body of `lockfree::parallel_integrate` is embedded as a small-step machine:
every step of a worker is one access to the shared memory (the global queue,
`active_count`, `accumulated_integral`) or one iteration of the `while` loop of
`global_handler`, together with the thread-private computation around it.  The
interleaving of the workers, and the element `try_dequeue` hands out, are given
by a schedule.  The concurrent queue is taken to be linearizable: `try_dequeue`
fails exactly when the queue is empty.
-/

namespace lockfree

/-- The record `lockfree::task<T>`. -/
structure task where
  a : ℚ
  b : ℚ
  func_val_a : ℚ
  func_val_b : ℚ
  integral : ℚ
deriving DecidableEq

/-- `std::midpoint` in exact arithmetic. -/
def std_midpoint (x y : ℚ) : ℚ := (x + y) / 2

/-- `constexpr auto local_queue_max_size = 32;` -/
def local_queue_max_size : ℕ := 32

/-- `constexpr auto capacity_extra = 4;` -/
def capacity_extra : ℕ := 4

/-- `push_back` on a `boost::container::static_vector` of the given capacity: it fails on a
full vector. -/
def push_back (capacity : ℕ) (v : List task) (x : task) : Option (List task) :=
  if v.length < capacity then some (v ++ [x]) else none

/-- The lambda `local_handler` of `global_handler`, in exact arithmetic.  The captured
`local_queue` and `local_accumulator` are passed in and returned; `none` is the overflow of
the static vector. -/
def local_handler (function : ℚ → ℚ) (eps : ℚ) (local_queue : List task)
    (local_accumulator : ℚ) (t : task) : Option (List task × ℚ) :=
  let mid := std_midpoint t.a t.b
  let func_val_mid := function mid
  let integral_left := std_midpoint t.func_val_a func_val_mid * (mid - t.a)
  let integral_right := std_midpoint func_val_mid t.func_val_b * (t.b - mid)
  let new_integral := integral_left + integral_right
  if |new_integral - t.integral| ≥ eps * |new_integral| then
    (push_back (capacity_extra + local_queue_max_size) local_queue
        { a := t.a, b := mid, func_val_a := t.func_val_a, func_val_b := func_val_mid,
          integral := integral_left }).bind fun q =>
      (push_back (capacity_extra + local_queue_max_size) q
        { a := mid, b := t.b, func_val_a := func_val_mid, func_val_b := t.func_val_b,
          integral := integral_right }).map fun q2 => (q2, local_accumulator)
  else
    some (local_queue, local_accumulator + new_integral)

/-- What one evaluation of the loop condition and body of the `while` loop of
`global_handler` does. -/
inductive iteration
  /-- the body ran `local_handler` on the popped back element -/
  | next (local_queue : List task) (local_accumulator : ℚ)
  /-- the buffer was empty: `accumulated_integral += local_accumulator; return;` -/
  | drained (local_accumulator : ℚ)
  /-- the loop condition `local_queue.size() <= local_queue_max_size` was false -/
  | spill (local_queue : List task) (local_accumulator : ℚ)
  /-- the static vector overflowed inside `local_handler` -/
  | overflow

/-- One turn of `while (local_queue.size() <= local_queue_max_size) { ... }`. -/
def while_turn (function : ℚ → ℚ) (eps : ℚ) (local_queue : List task)
    (local_accumulator : ℚ) : iteration :=
  if local_queue.length ≤ local_queue_max_size then
    match local_queue.getLast? with
    | none => iteration.drained local_accumulator
    | some item =>
      match local_handler function eps local_queue.dropLast local_accumulator item with
      | none => iteration.overflow
      | some (q, acc) => iteration.next q acc
  else
    iteration.spill local_queue local_accumulator

/-- Where a worker stands in `loop_function`. -/
inductive pc
  /-- about to call `global_queue.try_dequeue(current_item)` -/
  | poll
  /-- dequeue failed while active, `currently_active = false` done: about to `--active_count` -/
  | dec
  /-- dequeue failed while not active: about to read `active_count` -/
  | check
  /-- dequeue succeeded while not active, `currently_active = true` done: about to
  `++active_count` -/
  | inc (current_item : task)
  /-- inside the `while` loop of `global_handler` -/
  | handle (local_queue : List task) (local_accumulator : ℚ)
  /-- after `enqueue_bulk`: about to `accumulated_integral += local_accumulator` -/
  | flush (local_accumulator : ℚ)
  /-- left the loop through `break` -/
  | done
  /-- aborted by an overflow of the static vector -/
  | overflow

/-- The thread-private variables of one `loop_function`. -/
structure worker where
  at_pc : pc
  currently_active : Bool

/-- The variables shared by the workers, the workers themselves (`0` is the calling
thread) and the value of `return accumulated_integral.load()` once it is taken. -/
structure state where
  global_queue : List task
  active_count : ℕ
  accumulated_integral : ℚ
  workers : ℕ → worker
  returned : Option ℚ

/-- `try_dequeue`: fails on the empty queue, otherwise removes one element, the one the
schedule picks. -/
def try_dequeue (q : List task) (k : ℕ) : Option (task × List task) :=
  match q[k % q.length]? with
  | none => none
  | some item => some (item, q.eraseIdx (k % q.length))

/-- The identifiers of the `std::jthread`s pushed to `threads`:
`ranges::views::iota(uint32_t{1}, num_threads)`. -/
def threads (num_threads : ℕ) : List ℕ := List.range' 1 (num_threads - 1)

/-- The number of `loop_function` calls: one per `jthread` and one of the caller. -/
def loops (num_threads : ℕ) : ℕ := (threads num_threads).length + 1

/-- The state after the root task is enqueued, before any `loop_function` runs. -/
def init (a b : ℚ) (function : ℚ → ℚ) : state :=
  let func_val_a := function a
  let func_val_b := function b
  { global_queue := [{ a := a, b := b, func_val_a := func_val_a, func_val_b := func_val_b,
                       integral := std_midpoint func_val_a func_val_b * (b - a) }]
    active_count := 0
    accumulated_integral := 0
    workers := fun _ => { at_pc := pc.poll, currently_active := false }
    returned := none }

/-- `++c` on a `uint32_t`: the successor modulo `2^32 = 4294967296`, on `c < 2^32`. -/
def uint32_increment (c : ℕ) : ℕ := if c = 4294967295 then 0 else c + 1

/-- `--c` on a `uint32_t`: the predecessor modulo `2^32 = 4294967296`, on `c < 2^32`. -/
def uint32_decrement (c : ℕ) : ℕ := if c = 0 then 4294967295 else c - 1

/-- Worker `i` moves on in state `s`. -/
def set_worker (s : state) (i : ℕ) (w : worker) : state :=
  { s with workers := Function.update s.workers i w }

/-- One step of worker `i`; `k` picks the element a successful `try_dequeue` returns.
`active_count` is a `uint32_t`. -/
def step (function : ℚ → ℚ) (eps : ℚ) (s : state) (i k : ℕ) : state :=
  match (s.workers i).at_pc with
  | pc.poll =>
    match try_dequeue s.global_queue k with
    | none =>
      if (s.workers i).currently_active then
        set_worker s i { at_pc := pc.dec, currently_active := false }
      else
        set_worker s i { at_pc := pc.check, currently_active := false }
    | some (item, rest) =>
      if (s.workers i).currently_active then
        set_worker { s with global_queue := rest } i
          { at_pc := pc.handle [item] 0, currently_active := true }
      else
        set_worker { s with global_queue := rest } i
          { at_pc := pc.inc item, currently_active := true }
  | pc.dec =>
    set_worker { s with active_count := uint32_decrement s.active_count } i
      { at_pc := pc.poll, currently_active := (s.workers i).currently_active }
  | pc.check =>
    if s.active_count = 0 then
      set_worker s i { at_pc := pc.done, currently_active := (s.workers i).currently_active }
    else
      set_worker s i { at_pc := pc.poll, currently_active := (s.workers i).currently_active }
  | pc.inc item =>
    set_worker { s with active_count := uint32_increment s.active_count } i
      { at_pc := pc.handle [item] 0, currently_active := (s.workers i).currently_active }
  | pc.handle local_queue local_accumulator =>
    match while_turn function eps local_queue local_accumulator with
    | iteration.next q acc =>
      set_worker s i
        { at_pc := pc.handle q acc, currently_active := (s.workers i).currently_active }
    | iteration.drained acc =>
      set_worker { s with accumulated_integral := s.accumulated_integral + acc } i
        { at_pc := pc.poll, currently_active := (s.workers i).currently_active }
    | iteration.spill q acc =>
      set_worker { s with global_queue := s.global_queue ++ q } i
        { at_pc := pc.flush acc, currently_active := (s.workers i).currently_active }
    | iteration.overflow =>
      set_worker s i
        { at_pc := pc.overflow, currently_active := (s.workers i).currently_active }
  | pc.flush acc =>
    set_worker { s with accumulated_integral := s.accumulated_integral + acc } i
      { at_pc := pc.poll, currently_active := (s.workers i).currently_active }
  | pc.done =>
    if i = 0 ∧ s.returned = none then
      { s with returned := some s.accumulated_integral }
    else s
  | pc.overflow => s

/-- Runs a schedule: each entry `(i, k)` lets worker `i` take one step; an entry naming a
thread that does not exist is skipped. -/
def exec (function : ℚ → ℚ) (eps : ℚ) (num_threads : ℕ) : List (ℕ × ℕ) → state → state
  | [], s => s
  | (i, k) :: rest, s =>
    if i < loops num_threads then exec function eps num_threads rest (step function eps s i k)
    else exec function eps num_threads rest s

/-- The value `parallel_integrate(a, b, function, num_threads, eps)` has returned after the
given schedule, if it has returned. -/
def parallel_integrate (a b : ℚ) (function : ℚ → ℚ) (num_threads : ℕ) (eps : ℚ)
    (schedule : List (ℕ × ℕ)) : Option ℚ :=
  (exec function eps num_threads schedule (init a b function)).returned

/-- The midpoint `mid` computed by `local_handler` for a task. -/
def mid (t : task) : ℚ := std_midpoint t.a t.b

/-- The value `integral_left` computed by `local_handler` for a task. -/
def integral_left (function : ℚ → ℚ) (t : task) : ℚ :=
  std_midpoint t.func_val_a (function (mid t)) * (mid t - t.a)

/-- The value `integral_right` computed by `local_handler` for a task. -/
def integral_right (function : ℚ → ℚ) (t : task) : ℚ :=
  std_midpoint (function (mid t)) t.func_val_b * (t.b - mid t)

/-- The value `new_integral` computed by `local_handler` for a task. -/
def new_integral (function : ℚ → ℚ) (t : task) : ℚ :=
  integral_left function t + integral_right function t

/-- The condition of the `if` in `local_handler`: the task is split. -/
def diverged (function : ℚ → ℚ) (eps : ℚ) (t : task) : Prop :=
  |new_integral function t - t.integral| ≥ eps * |new_integral function t|

instance (function : ℚ → ℚ) (eps : ℚ) (t : task) : Decidable (diverged function eps t) := by
  unfold diverged
  infer_instance

/-- The first element of `to_enqueue`. -/
def left_child (function : ℚ → ℚ) (t : task) : task :=
  { a := t.a, b := mid t, func_val_a := t.func_val_a, func_val_b := function (mid t),
    integral := integral_left function t }

/-- The second element of `to_enqueue`. -/
def right_child (function : ℚ → ℚ) (t : task) : task :=
  { a := mid t, b := t.b, func_val_a := function (mid t), func_val_b := t.func_val_b,
    integral := integral_right function t }

/-- The root task `parallel_integrate` enqueues. -/
def root (a b : ℚ) (function : ℚ → ℚ) : task :=
  { a := a, b := b, func_val_a := function a, func_val_b := function b,
    integral := std_midpoint (function a) (function b) * (b - a) }

/-- The recursive adaptive trapezoid quadrature, written after its description:
`R(task) = refined` if `|refined - task.integral| < eps * |refined|`, else
`R(left child) + R(right child)`.  The first argument bounds the depth of the recursion;
`none` means the bound was too small. -/
def R (f : ℚ → ℚ) (eps : ℚ) : ℕ → task → Option ℚ
  | 0, _ => none
  | d + 1, t =>
    let m := (t.a + t.b) / 2
    let estimate_left := (t.func_val_a + f m) / 2 * (m - t.a)
    let estimate_right := (f m + t.func_val_b) / 2 * (t.b - m)
    let refined := estimate_left + estimate_right
    if |refined - t.integral| < eps * |refined| then some refined
    else
      match R f eps d
          { a := t.a, b := m, func_val_a := t.func_val_a, func_val_b := f m,
            integral := estimate_left },
        R f eps d
          { a := m, b := t.b, func_val_a := f m, func_val_b := t.func_val_b,
            integral := estimate_right } with
      | some x, some y => some (x + y)
      | _, _ => none

/-- The number of tasks of the subdivision below a task (the task included), explored to
the given depth. -/
def nodes (f : ℚ → ℚ) (eps : ℚ) : ℕ → task → ℕ
  | 0, _ => 0
  | d + 1, t =>
    if diverged f eps t then
      1 + nodes f eps d (left_child f t) + nodes f eps d (right_child f t)
    else 1

/-- Whether `active_count` counts the worker: `1` from its `++active_count` to its next
`--active_count`, else `0`. -/
def counted (w : worker) : ℕ :=
  match w.at_pc with
  | pc.poll => if w.currently_active then 1 else 0
  | pc.dec => 1
  | pc.check => 0
  | pc.inc _ => 0
  | pc.handle _ _ => 1
  | pc.flush _ => 1
  | pc.done => 0
  | pc.overflow => 1

/-- The value the flag `currently_active` has at each place of `loop_function`. -/
def well_flagged (w : worker) : Prop :=
  match w.at_pc with
  | pc.poll => True
  | pc.dec => w.currently_active = false
  | pc.check => w.currently_active = false
  | pc.inc _ => w.currently_active = true
  | pc.handle _ _ => w.currently_active = true
  | pc.flush _ => w.currently_active = true
  | pc.done => w.currently_active = false
  | pc.overflow => True

/-- The counter protocol: every flag fits its place, and `active_count` is the number of
counted workers among the first `n`. -/
def count_inv (n : ℕ) (s : state) : Prop :=
  (∀ j, well_flagged (s.workers j))
    ∧ s.active_count = ∑ j in Finset.range n, counted (s.workers j)

/-- The value of the quadrature below a task, `0` where the depth bound is too small. -/
def Rv (f : ℚ → ℚ) (eps : ℚ) (d : ℕ) (t : task) : ℚ := (R f eps d t).getD 0

/-- The tasks a worker holds outside the global queue: the dequeued `current_item` and the
contents of its `local_queue`. -/
def held (w : worker) : List task :=
  match w.at_pc with
  | pc.inc item => [item]
  | pc.handle q _ => q
  | _ => []

/-- The `local_accumulator` a worker has not yet added to `accumulated_integral`. -/
def banked (w : worker) : ℚ :=
  match w.at_pc with
  | pc.handle _ acc => acc
  | pc.flush acc => acc
  | _ => 0

/-- What a worker is still to contribute to `accumulated_integral`. -/
def worth (f : ℚ → ℚ) (eps : ℚ) (d : ℕ) (w : worker) : ℚ :=
  banked w + ((held w).map (Rv f eps d)).sum

/-- Conservation: what is accumulated, plus what the tasks in the global queue and the
workers are still to contribute, is `v`; every task has a finite subdivision. -/
def sum_inv (f : ℚ → ℚ) (eps : ℚ) (d n : ℕ) (v : ℚ) (s : state) : Prop :=
  s.accumulated_integral + (s.global_queue.map (Rv f eps d)).sum
      + ∑ j in Finset.range n, worth f eps d (s.workers j) = v
    ∧ (∀ t ∈ s.global_queue, (R f eps d t).isSome)
    ∧ ∀ j, ∀ t ∈ held (s.workers j), (R f eps d t).isSome

/-- The worker will call `try_dequeue` again before it can leave its loop. -/
def will_poll (w : worker) : Prop :=
  match w.at_pc with
  | pc.poll => True
  | pc.dec => True
  | pc.inc _ => True
  | pc.handle _ _ => True
  | pc.flush _ => True
  | _ => False

/-- While the global queue holds a task, some worker will poll it again. -/
def queue_inv (n : ℕ) (s : state) : Prop :=
  s.global_queue ≠ [] → ∃ j, j < n ∧ will_poll (s.workers j)

/-- The number of entries of a schedule that let worker `i` take a step. -/
def turns (i : ℕ) : List (ℕ × ℕ) → ℕ
  | [] => 0
  | (j, _) :: rest => if j = i then turns i rest + 1 else turns i rest

/-- A bound on the steps a lone worker takes from its place before it next splits or
accumulates a task, or leaves the loop. -/
def rank (w : worker) : ℕ :=
  match w.at_pc with
  | pc.poll => if w.currently_active then 5 else 3
  | pc.dec => 4
  | pc.check => 2
  | pc.inc _ => 2
  | pc.handle q _ =>
    if q.length = 0 then 6 else if q.length ≤ local_queue_max_size then 1 else 7
  | pc.flush _ => 6
  | pc.done => 0
  | pc.overflow => 0

/-- A bound on the steps the calling thread, running alone, has left before it has
returned: seven per task of the subdivisions still to be explored, plus its rank, plus
one for the `return`. -/
def potential (f : ℚ → ℚ) (eps : ℚ) (d : ℕ) (s : state) : ℕ :=
  7 * ((s.global_queue.map (nodes f eps d)).sum
        + ((held (s.workers 0)).map (nodes f eps d)).sum)
    + rank (s.workers 0) + (if s.returned = none then 1 else 0)

/-- The invariant of a run with the calling thread alone. -/
def inv1 (f : ℚ → ℚ) (eps : ℚ) (d : ℕ) (v : ℚ) (s : state) : Prop :=
  count_inv 1 s ∧ sum_inv f eps d 1 v s ∧ queue_inv 1 s
    ∧ (s.workers 0).at_pc ≠ pc.overflow
    ∧ ((s.workers 0).at_pc ≠ pc.done → s.returned = none)
    ∧ ∀ r, s.returned = some r → r = v

/-- The state of a run with the calling thread alone in which every task satisfies `P`, the
thread has not returned, and a task is still to be processed. -/
def spinning (P : task → Prop) (s : state) : Prop :=
  s.returned = none ∧ (∀ t ∈ s.global_queue, P t) ∧
    match (s.workers 0).at_pc with
    | pc.poll => s.global_queue ≠ []
    | pc.inc item => P item
    | pc.handle q _ => q ≠ [] ∧ ∀ t ∈ q, P t
    | pc.flush _ => s.global_queue ≠ []
    | _ => False

/-- The seeding block of `parallel_integrate` (the braces before `threads`), with every call
of `function` written to a log: the root task and the arguments of the calls, in order. -/
def seed_root (a b : ℚ) (function : ℚ → ℚ) : task × List ℚ :=
  let func_val_a := (function a, [a])
  let func_val_b := (function b, func_val_a.2 ++ [b])
  ({ a := a, b := b, func_val_a := func_val_a.1, func_val_b := func_val_b.1,
     integral := std_midpoint func_val_a.1 func_val_b.1 * (b - a) }, func_val_b.2)

/-- The worker has not overflowed its static vector, and its local buffer is no longer than
`local_queue_max_size + 1`. -/
def buffer_ok (w : worker) : Prop :=
  w.at_pc ≠ pc.overflow
    ∧ ∀ q acc, w.at_pc = pc.handle q acc → q.length ≤ local_queue_max_size + 1

/-- Every worker's buffer is within its bound. -/
def buffer_inv (s : state) : Prop := ∀ j, buffer_ok (s.workers j)

/-- The task has ordered bounds and caches the values of `f` at them. -/
def well_formed (f : ℚ → ℚ) (t : task) : Prop :=
  t.a < t.b ∧ t.func_val_a = f t.a ∧ t.func_val_b = f t.b

/-- Every task in the global queue or held by a worker is well formed. -/
def task_inv (f : ℚ → ℚ) (s : state) : Prop :=
  (∀ t ∈ s.global_queue, well_formed f t) ∧ ∀ j, ∀ t ∈ held (s.workers j), well_formed f t

/-- The state a run of `parallel_integrate` has reached after a schedule. -/
def reached (a b : ℚ) (function : ℚ → ℚ) (num_threads : ℕ) (eps : ℚ)
    (schedule : List (ℕ × ℕ)) : state :=
  exec function eps num_threads schedule (init a b function)

/-- The `while` loop of `global_handler` run for at most the given number of turns: the
tasks it hands to `local_handler`, in order, and the buffer and the accumulator it is left
with.  At an exit of the loop the run stops. -/
def handler_trace (function : ℚ → ℚ) (eps : ℚ) :
    ℕ → List task → ℚ → List task × List task × ℚ
  | 0, local_queue, local_accumulator => ([], local_queue, local_accumulator)
  | n + 1, local_queue, local_accumulator =>
    match local_queue.getLast?, while_turn function eps local_queue local_accumulator with
    | some item, iteration.next q acc =>
      (item :: (handler_trace function eps n q acc).1, (handler_trace function eps n q acc).2)
    | _, _ => ([], local_queue, local_accumulator)

/-- The subdivision below a task, listed depth first with the right child before the left
one: the task, then all of the subdivision below its right child, then all of the
subdivision below its left child.  The first argument bounds the depth. -/
def right_first (f : ℚ → ℚ) (eps : ℚ) : ℕ → task → List task
  | 0, _ => []
  | d + 1, t =>
    if diverged f eps t then
      t :: (right_first f eps d (right_child f t) ++ right_first f eps d (left_child f t))
    else [t]

end lockfree

/-! # The merge sorts of `03-sort/src/sort.cpp`

Ranges and vectors are lists; `std::inplace_merge` and the heap functions of the ranges
library are taken by what they are specified to do.  Scatter and gather deliver chunk `i`
to rank `i` and back. -/

namespace sort_cpp

variable {α : Type}

/-- `std::inplace_merge` on two consecutive sorted ranges, as the stable merge: an element of
the second range is taken only when it is less than the front of the first. -/
def inplace_merge [LinearOrder α] : List α → List α → List α
  | [], ys => ys
  | x :: xs, [] => x :: xs
  | x :: xs, y :: ys =>
    if y < x then y :: inplace_merge (x :: xs) ys else x :: inplace_merge xs (y :: ys)
termination_by xs ys => xs.length + ys.length

/-- `merge_sort(start, finish)` on the range as a list. -/
def merge_sort [LinearOrder α] (l : List α) : List α :=
  if h : l.length = 0 ∨ l.length = 1 then l
  else
    inplace_merge (merge_sort (l.take (l.length / 2))) (merge_sort (l.drop (l.length / 2)))
termination_by l.length
decreasing_by
  · simp only [List.length_take]; omega
  · simp only [List.length_drop]; omega

/-- `ranges::views::chunk(values, n)`: consecutive pieces of `n` elements, the last one
possibly shorter. -/
def chunk (n : ℕ) (l : List α) : List (List α) :=
  if _h : n = 0 ∨ l.length = 0 then []
  else l.take n :: chunk n (l.drop n)
termination_by l.length
decreasing_by
  simp only [List.length_drop]; omega

/-- The loop `while (chunked.size() > comm.size())`: the last chunk is appended to the one
before it.  The first argument bounds the number of turns. -/
def merge_tail (comm_size : ℕ) : ℕ → List (List α) → List (List α)
  | 0, chunked => chunked
  | fuel + 1, chunked =>
    if comm_size < chunked.length then
      merge_tail comm_size fuel
        (chunked.dropLast.dropLast
          ++ [chunked.dropLast.getLast?.getD [] ++ chunked.getLast?.getD []])
    else chunked

/-- `chunked.resize(n)` -/
def resize (n : ℕ) (chunked : List (List α)) : List (List α) :=
  (chunked ++ List.replicate (n - chunked.length) []).take n

/-- The chunks the root rank scatters. -/
def root_chunks (comm_size : ℕ) (values : List α) : List (List α) :=
  let element_per_chunk :=
    if values.length / comm_size = 0 then values.length / comm_size + 1
    else values.length / comm_size
  let chunked := chunk element_per_chunk values
  resize comm_size (merge_tail comm_size chunked.length chunked)

/-- The order `comp` on the spans through `front_proj`: the front of the first is at most
the front of the second. -/
def front_le [LinearOrder α] (s t : List α) : Bool :=
  match s, t with
  | x :: _, y :: _ => decide (x ≤ y)
  | _, _ => true

/-- The top of the heap, a span whose front is least, and the other spans. -/
def extract_top [LinearOrder α] : List (List α) → Option (List α × List (List α))
  | [] => none
  | s :: rest =>
    match extract_top rest with
    | none => some (s, [])
    | some (t, others) =>
      if front_le s t then some (s, t :: others) else some (t, s :: others)

/-- `ranges::pop_heap`: the top of the heap is moved to the back. -/
def pop_heap [LinearOrder α] (num_heap : List (List α)) : List (List α) :=
  match extract_top num_heap with
  | none => num_heap
  | some (s, others) => others ++ [s]

/-- The loop `while (!empty(num_heap))` that merges the sorted chunks.  The first argument
bounds the number of turns; `none` means the bound was too small or a span was empty. -/
def heap_merge [LinearOrder α] : ℕ → List (List α) → List α → Option (List α)
  | _, [], values => some values
  | 0, _ :: _, _ => none
  | fuel + 1, s :: rest, values =>
    match (pop_heap (s :: rest)).getLast? with
    | some (smallest_value :: tail) =>
      if tail.length = 0 then
        heap_merge fuel (pop_heap (s :: rest)).dropLast (values ++ [smallest_value])
      else
        heap_merge fuel ((pop_heap (s :: rest)).dropLast ++ [tail]) (values ++ [smallest_value])
    | _ => none

/-- `parallel_merge_sort` as the root rank sees it: rank `i` receives chunk `i`, sorts it and
sends it back; the empty chunks are erased and the others merged through the heap of spans
(`ranges::make_heap` and `ranges::push_heap` only rearrange the spans). -/
def parallel_merge_sort [LinearOrder α] (fuel comm_size : ℕ) (values : List α) : Option (List α) :=
  let chunked := (root_chunks comm_size values).map merge_sort
  let chunked := chunked.filter (fun container => container.length ≠ 0)
  heap_merge fuel chunked []

end sort_cpp

/-! # The harmonic sum of `05-intro-threads/src/sum.cc` -/

namespace sum_cc

/-- Arithmetic on `uint64_t` is modulo `2^64`. -/
def uint64 (x : ℕ) : ℕ := x % 18446744073709551616

/-- Arithmetic on `uint32_t` is modulo `2^32`. -/
def uint32 (x : ℕ) : ℕ := x % 4294967296

/-- `auto per_thread = count / num_threads;` -/
def per_thread (count num_threads : ℕ) : ℕ := count / num_threads

/-- `auto one_past_all = count + 1;` -/
def one_past_all (count : ℕ) : ℕ := uint64 (count + 1)

/-- `std::clamp(v, lo, hi)`: `lo` if `v < lo`, `hi` if `hi < v`, else `v`. -/
def clamp (v lo hi : ℕ) : ℕ := if v < lo then lo else if hi < v then hi else v

/-- The pair `(begin, end)` the loop passes to `add_task` for the index `i`. -/
def task_range (count num_threads i : ℕ) : ℕ × ℕ :=
  let start := max (uint64 (i * per_thread count num_threads)) 1
  if i = num_threads - 1 then (start, one_past_all count)
  else (start, clamp (uint64 (uint32 (i + 1) * per_thread count num_threads)) 1
    (one_past_all count))

/-- The pairs passed to `add_task`, in the order of the loop over
`ranges::views::iota(uint32_t{0}, num_threads)`. -/
def ranges (count num_threads : ℕ) : List (ℕ × ℕ) :=
  (List.range num_threads).map (task_range count num_threads)

/-- `ranges::views::iota(begin, end)`: the indices of the half-open range. -/
def iota (b e : ℕ) : List ℕ := List.range' b (e - b)

/-- The value of the future `add_task(begin, end)` creates, in exact arithmetic. -/
def add_task (b e : ℕ) : ℚ := ((iota b e).map (fun (value : ℕ) => 1 / (value : ℚ))).sum

/-- The value printed: the sum of the futures. -/
def accumulated (count num_threads : ℕ) : ℚ :=
  ((ranges count num_threads).map (fun r => add_task r.1 r.2)).sum

/-- Where the range of index `i` begins when nothing wraps: `max (i * per_thread) 1`, and
`count + 1` past the last index. -/
def bound (count num_threads i : ℕ) : ℕ :=
  if num_threads ≤ i then count + 1 else max (i * per_thread count num_threads) 1

end sum_cc

/-! # The column counts of `04-transfer-equation/src/transfer-solver.cc`

The values of type `std::size_t` are natural numbers below `2^64`, with wrapping
arithmetic; `world.size()` and `world.rank()` are natural numbers. -/

namespace transfer_solver

/-- Arithmetic of `std::size_t`: 64 bits, wrapping. -/
def size_t (x : ℕ) : ℕ := x % 18446744073709551616

/-- Subtraction of two `std::size_t` values. -/
def minus (x y : ℕ) : ℕ := size_t (x + (18446744073709551616 - size_t y))

/-- `auto per_process = std::max<std::size_t>(x_dim / world.size(), min_per_process);`
with `min_per_process = 1`. -/
def per_process (x_dim world_size : ℕ) : ℕ := max (size_t (x_dim / world_size)) 1

/-- The lambda `num_for_this_process` of `solve_transfer_equation`, at a rank. -/
def num_for_this_process (x_dim world_size rank : ℕ) : ℕ :=
  if rank = world_size - 1 then
    minus x_dim (size_t (per_process x_dim world_size * rank))
  else if size_t (per_process x_dim world_size * rank) > x_dim then 0
  else if size_t (per_process x_dim world_size * (rank + 1)) > x_dim then
    minus x_dim (size_t (per_process x_dim world_size * rank))
  else per_process x_dim world_size

/-- The size of `data_for_process` at a rank:
`std::vector<T>(num_for_this_process * t_dim)`. -/
def data_for_process_size (t_dim x_dim world_size rank : ℕ) : ℕ :=
  size_t (num_for_this_process x_dim world_size rank * t_dim)

/-- The size of `final` once the gathered vectors of the ranks `0..world_size-1` are copied
into it. -/
def final_size (t_dim x_dim world_size : ℕ) : ℕ :=
  ((List.range world_size).map (data_for_process_size t_dim x_dim world_size)).sum

end transfer_solver

/-! # The sieves of `07-openmp-eratosthenes/src/main.cc`

The values of type `uint64_t` are natural numbers below `2^64`, with wrapping arithmetic.
The flags start all set and are only ever assigned `false`, at indices that do not depend
on the flags; a loop is given by the list of the indices it assigns, in order, and the
flags by assigning `false` at these indices.  Every loop takes a bound on its number of
turns; `none` means that the loop did not end within the bound. -/

namespace sieve

/-- Arithmetic of `uint64_t`: 64 bits, wrapping. -/
def uint64_t (x : ℕ) : ℕ := x % 18446744073709551616

/-- The function `easy_check_is_definitely_not_prime`, the macro `CHECK_CASE_` expanded. -/
def easy_check_is_definitely_not_prime (val : ℕ) : Bool :=
  if val ≥ 2 * 2 ∧ val % 2 = 0 then true
  else if val ≥ 3 * 3 ∧ val % 3 = 0 then true
  else if val ≥ 5 * 5 ∧ val % 5 = 0 then true
  else if val ≥ 7 * 7 ∧ val % 7 = 0 then true
  else if val ≥ 11 * 11 ∧ val % 11 = 0 then true
  else if val ≥ 13 * 13 ∧ val % 13 = 0 then true
  else false

/-- The assignments `are_prime[j] = false` for the given indices `j`, in order. -/
def assign_false (are_prime : List Bool) (indices : List ℕ) : List Bool :=
  indices.foldl (fun flags j => flags.set j false) are_prime

/-- The value `start_j` of `process_blockwise`:
`std::max(((from + i - 1) / i) * i, i * i)`. -/
def start_j (from_ i : ℕ) : ℕ :=
  max (uint64_t (uint64_t (from_ + i + 18446744073709551615) / i * i)) (uint64_t (i * i))

/-- The loop `for (auto j = start_j; j <= to; j += i) are_prime[j] = false;` of
`process_blockwise`, from a value of `j`: the indices assigned. -/
def blockwise_inner (to_ i : ℕ) : ℕ → ℕ → Option (List ℕ)
  | 0, _ => none
  | fuel + 1, j =>
    if j ≤ to_ then (blockwise_inner to_ i fuel (uint64_t (j + i))).map (fun rest => j :: rest)
    else some []

/-- The loop `for (auto i = uint64_t{2}; i * i <= to; ++i)` of `process_blockwise`, from a
value of `i`: the indices assigned. -/
def blockwise_outer (from_ to_ fuel : ℕ) : ℕ → ℕ → Option (List ℕ)
  | 0, _ => none
  | turns + 1, i =>
    if uint64_t (i * i) ≤ to_ then
      if easy_check_is_definitely_not_prime i then
        blockwise_outer from_ to_ fuel turns (uint64_t (i + 1))
      else
        (blockwise_inner to_ i fuel (start_j from_ i)).bind fun first =>
          (blockwise_outer from_ to_ fuel turns (uint64_t (i + 1))).map fun rest =>
            first ++ rest
    else some []

/-- The function `process_blockwise(are_prime, from, to)`: the indices it assigns. -/
def process_blockwise (fuel from_ to_ : ℕ) : Option (List ℕ) :=
  blockwise_outer from_ to_ fuel fuel 2

/-- The loop `for (auto i = uint64_t{2}; i < n; i += block_size)
process_blockwise(are_prime, i, std::min(i + block_size, last));` of `find_primes_sequential`
(where `last` is `n - 1`) and of `find_primes_parallel` (where `last` is `n`), from a value
of `i`: the indices assigned, block after block. -/
def block_loop (n block_size last fuel : ℕ) : ℕ → ℕ → Option (List ℕ)
  | 0, _ => none
  | turns + 1, i =>
    if i < n then
      (process_blockwise fuel i (min (uint64_t (i + block_size)) last)).bind fun first =>
        (block_loop n block_size last fuel turns (uint64_t (i + block_size))).map fun rest =>
          first ++ rest
    else some []

/-- The function `find_primes_sequential(n, block_size)`: the bitset it returns. -/
def find_primes_sequential (fuel n block_size : ℕ) : Option (List Bool) :=
  (block_loop n block_size (uint64_t (n + 18446744073709551615)) fuel fuel 2).map
    (assign_false (List.replicate n true))

/-- The loop `for (auto j = i * i; j < n; j += i) are_prime[j] = false;` of
`find_primes_naive`, from a value of `j`: the indices assigned. -/
def naive_inner (n i : ℕ) : ℕ → ℕ → Option (List ℕ)
  | 0, _ => none
  | fuel + 1, j =>
    if j < n then (naive_inner n i fuel (uint64_t (j + i))).map (fun rest => j :: rest)
    else some []

/-- The loop `for (auto i = uint64_t{2}; i * i < n; i += 1)` of `find_primes_naive`, from a
value of `i`: the indices assigned. -/
def naive_outer (n fuel : ℕ) : ℕ → ℕ → Option (List ℕ)
  | 0, _ => none
  | turns + 1, i =>
    if uint64_t (i * i) < n then
      if easy_check_is_definitely_not_prime i then
        naive_outer n fuel turns (uint64_t (i + 1))
      else
        (naive_inner n i fuel (uint64_t (i * i))).bind fun first =>
          (naive_outer n fuel turns (uint64_t (i + 1))).map fun rest => first ++ rest
    else some []

/-- The function `find_primes_naive(n)`: the bitset it returns. -/
def find_primes_naive (fuel n : ℕ) : Option (List Bool) :=
  (naive_outer n fuel fuel 2).map (assign_false (List.replicate n true))

/-- The indices `j` of the stores `are_prime[j] = false` that `find_primes_parallel(n,
block_size)` makes through `process_blockwise`, listed block after block (the blocks are
run by the threads of the team in an order of their own). -/
def find_primes_parallel (fuel n block_size : ℕ) : Option (List ℕ) :=
  block_loop n block_size n fuel fuel 2

/-- Some sieving value clears `k`: a value `i ≥ 2` that the easy check lets through, with
`i * i ≤ k` and `i` dividing `k`. -/
def marked (k : ℕ) : Prop :=
  ∃ i, 2 ≤ i ∧ easy_check_is_definitely_not_prime i = false ∧ i * i ≤ k ∧ i ∣ k

end sieve

/-! # The floating type of `05-intro-threads/src/integration.cc`

`main` instantiates `lockfree::parallel_integrate` at `double`.  A finite value of `double`
(IEEE 754 binary64) is, up to its sign, a multiple `units * 2^(-1074)` of the least positive
value; it is given by its sign and by `units`, so `0.5` is `2^1073` units and `1.0` is
`2^1074` units.  Every operation rounds to nearest, ties to even, overflows to an infinity
and passes a NaN on; a comparison with a NaN is false, and `-0.0` and `0.0` compare
equal. -/

namespace binary64

/-- A value of `double`. -/
inductive double
  /-- the finite value `units * 2^(-1074)`, negated if `negative` -/
  | finite (negative : Bool) (units : ℕ)
  /-- an infinity -/
  | infinity (negative : Bool)
  /-- not a number -/
  | nan
deriving DecidableEq

/-- The integer nearest to `n / d`, the even one of two nearest. -/
def round_half_even (n d : ℕ) : ℕ :=
  if 2 * (n % d) < d then n / d
  else if d < 2 * (n % d) then n / d + 1
  else if (n / d) % 2 = 0 then n / d
  else n / d + 1

/-- By how many bits a natural number exceeds the 53 bits of a significand; the first
argument bounds the count. -/
def excess_bits : ℕ → ℕ → ℕ
  | 0, _ => 0
  | fuel + 1, whole => if whole < 9007199254740992 then 0 else excess_bits fuel (whole / 2) + 1

/-- The magnitude `n / 2^p`, in units of `2^(-1074)`, rounded to a significand of 53 bits. -/
def round_magnitude (n p : ℕ) : ℕ :=
  round_half_even n (2 ^ (p + excess_bits (n / 2 ^ p) (n / 2 ^ p)))
    * 2 ^ excess_bits (n / 2 ^ p) (n / 2 ^ p)

/-- The value of a sign and a rounded magnitude: an infinity from `2^1024` on. -/
def of_magnitude (negative : Bool) (units : ℕ) : double :=
  if 2 ^ 2098 ≤ units then double.infinity negative else double.finite negative units

/-- The sum `x + y`. -/
def add : double → double → double
  | double.finite s1 k1, double.finite s2 k2 =>
    if s1 = s2 then of_magnitude s1 (round_magnitude (k1 + k2) 0)
    else if k1 = k2 then double.finite false 0
    else if k2 < k1 then of_magnitude s1 (round_magnitude (k1 - k2) 0)
    else of_magnitude s2 (round_magnitude (k2 - k1) 0)
  | double.finite _ _, double.infinity s => double.infinity s
  | double.infinity s, double.finite _ _ => double.infinity s
  | double.infinity s1, double.infinity s2 => if s1 = s2 then double.infinity s1 else double.nan
  | double.nan, _ => double.nan
  | _, double.nan => double.nan

/-- The negation `-x`. -/
def neg : double → double
  | double.finite s k => double.finite (!s) k
  | double.infinity s => double.infinity (!s)
  | double.nan => double.nan

/-- The difference `x - y`. -/
def sub (x y : double) : double := add x (neg y)

/-- The product `x * y`. -/
def mul : double → double → double
  | double.finite s1 k1, double.finite s2 k2 =>
    of_magnitude (xor s1 s2) (round_magnitude (k1 * k2) 1074)
  | double.finite s1 k, double.infinity s2 =>
    if k = 0 then double.nan else double.infinity (xor s1 s2)
  | double.infinity s1, double.finite s2 k =>
    if k = 0 then double.nan else double.infinity (xor s1 s2)
  | double.infinity s1, double.infinity s2 => double.infinity (xor s1 s2)
  | double.nan, _ => double.nan
  | _, double.nan => double.nan

/-- The quotient `x / 2`. -/
def halve : double → double
  | double.finite s k => of_magnitude s (round_magnitude k 1)
  | double.infinity s => double.infinity s
  | double.nan => double.nan

/-- The absolute value `std::abs(x)`. -/
def abs : double → double
  | double.finite _ k => double.finite false k
  | double.infinity _ => double.infinity false
  | double.nan => double.nan

/-- The comparison `x < y`. -/
def lt : double → double → Bool
  | double.finite s1 k1, double.finite s2 k2 =>
    if s1 then (if s2 then decide (k2 < k1) else decide (0 < k1 ∨ 0 < k2))
    else (if s2 then false else decide (k1 < k2))
  | double.finite _ _, double.infinity s => !s
  | double.infinity s, double.finite _ _ => s
  | double.infinity s1, double.infinity s2 => s1 && !s2
  | double.nan, _ => false
  | _, double.nan => false

/-- The comparison `x <= y`. -/
def le : double → double → Bool
  | double.finite s1 k1, double.finite s2 k2 =>
    if s1 then (if s2 then decide (k2 ≤ k1) else true)
    else (if s2 then decide (k1 = 0 ∧ k2 = 0) else decide (k1 ≤ k2))
  | double.finite _ _, double.infinity s => !s
  | double.infinity s, double.finite _ _ => s
  | double.infinity s1, double.infinity s2 => s1 || !s2
  | double.nan, _ => false
  | _, double.nan => false

/-- The comparison `x >= y`. -/
def ge (x y : double) : Bool := le y x

/-- The function `std::midpoint` on `double`, the way the library computes it:
`(a + b) / 2` where neither magnitude exceeds half the largest finite value, and else
`a + b / 2`, `a / 2 + b` or `a / 2 + b / 2`, a magnitude below twice the least normal value
not being halved. -/
def std_midpoint (a b : double) : double :=
  if le (abs a) (double.finite false ((2 ^ 53 - 1) * 2 ^ 2044))
      && le (abs b) (double.finite false ((2 ^ 53 - 1) * 2 ^ 2044)) then halve (add a b)
  else if lt (abs a) (double.finite false (2 ^ 53)) then add a (halve b)
  else if lt (abs b) (double.finite false (2 ^ 53)) then add (halve a) b
  else add (halve a) (halve b)

/-- The record `lockfree::task<double>`. -/
structure task where
  a : double
  b : double
  func_val_a : double
  func_val_b : double
  integral : double
deriving DecidableEq

/-- `push_back` on a `boost::container::static_vector` of the given capacity: it fails on a
full vector. -/
def push_back (capacity : ℕ) (v : List task) (x : task) : Option (List task) :=
  if v.length < capacity then some (v ++ [x]) else none

/-- The lambda `local_handler` of `global_handler`, at `T = double`.  The captured
`local_queue` and `local_accumulator` are passed in and returned; `none` is the overflow of
the static vector of capacity `capacity_extra + local_queue_max_size = 36`. -/
def local_handler (function : double → double) (eps : double) (local_queue : List task)
    (local_accumulator : double) (t : task) : Option (List task × double) :=
  let mid := std_midpoint t.a t.b
  let func_val_mid := function mid
  let integral_left := mul (std_midpoint t.func_val_a func_val_mid) (sub mid t.a)
  let integral_right := mul (std_midpoint func_val_mid t.func_val_b) (sub t.b mid)
  let new_integral := add integral_left integral_right
  if ge (abs (sub new_integral t.integral)) (mul eps (abs new_integral)) = true then
    (push_back 36 local_queue
        { a := t.a, b := mid, func_val_a := t.func_val_a, func_val_b := func_val_mid,
          integral := integral_left }).bind fun q =>
      (push_back 36 q
        { a := mid, b := t.b, func_val_a := func_val_mid, func_val_b := t.func_val_b,
          integral := integral_right }).map fun q2 => (q2, local_accumulator)
  else
    some (local_queue, add local_accumulator new_integral)

/-- The root task `parallel_integrate` enqueues, at `T = double`. -/
def root (a b : double) (function : double → double) : task :=
  { a := a, b := b, func_val_a := function a, func_val_b := function b,
    integral := mul (std_midpoint (function a) (function b)) (sub b a) }

/-- The midpoint `mid` computed by `local_handler` for a task. -/
def mid (t : task) : double := std_midpoint t.a t.b

/-- The value `integral_left` computed by `local_handler` for a task. -/
def integral_left (function : double → double) (t : task) : double :=
  mul (std_midpoint t.func_val_a (function (mid t))) (sub (mid t) t.a)

/-- The value `integral_right` computed by `local_handler` for a task. -/
def integral_right (function : double → double) (t : task) : double :=
  mul (std_midpoint (function (mid t)) t.func_val_b) (sub t.b (mid t))

/-- The value `new_integral` computed by `local_handler` for a task. -/
def new_integral (function : double → double) (t : task) : double :=
  add (integral_left function t) (integral_right function t)

/-- The first element of `to_enqueue`. -/
def left_child (function : double → double) (t : task) : task :=
  { a := t.a, b := mid t, func_val_a := t.func_val_a, func_val_b := function (mid t),
    integral := integral_left function t }

/-- The second element of `to_enqueue`. -/
def right_child (function : double → double) (t : task) : task :=
  { a := mid t, b := t.b, func_val_a := function (mid t), func_val_b := t.func_val_b,
    integral := integral_right function t }

end binary64

namespace lockfree

/-! ## The refinement step `local_handler` -/

theorem push_back_eq_some {capacity : ℕ} {v : List task} (x : task) (h : v.length < capacity) :
    push_back capacity v x = some (v ++ [x]) := by
  simp [push_back, h]

/-- The two branches of `local_handler` on a buffer with room for two more tasks. -/
theorem local_handler_eq (function : ℚ → ℚ) (eps : ℚ) (local_queue : List task)
    (local_accumulator : ℚ) (t : task)
    (hroom : local_queue.length + 2 ≤ capacity_extra + local_queue_max_size) :
    local_handler function eps local_queue local_accumulator t =
      if diverged function eps t then
        some (local_queue ++ [left_child function t, right_child function t],
          local_accumulator)
      else some (local_queue, local_accumulator + new_integral function t) := by
  simp only [local_handler, diverged, new_integral, integral_left, integral_right, mid]
  split_ifs with h1
  · rw [push_back_eq_some (v := local_queue) _ (by omega)]
    simp only [Option.some_bind]
    rw [push_back_eq_some _ (by simp; omega)]
    simp [left_child, right_child, mid, integral_left, integral_right]
  · rfl

/-- A split of `local_handler` leaves a longer buffer, a convergence the same buffer. -/
theorem local_handler_split_inv {function : ℚ → ℚ} {eps : ℚ} {q : List task} {acc acc2 : ℚ}
    {t c1 c2 : task}
    (h : local_handler function eps q acc t = some (q ++ [c1, c2], acc2)) :
    diverged function eps t ∧ c1 = left_child function t ∧ c2 = right_child function t
      ∧ acc2 = acc := by
  simp only [local_handler] at h
  split_ifs at h with h1
  · unfold push_back at h
    split_ifs at h with h2
    · simp only [Option.some_bind] at h
      split_ifs at h with h3
      · simp only [Option.map_some', Option.some.injEq, Prod.mk.injEq, List.append_assoc,
          List.singleton_append, List.append_cancel_left_eq, List.cons.injEq, and_true] at h
        refine ⟨h1, ?_, ?_, h.2.symm⟩
        · rw [← h.1.1]; rfl
        · rw [← h.1.2]; rfl
      · simp at h
    · simp at h
  · simp only [Option.some.injEq, Prod.mk.injEq] at h
    have := congrArg List.length h.1
    simp at this

/-- The refinement step in exact arithmetic: for every task `(a, b, f_a, f_b, integral)`,
tolerance and function, `local_handler` (on a buffer with room for two tasks, as in
`global_handler`) computes `mid = (a+b)/2`, the two trapezoid estimates and `refined`, and
it adds `refined` to the accumulator and pushes no task exactly when
`|refined - integral| < eps * |refined|`; in every other case it pushes exactly two tasks
and adds nothing. -/
theorem local_handler_converged_iff (function : ℚ → ℚ) (eps a b f_a f_b integral : ℚ)
    (local_queue : List task) (local_accumulator : ℚ)
    (hroom : local_queue.length + 2 ≤ 36) :
    (local_handler function eps local_queue local_accumulator
        { a := a, b := b, func_val_a := f_a, func_val_b := f_b, integral := integral }
        = some (local_queue, local_accumulator
            + ((f_a + function ((a + b) / 2)) / 2 * ((a + b) / 2 - a)
              + (function ((a + b) / 2) + f_b) / 2 * (b - (a + b) / 2)))
      ↔ |((f_a + function ((a + b) / 2)) / 2 * ((a + b) / 2 - a)
            + (function ((a + b) / 2) + f_b) / 2 * (b - (a + b) / 2)) - integral|
          < eps * |(f_a + function ((a + b) / 2)) / 2 * ((a + b) / 2 - a)
            + (function ((a + b) / 2) + f_b) / 2 * (b - (a + b) / 2)|)
    ∧ (¬ |((f_a + function ((a + b) / 2)) / 2 * ((a + b) / 2 - a)
            + (function ((a + b) / 2) + f_b) / 2 * (b - (a + b) / 2)) - integral|
          < eps * |(f_a + function ((a + b) / 2)) / 2 * ((a + b) / 2 - a)
            + (function ((a + b) / 2) + f_b) / 2 * (b - (a + b) / 2)| →
        ∃ c1 c2, local_handler function eps local_queue local_accumulator
          { a := a, b := b, func_val_a := f_a, func_val_b := f_b, integral := integral }
          = some (local_queue ++ [c1, c2], local_accumulator)) := by
  have hroom2 : local_queue.length + 2 ≤ capacity_extra + local_queue_max_size := hroom
  rw [local_handler_eq _ _ _ _ _ hroom2]
  simp only [diverged, new_integral, integral_left, integral_right, mid, std_midpoint,
    ge_iff_le]
  constructor
  · constructor
    · intro h
      split_ifs at h with h1
      · have := congrArg (fun r => (r.map Prod.fst).map List.length) h
        simp at this
      · exact not_le.mp h1
    · intro h
      rw [if_neg (not_le.mpr h)]
  · intro h
    rw [if_pos (not_lt.mp h)]
    exact ⟨_, _, rfl⟩

/-- In exact arithmetic the task of `x ↦ x` over `[0, 1]` converges on the empty buffer. -/
theorem local_handler_converged_iff_witness :
    ([] : List task).length + 2 ≤ 36 ∧
    local_handler (fun x => x) (1 / 10) [] 0
        { a := 0, b := 1, func_val_a := 0, func_val_b := 1, integral := 1 / 2 }
        = some ([], 0 + ((0 + (0 + 1) / 2) / 2 * ((0 + 1) / 2 - 0)
              + ((0 + 1) / 2 + 1) / 2 * (1 - (0 + 1) / 2))) :=
  ⟨by simp, (local_handler_converged_iff (fun x => x) (1 / 10) 0 1 0 1 (1 / 2) [] 0
    (by simp)).1.2 (by norm_num)⟩

/-- C2: for every task that `local_handler` classifies as diverged, the two tasks pushed
are exactly `(a, mid, f_a, f(mid), estimate_left)` and `(mid, b, f(mid), f_b,
estimate_right)` with `mid = (a+b)/2`, the estimates being the trapezoid estimates of the
two halves. -/
theorem local_handler_children (function : ℚ → ℚ) (eps a b f_a f_b integral : ℚ)
    (local_queue : List task) (local_accumulator : ℚ)
    (hroom : local_queue.length + 2 ≤ 36)
    (hdiv : ¬ |((f_a + function ((a + b) / 2)) / 2 * ((a + b) / 2 - a)
            + (function ((a + b) / 2) + f_b) / 2 * (b - (a + b) / 2)) - integral|
          < eps * |(f_a + function ((a + b) / 2)) / 2 * ((a + b) / 2 - a)
            + (function ((a + b) / 2) + f_b) / 2 * (b - (a + b) / 2)|) :
    local_handler function eps local_queue local_accumulator
        { a := a, b := b, func_val_a := f_a, func_val_b := f_b, integral := integral }
      = some (local_queue ++
          [{ a := a, b := (a + b) / 2, func_val_a := f_a, func_val_b := function ((a + b) / 2),
             integral := (f_a + function ((a + b) / 2)) / 2 * ((a + b) / 2 - a) },
           { a := (a + b) / 2, b := b, func_val_a := function ((a + b) / 2), func_val_b := f_b,
             integral := (function ((a + b) / 2) + f_b) / 2 * (b - (a + b) / 2) }],
          local_accumulator) := by
  have hroom2 : local_queue.length + 2 ≤ capacity_extra + local_queue_max_size := hroom
  rw [local_handler_eq _ _ _ _ _ hroom2, if_pos]
  · rfl
  · simpa only [diverged, new_integral, integral_left, integral_right, mid, std_midpoint,
      ge_iff_le, not_lt] using hdiv

/-- Witness of C2: the task of `x ↦ x²` over `[0, 1]` is split at `1/2`. -/
theorem local_handler_children_witness :
    local_handler (fun x => x * x) (1 / 10) [] 0
        { a := 0, b := 1, func_val_a := 0, func_val_b := 1, integral := 1 / 2 }
      = some ([] ++
          [{ a := 0, b := (0 + 1) / 2, func_val_a := 0,
             func_val_b := (fun x : ℚ => x * x) ((0 + 1) / 2),
             integral := (0 + (fun x : ℚ => x * x) ((0 + 1) / 2)) / 2 * ((0 + 1) / 2 - 0) },
           { a := (0 + 1) / 2, b := 1, func_val_a := (fun x : ℚ => x * x) ((0 + 1) / 2),
             func_val_b := 1,
             integral := ((fun x : ℚ => x * x) ((0 + 1) / 2) + 1) / 2 * (1 - (0 + 1) / 2) }],
          0) :=
  local_handler_children (fun x => x * x) (1 / 10) 0 1 0 1 (1 / 2) [] 0 (by simp)
    (by norm_num [abs_of_nonneg, abs_of_nonpos])

/-- C10, as stated, fails: the task of `x ↦ x²` over `[0, 1]` with estimate `1/2` is split
into children with estimates `1/16` and `5/16`, whose sum is not `1/2`. -/
theorem children_sum_counterexample :
    local_handler (fun x => x * x) (1 / 10) [] 0
        { a := 0, b := 1, func_val_a := 0, func_val_b := 1, integral := 1 / 2 }
      = some ([{ a := 0, b := 1 / 2, func_val_a := 0, func_val_b := 1 / 4, integral := 1 / 16 },
               { a := 1 / 2, b := 1, func_val_a := 1 / 4, func_val_b := 1, integral := 5 / 16 }],
              0)
    ∧ (1 / 16 : ℚ) + 5 / 16 ≠ 1 / 2 := by
  constructor
  · rw [local_handler_eq _ _ _ _ _ (by simp [capacity_extra, local_queue_max_size]), if_pos]
    · simp only [left_child, right_child, integral_left, integral_right, mid, std_midpoint]
      norm_num
    · simp only [diverged, new_integral, integral_left, integral_right, mid, std_midpoint]
      norm_num [abs_of_nonneg, abs_of_nonpos]
  · norm_num

/-- C10, amended: whenever `local_handler` splits a task, the estimates of the two children
add up to the refined estimate `new_integral` of the parent, and that sum misses the
parent's own estimate by at least `eps` times its magnitude. -/
theorem children_sum_eq_refined (function : ℚ → ℚ) (eps : ℚ) (local_queue : List task)
    (local_accumulator acc2 : ℚ) (t c1 c2 : task)
    (h : local_handler function eps local_queue local_accumulator t
      = some (local_queue ++ [c1, c2], acc2)) :
    c1.integral + c2.integral
        = (t.func_val_a + function ((t.a + t.b) / 2)) / 2 * ((t.a + t.b) / 2 - t.a)
          + (function ((t.a + t.b) / 2) + t.func_val_b) / 2 * (t.b - (t.a + t.b) / 2)
      ∧ eps * |c1.integral + c2.integral| ≤ |c1.integral + c2.integral - t.integral| := by
  obtain ⟨hd, h1, h2, -⟩ := local_handler_split_inv h
  subst h1 h2
  refine ⟨rfl, ?_⟩
  exact hd

/-- Witness of the amended C10 on the task of `x ↦ x²` over `[0, 1]`. -/
theorem children_sum_eq_refined_witness :
    (1 / 16 : ℚ) + 5 / 16
        = (0 + (fun x : ℚ => x * x) ((0 + 1) / 2)) / 2 * ((0 + 1) / 2 - 0)
          + ((fun x : ℚ => x * x) ((0 + 1) / 2) + 1) / 2 * (1 - (0 + 1) / 2)
      ∧ 1 / 10 * |(1 / 16 : ℚ) + 5 / 16| ≤ |(1 / 16 : ℚ) + 5 / 16 - 1 / 2| :=
  children_sum_eq_refined (fun x => x * x) (1 / 10) [] 0 0
    { a := 0, b := 1, func_val_a := 0, func_val_b := 1, integral := 1 / 2 }
    { a := 0, b := 1 / 2, func_val_a := 0, func_val_b := 1 / 4, integral := 1 / 16 }
    { a := 1 / 2, b := 1, func_val_a := 1 / 4, func_val_b := 1, integral := 5 / 16 }
    (by
      rw [local_handler_eq _ _ _ _ _ (by simp [capacity_extra, local_queue_max_size]), if_pos]
      · simp only [left_child, right_child, integral_left, integral_right, mid, std_midpoint]
        norm_num
      · simp only [diverged, new_integral, integral_left, integral_right, mid, std_midpoint]
        norm_num [abs_of_nonneg, abs_of_nonpos])

/-! ## The steps of the machine -/

@[simp] theorem set_worker_workers (s : state) (i : ℕ) (w : worker) :
    (set_worker s i w).workers = Function.update s.workers i w := rfl

@[simp] theorem set_worker_global_queue (s : state) (i : ℕ) (w : worker) :
    (set_worker s i w).global_queue = s.global_queue := rfl

@[simp] theorem set_worker_active_count (s : state) (i : ℕ) (w : worker) :
    (set_worker s i w).active_count = s.active_count := rfl

@[simp] theorem set_worker_accumulated_integral (s : state) (i : ℕ) (w : worker) :
    (set_worker s i w).accumulated_integral = s.accumulated_integral := rfl

@[simp] theorem set_worker_returned (s : state) (i : ℕ) (w : worker) :
    (set_worker s i w).returned = s.returned := rfl

theorem perm_cons_eraseIdx : ∀ (q : List task) (i : ℕ) (item : task),
    q[i]? = some item → q.Perm (item :: q.eraseIdx i)
  | [], i, item, h => by simp at h
  | x :: q, 0, item, h => by
    simp only [List.getElem?_cons_zero, Option.some.injEq] at h
    subst h
    simp
  | x :: q, i + 1, item, h => by
    simp only [List.getElem?_cons_succ] at h
    have ih := perm_cons_eraseIdx q i item h
    simp only [List.eraseIdx_cons_succ]
    exact (List.Perm.cons x ih).trans (List.Perm.swap item x _)

theorem try_dequeue_nil (k : ℕ) : try_dequeue [] k = none := by
  simp [try_dequeue]

theorem try_dequeue_some {q : List task} {k : ℕ} {item : task} {rest : List task}
    (h : try_dequeue q k = some (item, rest)) : q.Perm (item :: rest) := by
  unfold try_dequeue at h
  split at h
  · simp at h
  · rename_i x hx
    simp only [Option.some.injEq, Prod.mk.injEq] at h
    rw [← h.1, ← h.2]
    exact perm_cons_eraseIdx q _ x hx

theorem try_dequeue_none {q : List task} {k : ℕ} (h : try_dequeue q k = none) : q = [] := by
  unfold try_dequeue at h
  split at h
  · rename_i hx
    rw [List.getElem?_eq_none_iff] at hx
    by_contra hq
    have hpos : 0 < q.length := List.length_pos.mpr hq
    have := Nat.mod_lt k hpos
    omega
  · simp at h

theorem while_turn_nil (function : ℚ → ℚ) (eps acc : ℚ) :
    while_turn function eps [] acc = iteration.drained acc := by
  simp [while_turn]

theorem while_turn_concat (function : ℚ → ℚ) (eps acc : ℚ) (rest : List task) (item : task)
    (h : rest.length < local_queue_max_size) :
    while_turn function eps (rest ++ [item]) acc =
      if diverged function eps item then
        iteration.next (rest ++ [left_child function item, right_child function item]) acc
      else iteration.next rest (acc + new_integral function item) := by
  have h1 : (rest ++ [item]).length ≤ local_queue_max_size := by simp; omega
  have h2 : rest.length + 2 ≤ capacity_extra + local_queue_max_size := by
    simp only [capacity_extra]; omega
  have h3 : (rest ++ [item]).getLast? = some item := by simp
  simp only [while_turn, if_pos h1, h3, List.dropLast_concat, local_handler_eq _ _ _ _ _ h2]
  split_ifs <;> rfl

theorem while_turn_spill (function : ℚ → ℚ) (eps acc : ℚ) (q : List task)
    (h : local_queue_max_size < q.length) :
    while_turn function eps q acc = iteration.spill q acc := by
  simp [while_turn, not_le.mpr h]

/-- Case analysis of one step: a property holds after the step of worker `i` once it holds
in each of the situations the step can be in. -/
theorem step_cases (function : ℚ → ℚ) (eps : ℚ) (s : state) (i k : ℕ) (P : state → Prop)
    (poll_fail_active : (s.workers i).at_pc = pc.poll → (s.workers i).currently_active = true →
      s.global_queue = [] →
      P (set_worker s i { at_pc := pc.dec, currently_active := false }))
    (poll_fail_idle : (s.workers i).at_pc = pc.poll → (s.workers i).currently_active = false →
      s.global_queue = [] →
      P (set_worker s i { at_pc := pc.check, currently_active := false }))
    (poll_ok_active : ∀ item rest, (s.workers i).at_pc = pc.poll →
      (s.workers i).currently_active = true → s.global_queue.Perm (item :: rest) →
      P (set_worker { s with global_queue := rest } i
        { at_pc := pc.handle [item] 0, currently_active := true }))
    (poll_ok_idle : ∀ item rest, (s.workers i).at_pc = pc.poll →
      (s.workers i).currently_active = false → s.global_queue.Perm (item :: rest) →
      P (set_worker { s with global_queue := rest } i
        { at_pc := pc.inc item, currently_active := true }))
    (dec : (s.workers i).at_pc = pc.dec →
      P (set_worker { s with active_count := uint32_decrement s.active_count } i
        { at_pc := pc.poll, currently_active := (s.workers i).currently_active }))
    (check_zero : (s.workers i).at_pc = pc.check → s.active_count = 0 →
      P (set_worker s i
        { at_pc := pc.done, currently_active := (s.workers i).currently_active }))
    (check_pos : (s.workers i).at_pc = pc.check → s.active_count ≠ 0 →
      P (set_worker s i
        { at_pc := pc.poll, currently_active := (s.workers i).currently_active }))
    (inc : ∀ item, (s.workers i).at_pc = pc.inc item →
      P (set_worker { s with active_count := uint32_increment s.active_count } i
        { at_pc := pc.handle [item] 0, currently_active := (s.workers i).currently_active }))
    (converge : ∀ rest item acc, (s.workers i).at_pc = pc.handle (rest ++ [item]) acc →
      rest.length < local_queue_max_size → ¬ diverged function eps item →
      P (set_worker s i
        { at_pc := pc.handle rest (acc + new_integral function item),
          currently_active := (s.workers i).currently_active }))
    (split : ∀ rest item acc, (s.workers i).at_pc = pc.handle (rest ++ [item]) acc →
      rest.length < local_queue_max_size → diverged function eps item →
      P (set_worker s i
        { at_pc := pc.handle (rest ++ [left_child function item, right_child function item]) acc,
          currently_active := (s.workers i).currently_active }))
    (drained : ∀ acc, (s.workers i).at_pc = pc.handle [] acc →
      P (set_worker { s with accumulated_integral := s.accumulated_integral + acc } i
        { at_pc := pc.poll, currently_active := (s.workers i).currently_active }))
    (spill : ∀ q acc, (s.workers i).at_pc = pc.handle q acc → local_queue_max_size < q.length →
      P (set_worker { s with global_queue := s.global_queue ++ q } i
        { at_pc := pc.flush acc, currently_active := (s.workers i).currently_active }))
    (flush : ∀ acc, (s.workers i).at_pc = pc.flush acc →
      P (set_worker { s with accumulated_integral := s.accumulated_integral + acc } i
        { at_pc := pc.poll, currently_active := (s.workers i).currently_active }))
    (ret : (s.workers i).at_pc = pc.done → i = 0 → s.returned = none →
      P { s with returned := some s.accumulated_integral })
    (stay : ((s.workers i).at_pc = pc.done ∧ ¬ (i = 0 ∧ s.returned = none))
      ∨ (s.workers i).at_pc = pc.overflow → P s) :
    P (step function eps s i k) := by
  unfold step
  split
  · rename_i hpc
    split
    · rename_i hq
      have hnil := try_dequeue_none hq
      split_ifs with hact
      · exact poll_fail_active hpc hact hnil
      · exact poll_fail_idle hpc (by simpa using hact) hnil
    · rename_i item rest hq
      have hperm := try_dequeue_some hq
      split_ifs with hact
      · exact poll_ok_active item rest hpc hact hperm
      · exact poll_ok_idle item rest hpc (by simpa using hact) hperm
  · rename_i hpc
    exact dec hpc
  · rename_i hpc
    split_ifs with h0
    · exact check_zero hpc h0
    · exact check_pos hpc h0
  · rename_i item hpc
    exact inc item hpc
  · rename_i q acc hpc
    by_cases hlen : q.length ≤ local_queue_max_size
    · rcases List.eq_nil_or_concat q with hq | ⟨rest, item, hq⟩
      · subst hq
        rw [while_turn_nil]
        exact drained acc hpc
      · subst hq
        have hrest : rest.length < local_queue_max_size := by
          simp at hlen; omega
        rw [List.concat_eq_append] at hpc
        rw [List.concat_eq_append, while_turn_concat _ _ _ _ _ hrest]
        by_cases hd : diverged function eps item
        · rw [if_pos hd]
          exact split rest item acc hpc hrest hd
        · rw [if_neg hd]
          exact converge rest item acc hpc hrest hd
    · rw [while_turn_spill _ _ _ _ (not_le.mp hlen)]
      exact spill q acc hpc (not_le.mp hlen)
  · rename_i acc hpc
    exact flush acc hpc
  · rename_i hpc
    split_ifs with h
    · exact ret hpc h.1 h.2
    · exact stay (Or.inl ⟨hpc, h⟩)
  · rename_i hpc
    exact stay (Or.inr hpc)

/-! ## The counter protocol -/

theorem sum_update_worker {M : Type} [AddCommMonoid M] (g : worker → M) (ws : ℕ → worker)
    (n i : ℕ) (hi : i < n) (w : worker) :
    ∑ j in Finset.range n, g (Function.update ws i w j) + g (ws i)
      = ∑ j in Finset.range n, g (ws j) + g w := by
  have hmem : i ∈ Finset.range n := Finset.mem_range.mpr hi
  rw [← Finset.add_sum_erase _ _ hmem, ← Finset.add_sum_erase _ (fun j => g (ws j)) hmem]
  have hrest : ∑ j in (Finset.range n).erase i, g (Function.update ws i w j)
      = ∑ j in (Finset.range n).erase i, g (ws j) := by
    apply Finset.sum_congr rfl
    intro j hj
    rw [Function.update_noteq (Finset.ne_of_mem_erase hj)]
  rw [hrest, Function.update_same]
  abel

theorem uint32_increment_mod {c : ℕ} (h : c < 4294967296) :
    uint32_increment c = (c + 1) % 4294967296 := by
  unfold uint32_increment
  split_ifs with h1
  · subst h1; rfl
  · rw [Nat.mod_eq_of_lt (by omega)]

theorem uint32_decrement_mod {c : ℕ} (h : c < 4294967296) :
    uint32_decrement c = (c + 4294967296 - 1) % 4294967296 := by
  unfold uint32_decrement
  split_ifs with h1
  · subst h1; rfl
  · have : c + 4294967296 - 1 = (c - 1) + 4294967296 := by omega
    rw [this, Nat.add_mod_right, Nat.mod_eq_of_lt (by omega)]

theorem uint32_increment_eq {c : ℕ} (h : c + 1 < 4294967296) :
    uint32_increment c = c + 1 := by
  unfold uint32_increment
  rw [if_neg (by omega)]

theorem uint32_decrement_eq {c : ℕ} (h1 : 1 ≤ c) (_h2 : c < 4294967296) :
    uint32_decrement c = c - 1 := by
  unfold uint32_decrement
  rw [if_neg (by omega)]

theorem counted_le_one (w : worker) : counted w ≤ 1 := by
  unfold counted
  split <;> try split_ifs
  all_goals omega

theorem sum_counted_le (ws : ℕ → worker) (n : ℕ) :
    ∑ j in Finset.range n, counted (ws j) ≤ n := by
  calc ∑ j in Finset.range n, counted (ws j) ≤ ∑ _j in Finset.range n, 1 :=
        Finset.sum_le_sum fun j _ => counted_le_one (ws j)
    _ = n := by simp

theorem count_inv_update {n : ℕ} {s s2 : state} {i : ℕ} {w : worker} (h : count_inv n s)
    (hi : i < n) (hws : s2.workers = Function.update s.workers i w) (hw : well_flagged w)
    (hc : s2.active_count + counted (s.workers i) = s.active_count + counted w) :
    count_inv n s2 := by
  obtain ⟨hflag, hsum⟩ := h
  refine ⟨?_, ?_⟩
  · intro j
    rw [hws]
    by_cases hj : j = i
    · subst hj; rw [Function.update_same]; exact hw
    · rw [Function.update_noteq hj]; exact hflag j
  · have := sum_update_worker counted s.workers n i hi w
    rw [hws]
    omega

theorem count_inv_le {n : ℕ} {s : state} (h : count_inv n s) : s.active_count ≤ n := by
  rw [h.2]; exact sum_counted_le _ _

theorem count_inv_room {n : ℕ} {s : state} (h : count_inv n s) {i : ℕ} (hi : i < n)
    (hz : counted (s.workers i) = 0) : s.active_count + 1 ≤ n := by
  have h1 := sum_update_worker counted s.workers n i hi
    { at_pc := pc.dec, currently_active := false }
  have h2 := sum_counted_le
    (Function.update s.workers i { at_pc := pc.dec, currently_active := false }) n
  have h3 : counted { at_pc := pc.dec, currently_active := false } = 1 := rfl
  rw [h.2]
  omega

theorem count_inv_pos {n : ℕ} {s : state} (h : count_inv n s) {i : ℕ} (hi : i < n)
    (hz : counted (s.workers i) = 1) : 1 ≤ s.active_count := by
  rw [h.2, ← hz]
  exact Finset.single_le_sum (f := fun j => counted (s.workers j)) (fun _ _ => Nat.zero_le _)
    (Finset.mem_range.mpr hi)

theorem count_inv_init (n : ℕ) (a b : ℚ) (function : ℚ → ℚ) :
    count_inv n (init a b function) := by
  refine ⟨fun j => trivial, ?_⟩
  simp [init, counted]

theorem count_inv_step {n : ℕ} (hn : n < 4294967296) (function : ℚ → ℚ) (eps : ℚ) {s : state}
    (h : count_inv n s) {i : ℕ} (hi : i < n) (k : ℕ) :
    count_inv n (step function eps s i k) := by
  have hfl := h.1 i
  refine step_cases function eps s i k (count_inv n) ?_ ?_ ?_ ?_ ?_ ?_ ?_ ?_ ?_ ?_ ?_ ?_ ?_ ?_ ?_
  · intro hpc hact _
    exact count_inv_update h hi rfl rfl (by simp [counted, hpc, hact])
  · intro hpc hact _
    exact count_inv_update h hi rfl rfl (by simp [counted, hpc, hact])
  · intro item rest hpc hact _
    exact count_inv_update h hi rfl rfl (by simp [counted, hpc, hact])
  · intro item rest hpc hact _
    exact count_inv_update h hi rfl rfl (by simp [counted, hpc, hact])
  · intro hpc
    have hc : counted (s.workers i) = 1 := by simp [counted, hpc]
    have hf : (s.workers i).currently_active = false := by
      simpa [well_flagged, hpc] using hfl
    have hpos := count_inv_pos h hi hc
    have hle := count_inv_le h
    refine count_inv_update h hi rfl trivial ?_
    have : uint32_decrement s.active_count = s.active_count - 1 :=
      uint32_decrement_eq hpos (by omega)
    have hnew : counted (worker.mk pc.poll (s.workers i).currently_active) = 0 := by
      simp [counted, hf]
    show uint32_decrement s.active_count + counted (s.workers i) = s.active_count + counted _
    rw [this, hc, hnew]
    omega
  · intro hpc _
    have hf : (s.workers i).currently_active = false := by
      simpa [well_flagged, hpc] using hfl
    exact count_inv_update h hi rfl hf (by simp [counted, hpc])
  · intro hpc _
    have hf : (s.workers i).currently_active = false := by
      simpa [well_flagged, hpc] using hfl
    exact count_inv_update h hi rfl trivial (by simp [counted, hpc, hf])
  · intro item hpc
    have hc : counted (s.workers i) = 0 := by simp [counted, hpc]
    have hf : (s.workers i).currently_active = true := by
      simpa [well_flagged, hpc] using hfl
    have hroom := count_inv_room h hi hc
    refine count_inv_update h hi rfl hf ?_
    have hnew : counted (worker.mk (pc.handle [item] 0) (s.workers i).currently_active) = 1 :=
      rfl
    show uint32_increment s.active_count + counted (s.workers i) = s.active_count + counted _
    rw [hc, hnew, uint32_increment_eq (by omega)]
  · intro rest item acc hpc _ _
    have hf : (s.workers i).currently_active = true := by
      simpa [well_flagged, hpc] using hfl
    exact count_inv_update h hi rfl hf (by simp [counted, hpc])
  · intro rest item acc hpc _ _
    have hf : (s.workers i).currently_active = true := by
      simpa [well_flagged, hpc] using hfl
    exact count_inv_update h hi rfl hf (by simp [counted, hpc])
  · intro acc hpc
    have hf : (s.workers i).currently_active = true := by
      simpa [well_flagged, hpc] using hfl
    exact count_inv_update h hi rfl trivial (by simp [counted, hpc, hf])
  · intro q acc hpc _
    have hf : (s.workers i).currently_active = true := by
      simpa [well_flagged, hpc] using hfl
    exact count_inv_update h hi rfl hf (by simp [counted, hpc])
  · intro acc hpc
    have hf : (s.workers i).currently_active = true := by
      simpa [well_flagged, hpc] using hfl
    exact count_inv_update h hi rfl trivial (by simp [counted, hpc, hf])
  · intro _ _ _
    exact h
  · intro _
    exact h

theorem loops_eq {num_threads : ℕ} (h : 1 ≤ num_threads) : loops num_threads = num_threads := by
  simp [loops, threads]
  omega

theorem exec_invariant (function : ℚ → ℚ) (eps : ℚ) (num_threads : ℕ) (P : state → Prop)
    (hstep : ∀ s i k, P s → i < loops num_threads → P (step function eps s i k)) :
    ∀ (schedule : List (ℕ × ℕ)) (s : state), P s → P (exec function eps num_threads schedule s)
  | [], s, h => h
  | (i, k) :: rest, s, h => by
    unfold exec
    split_ifs with hi
    · exact exec_invariant function eps num_threads P hstep rest _ (hstep s i k h hi)
    · exact exec_invariant function eps num_threads P hstep rest s h

theorem count_inv_exec {num_threads : ℕ} (h1 : 1 ≤ num_threads) (h32 : num_threads < 4294967296)
    (a b : ℚ) (function : ℚ → ℚ) (eps : ℚ) (schedule : List (ℕ × ℕ)) :
    count_inv num_threads (exec function eps num_threads schedule (init a b function)) := by
  apply exec_invariant function eps num_threads (count_inv num_threads)
  · intro s i k hs hi
    rw [loops_eq h1] at hi
    exact count_inv_step h32 function eps hs hi k
  · exact count_inv_init _ _ _ _

/-- How one step moves `active_count` and the place of the worker that takes it. -/
theorem step_counter_moves {n : ℕ} (hn : n < 4294967296) (function : ℚ → ℚ) (eps : ℚ) {s : state}
    (h : count_inv n s) {i : ℕ} (hi : i < n) (k : ℕ) :
    (((step function eps s i k).active_count = s.active_count
          ∧ counted ((step function eps s i k).workers i) = counted (s.workers i))
        ∨ ((step function eps s i k).active_count = s.active_count + 1
          ∧ (∃ item, (s.workers i).at_pc = pc.inc item)
          ∧ counted (s.workers i) = 0 ∧ counted ((step function eps s i k).workers i) = 1)
        ∨ ((step function eps s i k).active_count + 1 = s.active_count
          ∧ (s.workers i).at_pc = pc.dec
          ∧ counted (s.workers i) = 1 ∧ counted ((step function eps s i k).workers i) = 0))
      ∧ (∀ item, ((step function eps s i k).workers i).at_pc = pc.inc item →
          (s.workers i).at_pc = pc.poll ∧ (s.workers i).currently_active = false
            ∧ s.global_queue ≠ [])
      ∧ (((step function eps s i k).workers i).at_pc = pc.dec →
          (s.workers i).at_pc = pc.poll ∧ (s.workers i).currently_active = true
            ∧ s.global_queue = []) := by
  have hfl := h.1 i
  refine step_cases function eps s i k (fun s2 =>
    ((s2.active_count = s.active_count ∧ counted (s2.workers i) = counted (s.workers i))
        ∨ (s2.active_count = s.active_count + 1
          ∧ (∃ item, (s.workers i).at_pc = pc.inc item)
          ∧ counted (s.workers i) = 0 ∧ counted (s2.workers i) = 1)
        ∨ (s2.active_count + 1 = s.active_count
          ∧ (s.workers i).at_pc = pc.dec
          ∧ counted (s.workers i) = 1 ∧ counted (s2.workers i) = 0))
      ∧ (∀ item, (s2.workers i).at_pc = pc.inc item →
          (s.workers i).at_pc = pc.poll ∧ (s.workers i).currently_active = false
            ∧ s.global_queue ≠ [])
      ∧ ((s2.workers i).at_pc = pc.dec →
          (s.workers i).at_pc = pc.poll ∧ (s.workers i).currently_active = true
            ∧ s.global_queue = [])) ?_ ?_ ?_ ?_ ?_ ?_ ?_ ?_ ?_ ?_ ?_ ?_ ?_ ?_ ?_
  · intro hpc hact hq
    simp [counted, hpc, hact, hq]
  · intro hpc hact hq
    simp [counted, hpc, hact, hq]
  · intro item rest hpc hact hq
    simp [counted, hpc, hact]
  · intro item rest hpc hact hq
    have hne : s.global_queue ≠ [] := by
      intro h0
      rw [h0] at hq
      simp at hq
    simp [counted, hpc, hact, hne]
  · intro hpc
    have hc : counted (s.workers i) = 1 := by simp [counted, hpc]
    have hf : (s.workers i).currently_active = false := by
      simpa [well_flagged, hpc] using hfl
    have hpos := count_inv_pos h hi hc
    have hle := count_inv_le h
    have : uint32_decrement s.active_count = s.active_count - 1 :=
      uint32_decrement_eq hpos (by omega)
    refine ⟨Or.inr (Or.inr ⟨?_, hpc, hc, ?_⟩), ?_, ?_⟩
    · show uint32_decrement s.active_count + 1 = s.active_count
      rw [this]; omega
    · simp [counted, hf]
    · simp
    · simp
  · intro hpc h0
    simp [counted, hpc]
  · intro hpc h0
    have hf : (s.workers i).currently_active = false := by
      simpa [well_flagged, hpc] using hfl
    simp [counted, hpc, hf]
  · intro item hpc
    have hc : counted (s.workers i) = 0 := by simp [counted, hpc]
    have hroom := count_inv_room h hi hc
    refine ⟨Or.inr (Or.inl ⟨?_, ⟨item, hpc⟩, hc, ?_⟩), ?_, ?_⟩
    · show uint32_increment s.active_count = s.active_count + 1
      exact uint32_increment_eq (by omega)
    · simp [counted]
    · simp
    · simp
  · intro rest item acc hpc _ _
    simp [counted, hpc]
  · intro rest item acc hpc _ _
    simp [counted, hpc]
  · intro acc hpc
    have hf : (s.workers i).currently_active = true := by
      simpa [well_flagged, hpc] using hfl
    simp [counted, hpc, hf]
  · intro q acc hpc _
    simp [counted, hpc]
  · intro acc hpc
    have hf : (s.workers i).currently_active = true := by
      simpa [well_flagged, hpc] using hfl
    simp [counted, hpc, hf]
  · intro hpc _ _
    simp [hpc]
  · intro hpc
    rcases hpc with ⟨hpc, -⟩ | hpc <;> simp [hpc]

/-- C8: in every reachable state of `num_threads` worker loops `active_count` lies in
`[0, num_threads]` and is the number of workers between their increment and their next
decrement; a step that raises it is the `++active_count` of a worker that was not counted
(entered only by a successful dequeue with the flag false), a step that lowers it is the
`--active_count` of a counted worker (entered only by a failed dequeue with the flag true)
and lowers a non-zero counter; so the two alternate per worker, starting with an
increment. -/
theorem active_count_protocol (num_threads : ℕ) (h1 : 1 ≤ num_threads)
    (h32 : num_threads < 4294967296) (a b : ℚ) (function : ℚ → ℚ) (eps : ℚ)
    (schedule : List (ℕ × ℕ)) (i k : ℕ) (hi : i < num_threads) :
    (exec function eps num_threads schedule (init a b function)).active_count ≤ num_threads
    ∧ (exec function eps num_threads schedule (init a b function)).active_count
        = ∑ j in Finset.range num_threads,
            counted ((exec function eps num_threads schedule (init a b function)).workers j)
    ∧ (((step function eps (exec function eps num_threads schedule (init a b function))
              i k).active_count
            = (exec function eps num_threads schedule (init a b function)).active_count
          ∧ counted ((step function eps
              (exec function eps num_threads schedule (init a b function)) i k).workers i)
            = counted ((exec function eps num_threads schedule (init a b function)).workers i))
        ∨ ((step function eps (exec function eps num_threads schedule (init a b function))
              i k).active_count
            = (exec function eps num_threads schedule (init a b function)).active_count + 1
          ∧ (∃ item, ((exec function eps num_threads schedule
              (init a b function)).workers i).at_pc = pc.inc item)
          ∧ counted ((exec function eps num_threads schedule (init a b function)).workers i) = 0
          ∧ counted ((step function eps
              (exec function eps num_threads schedule (init a b function)) i k).workers i) = 1)
        ∨ ((step function eps (exec function eps num_threads schedule (init a b function))
              i k).active_count + 1
            = (exec function eps num_threads schedule (init a b function)).active_count
          ∧ ((exec function eps num_threads schedule (init a b function)).workers i).at_pc
            = pc.dec
          ∧ counted ((exec function eps num_threads schedule (init a b function)).workers i) = 1
          ∧ counted ((step function eps
              (exec function eps num_threads schedule (init a b function)) i k).workers i) = 0))
    ∧ (∀ item, ((step function eps (exec function eps num_threads schedule (init a b function))
            i k).workers i).at_pc = pc.inc item →
          ((exec function eps num_threads schedule (init a b function)).workers i).at_pc = pc.poll
          ∧ ((exec function eps num_threads schedule
              (init a b function)).workers i).currently_active = false
          ∧ (exec function eps num_threads schedule (init a b function)).global_queue ≠ [])
    ∧ (((step function eps (exec function eps num_threads schedule (init a b function))
            i k).workers i).at_pc = pc.dec →
          ((exec function eps num_threads schedule (init a b function)).workers i).at_pc = pc.poll
          ∧ ((exec function eps num_threads schedule
              (init a b function)).workers i).currently_active = true
          ∧ (exec function eps num_threads schedule (init a b function)).global_queue = []) := by
  have hinv := count_inv_exec h1 h32 a b function eps schedule
  exact ⟨count_inv_le hinv, hinv.2, step_counter_moves h32 function eps hinv hi k⟩

/-! ## The recursive quadrature -/

theorem R_succ (f : ℚ → ℚ) (eps : ℚ) (d : ℕ) (t : task) :
    R f eps (d + 1) t =
      if diverged f eps t then
        match R f eps d (left_child f t), R f eps d (right_child f t) with
        | some x, some y => some (x + y)
        | _, _ => none
      else some (new_integral f t) := by
  simp only [R, diverged, new_integral, integral_left, integral_right, mid, std_midpoint,
    left_child, right_child, ge_iff_le]
  split_ifs with h1 h2 h2
  · exact absurd h1 (not_lt.mpr h2)
  · rfl
  · rfl
  · exact absurd (not_lt.mp h1) h2

theorem R_leaf {f : ℚ → ℚ} {eps : ℚ} {d : ℕ} {t : task} {v : ℚ} (h : R f eps d t = some v)
    (hc : ¬ diverged f eps t) : v = new_integral f t ∧ nodes f eps d t = 1 := by
  cases d with
  | zero => simp [R] at h
  | succ d =>
    rw [R_succ, if_neg hc] at h
    simp only [Option.some.injEq] at h
    simp [nodes, hc, h]

theorem R_mono (f : ℚ → ℚ) (eps : ℚ) : ∀ (d : ℕ) (t : task) (v : ℚ), R f eps d t = some v →
    R f eps (d + 1) t = some v ∧ nodes f eps (d + 1) t = nodes f eps d t
  | 0, t, v, h => by simp [R] at h
  | d + 1, t, v, h => by
    rw [R_succ] at h
    rw [R_succ f eps (d + 1)]
    by_cases hd : diverged f eps t
    · rw [if_pos hd] at h
      rw [if_pos hd]
      cases hl : R f eps d (left_child f t) with
      | none => simp [hl] at h
      | some x =>
        cases hr : R f eps d (right_child f t) with
        | none => simp [hl, hr] at h
        | some y =>
          obtain ⟨hl1, hl2⟩ := R_mono f eps d _ x hl
          obtain ⟨hr1, hr2⟩ := R_mono f eps d _ y hr
          rw [hl, hr] at h
          rw [hl1, hr1]
          refine ⟨h, ?_⟩
          rw [nodes, if_pos hd, hl2, hr2, nodes, if_pos hd]
    · rw [if_neg hd] at h
      rw [if_neg hd]
      refine ⟨h, ?_⟩
      rw [nodes, if_neg hd, nodes, if_neg hd]

theorem R_node {f : ℚ → ℚ} {eps : ℚ} {d : ℕ} {t : task} {v : ℚ} (h : R f eps d t = some v)
    (hd : diverged f eps t) :
    ∃ x y, R f eps d (left_child f t) = some x ∧ R f eps d (right_child f t) = some y
      ∧ v = x + y
      ∧ nodes f eps d t = 1 + nodes f eps d (left_child f t) + nodes f eps d (right_child f t) := by
  cases d with
  | zero => simp [R] at h
  | succ d =>
    rw [R_succ, if_pos hd] at h
    cases hl : R f eps d (left_child f t) with
    | none => simp [hl] at h
    | some x =>
      cases hr : R f eps d (right_child f t) with
      | none => simp [hl, hr] at h
      | some y =>
        obtain ⟨hl1, hl2⟩ := R_mono f eps d _ x hl
        obtain ⟨hr1, hr2⟩ := R_mono f eps d _ y hr
        rw [hl, hr] at h
        simp only [Option.some.injEq] at h
        refine ⟨x, y, hl1, hr1, h.symm, ?_⟩
        rw [nodes, if_pos hd, hl2, hr2]

theorem Rv_of_some {f : ℚ → ℚ} {eps : ℚ} {d : ℕ} {t : task} {v : ℚ} (h : R f eps d t = some v) :
    Rv f eps d t = v := by
  simp [Rv, h]

theorem isSome_iff_exists {f : ℚ → ℚ} {eps : ℚ} {d : ℕ} {t : task}
    (h : (R f eps d t).isSome) : ∃ v, R f eps d t = some v :=
  Option.isSome_iff_exists.mp h

/-! ## Conservation of the sum -/

theorem sum_inv_update {f : ℚ → ℚ} {eps : ℚ} {d n : ℕ} {v : ℚ} {s s2 : state} {i : ℕ}
    {w : worker} (h : sum_inv f eps d n v s) (hi : i < n)
    (hws : s2.workers = Function.update s.workers i w)
    (hq : ∀ t ∈ s2.global_queue, (R f eps d t).isSome)
    (hheld : ∀ t ∈ held w, (R f eps d t).isSome)
    (hsum : s2.accumulated_integral + (s2.global_queue.map (Rv f eps d)).sum + worth f eps d w
      = s.accumulated_integral + (s.global_queue.map (Rv f eps d)).sum
        + worth f eps d (s.workers i)) :
    sum_inv f eps d n v s2 := by
  obtain ⟨h1, h2, h3⟩ := h
  refine ⟨?_, hq, ?_⟩
  · have := sum_update_worker (worth f eps d) s.workers n i hi w
    rw [hws]
    linarith
  · intro j
    rw [hws]
    by_cases hj : j = i
    · subst hj; rw [Function.update_same]; exact hheld
    · rw [Function.update_noteq hj]; exact h3 j

theorem sum_inv_init (f : ℚ → ℚ) (eps : ℚ) (d n : ℕ) (v : ℚ) (a b : ℚ)
    (h : R f eps d (root a b f) = some v) : sum_inv f eps d n v (init a b f) := by
  have hroot : (init a b f).global_queue = [root a b f] := rfl
  refine ⟨?_, ?_, ?_⟩
  · rw [hroot]
    simp [init, worth, banked, held, Rv_of_some h]
  · intro t ht
    rw [hroot] at ht
    simp only [List.mem_singleton] at ht
    rw [ht, h]; rfl
  · intro j t ht
    simp [init, held] at ht

theorem sum_inv_step {f : ℚ → ℚ} {eps : ℚ} {d n : ℕ} {v : ℚ} {s : state}
    (h : sum_inv f eps d n v s) {i : ℕ} (hi : i < n) (k : ℕ) :
    sum_inv f eps d n v (step f eps s i k) := by
  have hq := h.2.1
  have hh := h.2.2 i
  refine step_cases f eps s i k (sum_inv f eps d n v) ?_ ?_ ?_ ?_ ?_ ?_ ?_ ?_ ?_ ?_ ?_ ?_ ?_ ?_ ?_
  · intro hpc _ _
    refine sum_inv_update h hi rfl hq ?_ ?_
    · simp [held]
    · simp [worth, banked, held, hpc]
  · intro hpc _ _
    refine sum_inv_update h hi rfl hq ?_ ?_
    · simp [held]
    · simp [worth, banked, held, hpc]
  · intro item rest hpc _ hperm
    have hs : (s.global_queue.map (Rv f eps d)).sum
        = Rv f eps d item + (rest.map (Rv f eps d)).sum := by
      rw [(hperm.map (Rv f eps d)).sum_eq]; simp
    refine sum_inv_update h hi rfl ?_ ?_ ?_
    · intro t ht
      exact hq t (hperm.symm.subset (List.mem_cons_of_mem _ ht))
    · intro t ht
      simp only [held, List.mem_singleton] at ht
      rw [ht]
      exact hq item (hperm.symm.subset (List.mem_cons_self _ _))
    · simp only [set_worker_accumulated_integral, set_worker_global_queue, hs]
      simp [worth, banked, held, hpc]
      ring
  · intro item rest hpc _ hperm
    have hs : (s.global_queue.map (Rv f eps d)).sum
        = Rv f eps d item + (rest.map (Rv f eps d)).sum := by
      rw [(hperm.map (Rv f eps d)).sum_eq]; simp
    refine sum_inv_update h hi rfl ?_ ?_ ?_
    · intro t ht
      exact hq t (hperm.symm.subset (List.mem_cons_of_mem _ ht))
    · intro t ht
      simp only [held, List.mem_singleton] at ht
      rw [ht]
      exact hq item (hperm.symm.subset (List.mem_cons_self _ _))
    · simp only [set_worker_accumulated_integral, set_worker_global_queue, hs]
      simp [worth, banked, held, hpc]
      ring
  · intro hpc
    refine sum_inv_update h hi rfl ?_ ?_ ?_
    · simpa using hq
    · simp [held]
    · simp [worth, banked, held, hpc]
  · intro hpc _
    refine sum_inv_update h hi rfl hq ?_ ?_
    · simp [held]
    · simp [worth, banked, held, hpc]
  · intro hpc _
    refine sum_inv_update h hi rfl hq ?_ ?_
    · simp [held]
    · simp [worth, banked, held, hpc]
  · intro item hpc
    refine sum_inv_update h hi rfl ?_ ?_ ?_
    · simpa using hq
    · simpa [held, hpc] using hh
    · simp [worth, banked, held, hpc]
  · intro rest item acc hpc _ hconv
    have hall : ∀ t ∈ rest ++ [item], (R f eps d t).isSome := by simpa [held, hpc] using hh
    obtain ⟨x, hx⟩ := isSome_iff_exists (hall item (by simp))
    have hleaf := (R_leaf hx hconv).1
    refine sum_inv_update h hi rfl hq ?_ ?_
    · intro t ht
      exact hall t (List.mem_append_left _ (by simpa [held] using ht))
    · simp [worth, banked, held, hpc, Rv_of_some hx, hleaf]
      ring
  · intro rest item acc hpc _ hdiv
    have hall : ∀ t ∈ rest ++ [item], (R f eps d t).isSome := by simpa [held, hpc] using hh
    obtain ⟨x, hx⟩ := isSome_iff_exists (hall item (by simp))
    obtain ⟨y, z, hy, hz, hxyz, -⟩ := R_node hx hdiv
    refine sum_inv_update h hi rfl hq ?_ ?_
    · intro t ht
      simp only [held, List.mem_append, List.mem_cons, List.mem_singleton,
        List.not_mem_nil, or_false] at ht
      rcases ht with ht | ht | ht
      · exact hall t (List.mem_append_left _ ht)
      · rw [ht, hy]; rfl
      · rw [ht, hz]; rfl
    · simp [worth, banked, held, hpc, Rv_of_some hx, Rv_of_some hy, Rv_of_some hz, hxyz]
  · intro acc hpc
    refine sum_inv_update h hi rfl hq ?_ ?_
    · simp [held]
    · simp [worth, banked, held, hpc]
      ring
  · intro q acc hpc _
    have hall : ∀ t ∈ q, (R f eps d t).isSome := by simpa [held, hpc] using hh
    refine sum_inv_update h hi rfl ?_ ?_ ?_
    · intro t ht
      simp only [set_worker_global_queue, List.mem_append] at ht
      rcases ht with ht | ht
      · exact hq t ht
      · exact hall t ht
    · simp [held]
    · simp [worth, banked, held, hpc]
      ring
  · intro acc hpc
    refine sum_inv_update h hi rfl hq ?_ ?_
    · simp [held]
    · simp [worth, banked, held, hpc]
      ring
  · intro _ _ _
    exact h
  · intro _
    exact h

/-! ## No task is left in the queue -/

theorem queue_inv_keep {n : ℕ} {s s2 : state} {i : ℕ} {w : worker} (hi : i < n)
    (hws : s2.workers = Function.update s.workers i w) (hw : will_poll w) :
    queue_inv n s2 := by
  intro _
  refine ⟨i, hi, ?_⟩
  rw [hws, Function.update_same]
  exact hw

theorem queue_inv_init (n : ℕ) (hn : 0 < n) (a b : ℚ) (f : ℚ → ℚ) :
    queue_inv n (init a b f) := fun _ => ⟨0, hn, trivial⟩

theorem queue_inv_step {n : ℕ} (f : ℚ → ℚ) (eps : ℚ) {s : state} (h : queue_inv n s) {i : ℕ}
    (hi : i < n) (k : ℕ) : queue_inv n (step f eps s i k) := by
  refine step_cases f eps s i k (queue_inv n) ?_ ?_ ?_ ?_ ?_ ?_ ?_ ?_ ?_ ?_ ?_ ?_ ?_ ?_ ?_
  · intro _ _ _
    exact queue_inv_keep hi rfl trivial
  · intro _ _ hq hne
    exact absurd hq hne
  · intro item rest _ _ _
    exact queue_inv_keep hi rfl trivial
  · intro item rest _ _ _
    exact queue_inv_keep hi rfl trivial
  · intro _
    exact queue_inv_keep hi rfl trivial
  · intro hpc _ hne
    obtain ⟨j, hj, hw⟩ := h hne
    refine ⟨j, hj, ?_⟩
    have hji : j ≠ i := by
      rintro rfl
      simp [will_poll, hpc] at hw
    simpa [Function.update_noteq hji] using hw
  · intro _ _
    exact queue_inv_keep hi rfl trivial
  · intro item _
    exact queue_inv_keep hi rfl trivial
  · intro rest item acc _ _ _
    exact queue_inv_keep hi rfl trivial
  · intro rest item acc _ _ _
    exact queue_inv_keep hi rfl trivial
  · intro acc _
    exact queue_inv_keep hi rfl trivial
  · intro q acc _ _
    exact queue_inv_keep hi rfl trivial
  · intro acc _
    exact queue_inv_keep hi rfl trivial
  · intro _ _ _
    exact h
  · intro _
    exact h

/-! ## One thread -/

theorem accumulated_of_done {f : ℚ → ℚ} {eps : ℚ} {d : ℕ} {v : ℚ} {s : state}
    (hs : sum_inv f eps d 1 v s) (hq : queue_inv 1 s) (hd : (s.workers 0).at_pc = pc.done) :
    s.accumulated_integral = v ∧ s.global_queue = [] := by
  have hempty : s.global_queue = [] := by
    by_contra hne
    obtain ⟨j, hj, hw⟩ := hq hne
    have : j = 0 := by omega
    subst this
    simp [will_poll, hd] at hw
  have h1 := hs.1
  rw [hempty] at h1
  simp [worth, banked, held, hd] at h1
  exact ⟨h1, hempty⟩

theorem inv1_init (f : ℚ → ℚ) (eps : ℚ) (d : ℕ) (v a b : ℚ)
    (h : R f eps d (root a b f) = some v) : inv1 f eps d v (init a b f) := by
  refine ⟨count_inv_init _ _ _ _, sum_inv_init _ _ _ _ _ _ _ h, queue_inv_init 1 (by omega) _ _ _,
    ?_, ?_, ?_⟩
  · simp [init]
  · intro _; rfl
  · intro r hr; simp [init] at hr

theorem inv1_step {f : ℚ → ℚ} {eps : ℚ} {d : ℕ} {v : ℚ} {s : state} (h : inv1 f eps d v s)
    (k : ℕ) : inv1 f eps d v (step f eps s 0 k) := by
  obtain ⟨hc, hs, hq, hov, hret, hval⟩ := h
  refine ⟨count_inv_step (by norm_num) f eps hc (by omega) k, sum_inv_step hs (by omega) k,
    queue_inv_step f eps hq (by omega) k, ?_⟩
  refine step_cases f eps s 0 k (fun s2 => (s2.workers 0).at_pc ≠ pc.overflow
    ∧ ((s2.workers 0).at_pc ≠ pc.done → s2.returned = none)
    ∧ ∀ r, s2.returned = some r → r = v) ?_ ?_ ?_ ?_ ?_ ?_ ?_ ?_ ?_ ?_ ?_ ?_ ?_ ?_ ?_
  · intro hpc _ _
    exact ⟨by simp, fun _ => hret (by simp [hpc]), hval⟩
  · intro hpc _ _
    exact ⟨by simp, fun _ => hret (by simp [hpc]), hval⟩
  · intro item rest hpc _ _
    exact ⟨by simp, fun _ => hret (by simp [hpc]), hval⟩
  · intro item rest hpc _ _
    exact ⟨by simp, fun _ => hret (by simp [hpc]), hval⟩
  · intro hpc
    exact ⟨by simp, fun _ => hret (by simp [hpc]), hval⟩
  · intro hpc _
    have := hret (by simp [hpc])
    refine ⟨by simp, fun hx => by simp at hx, ?_⟩
    intro r hr
    simp [this] at hr
  · intro hpc _
    exact ⟨by simp, fun _ => hret (by simp [hpc]), hval⟩
  · intro item hpc
    exact ⟨by simp, fun _ => hret (by simp [hpc]), hval⟩
  · intro rest item acc hpc _ _
    exact ⟨by simp, fun _ => hret (by simp [hpc]), hval⟩
  · intro rest item acc hpc _ _
    exact ⟨by simp, fun _ => hret (by simp [hpc]), hval⟩
  · intro acc hpc
    exact ⟨by simp, fun _ => hret (by simp [hpc]), hval⟩
  · intro q acc hpc _
    exact ⟨by simp, fun _ => hret (by simp [hpc]), hval⟩
  · intro acc hpc
    exact ⟨by simp, fun _ => hret (by simp [hpc]), hval⟩
  · intro hpc _ _
    refine ⟨hov, fun hx => absurd hpc hx, ?_⟩
    intro r hr
    simp only [Option.some.injEq] at hr
    rw [← hr]
    exact (accumulated_of_done hs hq hpc).1
  · intro _
    exact ⟨hov, hret, hval⟩

theorem inv1_exec {f : ℚ → ℚ} {eps : ℚ} {d : ℕ} {v : ℚ} (schedule : List (ℕ × ℕ)) {s : state}
    (h : inv1 f eps d v s) : inv1 f eps d v (exec f eps 1 schedule s) := by
  apply exec_invariant f eps 1 (inv1 f eps d v) _ schedule s h
  intro s i k hs hi
  have : i = 0 := by
    rw [loops_eq (le_refl 1)] at hi
    omega
  subst this
  exact inv1_step hs k

theorem rank_handle_le (q : List task) (acc : ℚ) (fl : Bool) :
    rank { at_pc := pc.handle q acc, currently_active := fl } ≤ 7 := by
  simp only [rank]
  split_ifs <;> omega

theorem rank_handle_short {q : List task} (acc : ℚ) (fl : Bool)
    (h : q.length ≤ local_queue_max_size) :
    rank { at_pc := pc.handle q acc, currently_active := fl } ≤ 6 := by
  simp only [rank]
  split_ifs <;> omega

theorem rank_handle_concat {rest : List task} (item : task) (acc : ℚ) (fl : Bool)
    (h : rest.length < local_queue_max_size) :
    rank { at_pc := pc.handle (rest ++ [item]) acc, currently_active := fl } = 1 := by
  simp only [rank, List.length_append, List.length_singleton]
  rw [if_neg (by omega), if_pos (by omega)]

theorem rank_eq_of_pc {w : worker} {p : pc} (h : w.at_pc = p) :
    rank w = rank { at_pc := p, currently_active := w.currently_active } := by
  cases w
  simp only at h
  subst h
  rfl

theorem held_eq_of_pc {w : worker} {p : pc} (h : w.at_pc = p) :
    held w = held { at_pc := p, currently_active := w.currently_active } := by
  cases w
  simp only at h
  subst h
  rfl

/-- Each step of the lone calling thread that has not yet returned lowers the potential. -/
theorem potential_step {f : ℚ → ℚ} {eps : ℚ} {d : ℕ} {v : ℚ} {s : state}
    (h : inv1 f eps d v s) (k : ℕ)
    (hnt : ¬ ((s.workers 0).at_pc = pc.done ∧ s.returned ≠ none)) :
    potential f eps d (step f eps s 0 k) < potential f eps d s := by
  obtain ⟨hc, hs, hq, hov, hret, hval⟩ := h
  have hfl := hc.1 0
  have hh := hs.2.2 0
  have hcount : s.active_count = counted (s.workers 0) := by
    rw [hc.2]; simp
  refine step_cases f eps s 0 k (fun s2 => potential f eps d s2 < potential f eps d s)
    ?_ ?_ ?_ ?_ ?_ ?_ ?_ ?_ ?_ ?_ ?_ ?_ ?_ ?_ ?_
  · intro hpc hact _
    simp only [potential, set_worker_workers, set_worker_global_queue, set_worker_returned,
      Function.update_same, held_eq_of_pc hpc, rank_eq_of_pc hpc, hact]
    simp [held, rank]
  · intro hpc hact _
    simp only [potential, set_worker_workers, set_worker_global_queue, set_worker_returned,
      Function.update_same, held_eq_of_pc hpc, rank_eq_of_pc hpc, hact]
    simp [held, rank]
  · intro item rest hpc hact hperm
    have hsum : (s.global_queue.map (nodes f eps d)).sum
        = nodes f eps d item + (rest.map (nodes f eps d)).sum := by
      rw [(hperm.map (nodes f eps d)).sum_eq]; simp
    simp only [potential, set_worker_workers, set_worker_global_queue, set_worker_returned,
      Function.update_same, held_eq_of_pc hpc, rank_eq_of_pc hpc, hact, hsum]
    simp [held, rank, local_queue_max_size]
    omega
  · intro item rest hpc hact hperm
    have hsum : (s.global_queue.map (nodes f eps d)).sum
        = nodes f eps d item + (rest.map (nodes f eps d)).sum := by
      rw [(hperm.map (nodes f eps d)).sum_eq]; simp
    simp only [potential, set_worker_workers, set_worker_global_queue, set_worker_returned,
      Function.update_same, held_eq_of_pc hpc, rank_eq_of_pc hpc, hact, hsum]
    simp [held, rank]
    omega
  · intro hpc
    have hf : (s.workers 0).currently_active = false := by
      simpa [well_flagged, hpc] using hfl
    simp only [potential, set_worker_workers, set_worker_global_queue, set_worker_returned,
      Function.update_same, held_eq_of_pc hpc, rank_eq_of_pc hpc, hf]
    simp [held, rank]
  · intro hpc _
    simp only [potential, set_worker_workers, set_worker_global_queue, set_worker_returned,
      Function.update_same, held_eq_of_pc hpc, rank_eq_of_pc hpc]
    simp [held, rank]
  · intro hpc hne
    exfalso
    apply hne
    rw [hcount]
    simp [counted, hpc]
  · intro item hpc
    simp only [potential, set_worker_workers, set_worker_global_queue, set_worker_returned,
      Function.update_same, held_eq_of_pc hpc, rank_eq_of_pc hpc]
    simp [held, rank, local_queue_max_size]
  · intro rest item acc hpc hlen hconv
    have hall : ∀ t ∈ rest ++ [item], (R f eps d t).isSome := by simpa [held, hpc] using hh
    obtain ⟨x, hx⟩ := isSome_iff_exists (hall item (by simp))
    have hleaf := (R_leaf hx hconv).2
    have hr1 := rank_handle_concat item acc (s.workers 0).currently_active hlen
    have hr2 := rank_handle_short (acc + new_integral f item) (s.workers 0).currently_active
      (le_of_lt hlen)
    simp only [potential, set_worker_workers, set_worker_global_queue, set_worker_returned,
      Function.update_same, held_eq_of_pc hpc, rank_eq_of_pc hpc, hr1]
    simp only [held, List.map_append, List.sum_append, List.map_cons, List.map_nil,
      List.sum_cons, List.sum_nil, hleaf]
    omega
  · intro rest item acc hpc hlen hdiv
    have hall : ∀ t ∈ rest ++ [item], (R f eps d t).isSome := by simpa [held, hpc] using hh
    obtain ⟨x, hx⟩ := isSome_iff_exists (hall item (by simp))
    obtain ⟨y, z, -, -, -, hn⟩ := R_node hx hdiv
    have hr1 := rank_handle_concat item acc (s.workers 0).currently_active hlen
    have hr2 := rank_handle_le (rest ++ [left_child f item, right_child f item]) acc
      (s.workers 0).currently_active
    simp only [potential, set_worker_workers, set_worker_global_queue, set_worker_returned,
      Function.update_same, held_eq_of_pc hpc, rank_eq_of_pc hpc, hr1]
    simp only [held, List.map_append, List.sum_append, List.map_cons, List.map_nil,
      List.sum_cons, List.sum_nil, hn]
    omega
  · intro acc hpc
    have hf : (s.workers 0).currently_active = true := by
      simpa [well_flagged, hpc] using hfl
    simp only [potential, set_worker_workers, set_worker_global_queue, set_worker_returned,
      Function.update_same, held_eq_of_pc hpc, rank_eq_of_pc hpc, hf]
    simp [held, rank]
  · intro q acc hpc hlen
    simp only [potential, set_worker_workers, set_worker_global_queue, set_worker_returned,
      Function.update_same, held_eq_of_pc hpc, rank_eq_of_pc hpc]
    simp only [held, rank, List.map_append, List.sum_append, List.map_nil, List.sum_nil]
    have hl : local_queue_max_size = 32 := rfl
    rw [if_neg (show ¬ q.length = 0 by omega),
      if_neg (show ¬ q.length ≤ local_queue_max_size by omega)]
    omega
  · intro acc hpc
    have hf : (s.workers 0).currently_active = true := by
      simpa [well_flagged, hpc] using hfl
    simp only [potential, set_worker_workers, set_worker_global_queue, set_worker_returned,
      Function.update_same, held_eq_of_pc hpc, rank_eq_of_pc hpc, hf]
    simp [held, rank]
  · intro hpc _ hnone
    simp [potential, hnone]
  · intro hpc
    rcases hpc with hpc | hpc
    · exfalso
      by_cases h0 : s.returned = none
      · exact hpc.2 ⟨rfl, h0⟩
      · exact hnt ⟨hpc.1, h0⟩
    · exact absurd hpc hov

theorem rank_eq_zero {w : worker} (h : rank w = 0) :
    w.at_pc = pc.done ∨ w.at_pc = pc.overflow := by
  obtain ⟨p, fl⟩ := w
  cases p <;> simp only [rank] at h <;> try split_ifs at h
  all_goals first | omega | simp

theorem potential_of_returned {f : ℚ → ℚ} {eps : ℚ} {d : ℕ} {v : ℚ} {s : state}
    (h : inv1 f eps d v s) (hpc : (s.workers 0).at_pc = pc.done) (hr : s.returned ≠ none) :
    potential f eps d s = 0 := by
  have hempty := (accumulated_of_done h.2.1 h.2.2.1 hpc).2
  simp [potential, hempty, held, rank, hpc, hr]

theorem step_of_returned (f : ℚ → ℚ) (eps : ℚ) {s : state} (k : ℕ)
    (hpc : (s.workers 0).at_pc = pc.done) (hr : s.returned ≠ none) :
    step f eps s 0 k = s := by
  simp only [step, hpc]
  rw [if_neg (fun hx => hr hx.2)]

/-- The calling thread, running alone on a finite subdivision, has returned the value of the
recursive quadrature once it has taken as many steps as the potential of the state. -/
theorem single_thread_returns {f : ℚ → ℚ} {eps : ℚ} {d : ℕ} {v : ℚ} :
    ∀ (schedule : List (ℕ × ℕ)) (s : state), inv1 f eps d v s →
      potential f eps d s ≤ turns 0 schedule →
      ((exec f eps 1 schedule s).workers 0).at_pc = pc.done
        ∧ (exec f eps 1 schedule s).returned = some v
  | [], s, h, hp => by
    simp only [turns, Nat.le_zero] at hp
    have hrank : rank (s.workers 0) = 0 := by
      unfold potential at hp; omega
    have hret : s.returned ≠ none := by
      intro hx
      simp [potential, hx] at hp
    have hpc : (s.workers 0).at_pc = pc.done := by
      rcases rank_eq_zero hrank with h1 | h1
      · exact h1
      · exact absurd h1 h.2.2.2.1
    refine ⟨hpc, ?_⟩
    obtain ⟨r, hr⟩ := Option.ne_none_iff_exists'.mp hret
    show s.returned = some v
    rw [hr, h.2.2.2.2.2 r hr]
  | (i, k) :: rest, s, h, hp => by
    unfold exec
    rw [loops_eq (le_refl 1)]
    by_cases hi : i = 0
    · subst hi
      rw [if_pos (by omega)]
      simp only [turns, if_pos] at hp
      by_cases ht : (s.workers 0).at_pc = pc.done ∧ s.returned ≠ none
      · rw [step_of_returned f eps k ht.1 ht.2]
        apply single_thread_returns rest s h
        rw [potential_of_returned h ht.1 ht.2]
        exact Nat.zero_le _
      · have hlt := potential_step h k ht
        exact single_thread_returns rest _ (inv1_step h k) (by omega)
    · rw [if_neg (by omega)]
      simp only [turns, if_neg hi] at hp
      exact single_thread_returns rest s h hp

theorem potential_init (f : ℚ → ℚ) (eps : ℚ) (d : ℕ) (a b : ℚ) :
    potential f eps d (init a b f) = 7 * nodes f eps d (root a b f) + 4 := by
  have hroot : (init a b f).global_queue = [root a b f] := rfl
  simp only [potential, hroot]
  simp [init, held, rank]

/-- C3: with `num_threads = 1` no thread is spawned and, on every input whose subdivision
is finite, whatever `parallel_integrate` returns is the value of the recursive
quadrature `R` on the root task, and it does return it, whichever elements `try_dequeue`
hands out and however often the local buffer is spilled to the global queue. -/
theorem single_thread_refines (a b eps : ℚ) (f : ℚ → ℚ) (d : ℕ) (v : ℚ)
    (hfin : R f eps d
      { a := a, b := b, func_val_a := f a, func_val_b := f b,
        integral := (f a + f b) / 2 * (b - a) } = some v) :
    threads 1 = []
      ∧ (∀ schedule r, parallel_integrate a b f 1 eps schedule = some r → r = v)
      ∧ ∀ schedule, 7 * nodes f eps d (root a b f) + 4 ≤ turns 0 schedule →
          parallel_integrate a b f 1 eps schedule = some v := by
  have hroot : R f eps d (root a b f) = some v := hfin
  have hinit := inv1_init f eps d v a b hroot
  refine ⟨rfl, ?_, ?_⟩
  · intro schedule r hr
    exact (inv1_exec schedule hinit).2.2.2.2.2 r hr
  · intro schedule hlen
    exact (single_thread_returns schedule _ hinit (by rw [potential_init]; exact hlen)).2

/-! ## Subdivisions that never end -/

theorem spinning_step {f : ℚ → ℚ} {eps : ℚ} {P : task → Prop}
    (hP : ∀ t, P t → diverged f eps t ∧ P (left_child f t) ∧ P (right_child f t))
    {s : state} (h : spinning P s) (k : ℕ) : spinning P (step f eps s 0 k) := by
  obtain ⟨hret, hq, hw⟩ := h
  refine step_cases f eps s 0 k (spinning P) ?_ ?_ ?_ ?_ ?_ ?_ ?_ ?_ ?_ ?_ ?_ ?_ ?_ ?_ ?_
  · intro hpc _ hnil
    rw [hpc] at hw
    exact absurd hnil hw
  · intro hpc _ hnil
    rw [hpc] at hw
    exact absurd hnil hw
  · intro item rest _ _ hperm
    have hitem : P item := hq item (hperm.symm.subset (List.mem_cons_self _ _))
    refine ⟨hret, fun t ht => hq t (hperm.symm.subset (List.mem_cons_of_mem _ ht)), ?_⟩
    simp [hitem]
  · intro item rest _ _ hperm
    have hitem : P item := hq item (hperm.symm.subset (List.mem_cons_self _ _))
    refine ⟨hret, fun t ht => hq t (hperm.symm.subset (List.mem_cons_of_mem _ ht)), ?_⟩
    simpa using hitem
  · intro hpc
    rw [hpc] at hw
    exact hw.elim
  · intro hpc _
    rw [hpc] at hw
    exact hw.elim
  · intro hpc _
    rw [hpc] at hw
    exact hw.elim
  · intro item hpc
    rw [hpc] at hw
    refine ⟨hret, hq, ?_⟩
    simpa using hw
  · intro rest item acc hpc _ hconv
    rw [hpc] at hw
    exact absurd (hP item (hw.2 item (by simp))).1 hconv
  · intro rest item acc hpc _ _
    rw [hpc] at hw
    have hitem := hP item (hw.2 item (by simp))
    refine ⟨hret, hq, ?_⟩
    simp only [set_worker_workers, Function.update_same]
    refine ⟨by simp, ?_⟩
    intro t ht
    simp only [List.mem_append, List.mem_cons, List.mem_singleton, List.not_mem_nil,
      or_false] at ht
    rcases ht with ht | ht | ht
    · exact hw.2 t (List.mem_append_left _ ht)
    · rw [ht]; exact hitem.2.1
    · rw [ht]; exact hitem.2.2
  · intro acc hpc
    rw [hpc] at hw
    exact absurd rfl hw.1
  · intro q acc hpc _
    rw [hpc] at hw
    refine ⟨hret, ?_, ?_⟩
    · intro t ht
      simp only [set_worker_global_queue, List.mem_append] at ht
      rcases ht with ht | ht
      · exact hq t ht
      · exact hw.2 t ht
    · simp only [set_worker_workers, Function.update_same, set_worker_global_queue]
      simp [hw.1]
  · intro acc hpc
    rw [hpc] at hw
    refine ⟨hret, hq, ?_⟩
    simpa using hw
  · intro hpc _ _
    rw [hpc] at hw
    exact hw.elim
  · intro hpc
    rcases hpc with ⟨hpc, -⟩ | hpc <;> rw [hpc] at hw <;> exact hw.elim

theorem spinning_init {P : task → Prop} (a b : ℚ) (f : ℚ → ℚ) (h : P (root a b f)) :
    spinning P (init a b f) := by
  have hroot : (init a b f).global_queue = [root a b f] := rfl
  refine ⟨rfl, ?_, ?_⟩
  · intro t ht
    rw [hroot] at ht
    simp only [List.mem_singleton] at ht
    rw [ht]; exact h
  · simp [init]

/-- A root task all of whose descendants are split keeps the lone calling thread from ever
returning. -/
theorem never_returns {f : ℚ → ℚ} {eps : ℚ} {P : task → Prop}
    (hP : ∀ t, P t → diverged f eps t ∧ P (left_child f t) ∧ P (right_child f t))
    (a b : ℚ) (h : P (root a b f)) (schedule : List (ℕ × ℕ)) :
    parallel_integrate a b f 1 eps schedule = none := by
  have := exec_invariant f eps 1 (spinning P) (fun s i k hs hi => by
    have : i = 0 := by
      rw [loops_eq (le_refl 1)] at hi
      omega
    subst this
    exact spinning_step hP hs k) schedule (init a b f) (spinning_init a b f h)
  exact this.1

theorem zero_runaway (eps : ℚ) (t : task)
    (h : t.func_val_a = 0 ∧ t.func_val_b = 0 ∧ t.integral = 0) :
    diverged (fun _ => 0) eps t
      ∧ ((left_child (fun _ => 0) t).func_val_a = 0 ∧ (left_child (fun _ => 0) t).func_val_b = 0
        ∧ (left_child (fun _ => 0) t).integral = 0)
      ∧ ((right_child (fun _ => 0) t).func_val_a = 0
        ∧ (right_child (fun _ => 0) t).func_val_b = 0
        ∧ (right_child (fun _ => 0) t).integral = 0) := by
  obtain ⟨ha, hb, hint⟩ := h
  have hl : integral_left (fun _ => 0) t = 0 := by
    simp [integral_left, std_midpoint, ha]
  have hr : integral_right (fun _ => 0) t = 0 := by
    simp [integral_right, std_midpoint, hb]
  refine ⟨?_, ⟨?_, ?_, hl⟩, ⟨?_, ?_, hr⟩⟩
  · simp [diverged, new_integral, hl, hr, hint]
  · simp [left_child, ha]
  · simp [left_child]
  · simp [right_child]
  · simp [right_child, hb]

/-! ## Intervals taken from right to left -/

/-- Witness of C3: `x ↦ x` over `[0, 1]` with tolerance `1/10`; the root converges and eleven
steps of the calling thread return `1/2`. -/
theorem single_thread_refines_witness :
    R (fun x => x) (1 / 10) 1
        { a := 0, b := 1, func_val_a := (fun x : ℚ => x) 0, func_val_b := (fun x : ℚ => x) 1,
          integral := ((fun x : ℚ => x) 0 + (fun x : ℚ => x) 1) / 2 * (1 - 0) } = some (1 / 2)
      ∧ parallel_integrate 0 1 (fun x => x) 1 (1 / 10)
          [(0, 0), (0, 0), (0, 0), (0, 0), (0, 0), (0, 0), (0, 0), (0, 0), (0, 0), (0, 0),
           (0, 0)] = some (1 / 2) :=
  ⟨by norm_num [R, abs_of_nonneg],
   (single_thread_refines 0 1 (1 / 10) (fun x => x) 1 (1 / 2)
      (by norm_num [R, abs_of_nonneg])).2.2 _
      (by norm_num [nodes, diverged, new_integral, integral_left, integral_right, mid,
        std_midpoint, root, turns, abs_of_nonneg])⟩

/-- C5, as stated, fails: on `[0, 1]` with tolerance `1` the zero function has finite values
everywhere, yet the lone worker never reaches its exit. -/
theorem zero_function_counterexample :
    (0 : ℚ) < 1 ∧ ∀ schedule, parallel_integrate 0 1 (fun _ => 0) 1 1 schedule = none :=
  ⟨by norm_num, fun schedule =>
    never_returns
      (P := fun t => t.func_val_a = 0 ∧ t.func_val_b = 0 ∧ t.integral = 0)
      (zero_runaway 1) 0 1 (by simp [root, std_midpoint]) schedule⟩

/-- C5, amended: whenever the subdivision of the root task is finite, the lone worker has
left its loop, with the global queue empty and `active_count` zero, after at most seven
steps per task of the subdivision and four more. -/
theorem finite_subdivision_terminates (a b eps : ℚ) (f : ℚ → ℚ) (d : ℕ) (v : ℚ)
    (hfin : R f eps d (root a b f) = some v) (schedule : List (ℕ × ℕ))
    (hlen : 7 * nodes f eps d (root a b f) + 4 ≤ turns 0 schedule) :
    ((exec f eps 1 schedule (init a b f)).workers 0).at_pc = pc.done
      ∧ (exec f eps 1 schedule (init a b f)).global_queue = []
      ∧ (exec f eps 1 schedule (init a b f)).active_count = 0 := by
  have hinit := inv1_init f eps d v a b hfin
  have hinv := inv1_exec schedule hinit
  have hdone := (single_thread_returns schedule _ hinit
    (by rw [potential_init]; exact hlen)).1
  refine ⟨hdone, (accumulated_of_done hinv.2.1 hinv.2.2.1 hdone).2, ?_⟩
  rw [hinv.1.2]
  simp [counted, hdone]

/-- Witness of the amended C5: `x ↦ x` over `[0, 1]` with tolerance `1/10`. -/
theorem finite_subdivision_terminates_witness :
    ((exec (fun x => x) (1 / 10) 1
        [(0, 0), (0, 0), (0, 0), (0, 0), (0, 0), (0, 0), (0, 0), (0, 0), (0, 0), (0, 0),
         (0, 0)] (init 0 1 (fun x => x))).workers 0).at_pc = pc.done :=
  (finite_subdivision_terminates 0 1 (1 / 10) (fun x => x) 1 (1 / 2)
    (by norm_num [R, root, std_midpoint, abs_of_nonneg]) _
    (by norm_num [nodes, diverged, new_integral, integral_left, integral_right, mid,
      std_midpoint, root, turns, abs_of_nonneg])).1

/-- C7 fails on the code: with two workers, worker `1` dequeues the root task and, before
its `++active_count`, the calling thread polls the empty queue, reads `active_count == 0`,
leaves its loop and returns `0`, while the root task, whose quadrature is `1/2`, is held
unprocessed by worker `1`. -/
theorem premature_exit :
    ((exec (fun x => x) (1 / 10) 2 [(1, 0), (0, 0), (0, 0), (0, 0)]
        (init 0 1 (fun x => x))).workers 0).at_pc = pc.done
      ∧ ((exec (fun x => x) (1 / 10) 2 [(1, 0), (0, 0), (0, 0), (0, 0)]
        (init 0 1 (fun x => x))).workers 1).at_pc
          = pc.inc { a := 0, b := 1, func_val_a := 0, func_val_b := 1, integral := 1 / 2 }
      ∧ parallel_integrate 0 1 (fun x => x) 2 (1 / 10) [(1, 0), (0, 0), (0, 0), (0, 0)]
          = some 0
      ∧ R (fun x => x) (1 / 10) 1 (root 0 1 (fun x => x)) = some (1 / 2) := by
  refine ⟨?_, ?_, ?_, ?_⟩
  · norm_num [exec, loops, threads, init, step, try_dequeue, set_worker, Function.update]
  · norm_num [exec, loops, threads, init, step, try_dequeue, set_worker, Function.update,
      std_midpoint]
  · norm_num [parallel_integrate, exec, loops, threads, init, step, try_dequeue, set_worker,
      Function.update]
  · norm_num [R, root, std_midpoint, abs_of_nonneg]

/-- Witness of C8: two workers, after worker `1` has dequeued the root task. -/
theorem active_count_protocol_witness :
    (1 : ℕ) ≤ 2 ∧ (2 : ℕ) < 4294967296
      ∧ (exec (fun x => x) (1 / 10) 2 [(1, 0)] (init 0 1 (fun x => x))).active_count ≤ 2 :=
  ⟨by norm_num, by norm_num,
   (active_count_protocol 2 (by norm_num) (by norm_num) 0 1 (fun x => x) (1 / 10) [(1, 0)]
      1 0 (by norm_num)).1⟩

/-- C9: for inputs on which the subdivision of the root task is finite, in every
interleaving of the workers and for every choice of the elements `try_dequeue` hands out,
once all workers have left their loops `accumulated_integral` is the value of the
recursive quadrature on the root task, which the root task alone determines. -/
theorem order_independence (num_threads : ℕ) (h1 : 1 ≤ num_threads) (a b eps : ℚ)
    (f : ℚ → ℚ) (d : ℕ) (v : ℚ) (hfin : R f eps d (root a b f) = some v)
    (schedule : List (ℕ × ℕ))
    (hdone : ∀ j, j < num_threads →
      ((exec f eps num_threads schedule (init a b f)).workers j).at_pc = pc.done) :
    (exec f eps num_threads schedule (init a b f)).accumulated_integral = v := by
  have hinv := exec_invariant f eps num_threads
    (fun s => sum_inv f eps d num_threads v s ∧ queue_inv num_threads s)
    (fun s i k hs hi => by
      rw [loops_eq h1] at hi
      exact ⟨sum_inv_step hs.1 hi k, queue_inv_step f eps hs.2 hi k⟩)
    schedule (init a b f)
    ⟨sum_inv_init f eps d num_threads v a b hfin, queue_inv_init num_threads (by omega) a b f⟩
  obtain ⟨hs, hq⟩ := hinv
  have hempty : (exec f eps num_threads schedule (init a b f)).global_queue = [] := by
    by_contra hne
    obtain ⟨j, hj, hw⟩ := hq hne
    simp [will_poll, hdone j hj] at hw
  have hsum := hs.1
  rw [hempty] at hsum
  have hzero : ∑ j in Finset.range num_threads,
      worth f eps d ((exec f eps num_threads schedule (init a b f)).workers j) = 0 := by
    apply Finset.sum_eq_zero
    intro j hj
    simp [worth, banked, held, hdone j (Finset.mem_range.mp hj)]
  rw [hzero] at hsum
  simpa using hsum

/-- Witness of C9: two workers on `x ↦ x` over `[0, 1]`; the caller processes the root, then
both leave their loops. -/
theorem order_independence_witness :
    (exec (fun x => x) (1 / 10) 2
        [(0, 0), (0, 0), (0, 0), (0, 0), (0, 0), (0, 0), (0, 0), (0, 0), (1, 0), (1, 0)]
        (init 0 1 (fun x => x))).accumulated_integral = 1 / 2 :=
  order_independence 2 (by norm_num) 0 1 (1 / 10) (fun x => x) 1 (1 / 2)
    (by norm_num [R, root, std_midpoint, abs_of_nonneg]) _
    (by
      intro j hj
      interval_cases j
      · norm_num [exec, loops, threads, init, step, try_dequeue, set_worker, Function.update,
          while_turn, local_queue_max_size, capacity_extra, local_handler, std_midpoint,
          push_back, uint32_increment, uint32_decrement, abs_of_nonneg, abs_of_nonpos]
      · norm_num [exec, loops, threads, init, step, try_dequeue, set_worker, Function.update,
          while_turn, local_queue_max_size, capacity_extra, local_handler, std_midpoint,
          push_back, uint32_increment, uint32_decrement, abs_of_nonneg, abs_of_nonpos])

/-! ## The local buffer and the tasks -/

theorem inv_update_worker {Q : worker → Prop} {s s2 : state} {i : ℕ} {w : worker}
    (h : ∀ j, Q (s.workers j)) (hws : s2.workers = Function.update s.workers i w) (hw : Q w) :
    ∀ j, Q (s2.workers j) := by
  intro j
  rw [hws]
  by_cases hj : j = i
  · subst hj; rw [Function.update_same]; exact hw
  · rw [Function.update_noteq hj]; exact h j

theorem buffer_inv_update {s s2 : state} {i : ℕ} {w : worker} (h : buffer_inv s)
    (hws : s2.workers = Function.update s.workers i w) (hw : buffer_ok w) : buffer_inv s2 :=
  inv_update_worker (Q := buffer_ok) h hws hw

theorem buffer_ok_of_pc {p : pc} {fl : Bool} (h1 : p ≠ pc.overflow)
    (h2 : ∀ q acc, p = pc.handle q acc → q.length ≤ local_queue_max_size + 1) :
    buffer_ok { at_pc := p, currently_active := fl } := ⟨h1, h2⟩

theorem buffer_inv_step (f : ℚ → ℚ) (eps : ℚ) {s : state} (h : buffer_inv s) (i k : ℕ) :
    buffer_inv (step f eps s i k) := by
  have hl : local_queue_max_size = 32 := rfl
  refine step_cases f eps s i k buffer_inv ?_ ?_ ?_ ?_ ?_ ?_ ?_ ?_ ?_ ?_ ?_ ?_ ?_ ?_ ?_
  · intro _ _ _
    exact buffer_inv_update h rfl (buffer_ok_of_pc (by simp) (by simp))
  · intro _ _ _
    exact buffer_inv_update h rfl (buffer_ok_of_pc (by simp) (by simp))
  · intro item rest _ _ _
    exact buffer_inv_update h rfl (buffer_ok_of_pc (by simp) (fun q acc hq => by
      simp only [pc.handle.injEq] at hq
      rw [← hq.1]; simp))
  · intro item rest _ _ _
    exact buffer_inv_update h rfl (buffer_ok_of_pc (by simp) (by simp))
  · intro _
    exact buffer_inv_update h rfl (buffer_ok_of_pc (by simp) (by simp))
  · intro _ _
    exact buffer_inv_update h rfl (buffer_ok_of_pc (by simp) (by simp))
  · intro _ _
    exact buffer_inv_update h rfl (buffer_ok_of_pc (by simp) (by simp))
  · intro item _
    exact buffer_inv_update h rfl (buffer_ok_of_pc (by simp) (fun q acc hq => by
      simp only [pc.handle.injEq] at hq
      rw [← hq.1]; simp))
  · intro rest item acc _ hlen _
    exact buffer_inv_update h rfl (buffer_ok_of_pc (by simp) (fun q acc hq => by
      simp only [pc.handle.injEq] at hq
      rw [← hq.1]; omega))
  · intro rest item acc _ hlen _
    exact buffer_inv_update h rfl (buffer_ok_of_pc (by simp) (fun q acc hq => by
      simp only [pc.handle.injEq] at hq
      rw [← hq.1]
      simp only [List.length_append, List.length_cons, List.length_nil]
      omega))
  · intro acc _
    exact buffer_inv_update h rfl (buffer_ok_of_pc (by simp) (by simp))
  · intro q acc _ _
    exact buffer_inv_update h rfl (buffer_ok_of_pc (by simp) (by simp))
  · intro acc _
    exact buffer_inv_update h rfl (buffer_ok_of_pc (by simp) (by simp))
  · intro _ _ _
    exact h
  · intro _
    exact h

theorem buffer_inv_init (a b : ℚ) (f : ℚ → ℚ) : buffer_inv (init a b f) := by
  intro j
  exact buffer_ok_of_pc (by simp) (by simp)

theorem while_turn_ne_overflow (f : ℚ → ℚ) (eps : ℚ) (q : List task) (acc : ℚ) :
    while_turn f eps q acc ≠ iteration.overflow := by
  by_cases hlen : q.length ≤ local_queue_max_size
  · rcases List.eq_nil_or_concat q with hq | ⟨rest, item, hq⟩
    · subst hq
      rw [while_turn_nil]
      simp
    · subst hq
      have hrest : rest.length < local_queue_max_size := by
        simp at hlen; omega
      rw [List.concat_eq_append, while_turn_concat _ _ _ _ _ hrest]
      split_ifs <;> simp
  · rw [while_turn_spill _ _ _ _ (not_le.mp hlen)]
    simp

/-- C12: in every state of every run, the local buffer of a worker inside `global_handler`
holds at most `local_queue_max_size + 1 = 33` tasks, within the capacity
`capacity_extra + local_queue_max_size = 36` of the static vector; no worker has
overflowed it and no turn of the loop can. -/
theorem local_buffer_bound (num_threads : ℕ) (a b : ℚ) (f : ℚ → ℚ) (eps : ℚ)
    (schedule : List (ℕ × ℕ)) (j : ℕ) :
    ((exec f eps num_threads schedule (init a b f)).workers j).at_pc ≠ pc.overflow
      ∧ (∀ q acc, ((exec f eps num_threads schedule (init a b f)).workers j).at_pc
            = pc.handle q acc →
          q.length ≤ local_queue_max_size + 1
            ∧ while_turn f eps q acc ≠ iteration.overflow)
      ∧ local_queue_max_size + 1 = 33
      ∧ capacity_extra + local_queue_max_size = 36 := by
  have hinv := exec_invariant f eps num_threads buffer_inv
    (fun s i k hs _ => buffer_inv_step f eps hs i k) schedule (init a b f)
    (buffer_inv_init a b f)
  exact ⟨(hinv j).1, fun q acc hq => ⟨(hinv j).2 q acc hq, while_turn_ne_overflow f eps q acc⟩,
    rfl, rfl⟩

/-- C14: before any worker loop runs the global queue holds exactly the root task
`(a, b, f(a), f(b), ((f(a)+f(b))/2)*(b-a))`, built from one call of `f` at `a` and one at
`b`; the counter and the accumulator are zero and every worker is about to poll. -/
theorem root_seeding (a b : ℚ) (f : ℚ → ℚ) :
    (init a b f).global_queue
        = [{ a := a, b := b, func_val_a := f a, func_val_b := f b,
             integral := (f a + f b) / 2 * (b - a) }]
      ∧ seed_root a b f
        = ({ a := a, b := b, func_val_a := f a, func_val_b := f b,
             integral := (f a + f b) / 2 * (b - a) }, [a, b])
      ∧ (init a b f).active_count = 0
      ∧ (init a b f).accumulated_integral = 0
      ∧ (init a b f).returned = none
      ∧ ∀ j, (init a b f).workers j = { at_pc := pc.poll, currently_active := false } :=
  ⟨rfl, rfl, rfl, rfl, rfl, fun _ => rfl⟩

theorem well_formed_children {f : ℚ → ℚ} {t : task} (h : well_formed f t) :
    well_formed f (left_child f t) ∧ well_formed f (right_child f t)
      ∧ t.a < (t.a + t.b) / 2 ∧ (t.a + t.b) / 2 < t.b := by
  obtain ⟨hab, ha, hb⟩ := h
  have h1 : t.a < (t.a + t.b) / 2 := by linarith
  have h2 : (t.a + t.b) / 2 < t.b := by linarith
  refine ⟨⟨?_, ha, rfl⟩, ⟨?_, rfl, hb⟩, h1, h2⟩
  · simpa [left_child, mid, std_midpoint] using h1
  · simpa [right_child, mid, std_midpoint] using h2

theorem task_inv_update {f : ℚ → ℚ} {s s2 : state} {i : ℕ} {w : worker} (h : task_inv f s)
    (hws : s2.workers = Function.update s.workers i w)
    (hq : ∀ t ∈ s2.global_queue, well_formed f t) (hw : ∀ t ∈ held w, well_formed f t) :
    task_inv f s2 :=
  ⟨hq, inv_update_worker (Q := fun w => ∀ t ∈ held w, well_formed f t) h.2 hws hw⟩

theorem task_inv_step {f : ℚ → ℚ} (eps : ℚ) {s : state} (h : task_inv f s) (i k : ℕ) :
    task_inv f (step f eps s i k) := by
  have hq := h.1
  have hh := h.2 i
  refine step_cases f eps s i k (task_inv f) ?_ ?_ ?_ ?_ ?_ ?_ ?_ ?_ ?_ ?_ ?_ ?_ ?_ ?_ ?_
  · intro _ _ _
    exact task_inv_update h rfl hq (by simp [held])
  · intro _ _ _
    exact task_inv_update h rfl hq (by simp [held])
  · intro item rest _ _ hperm
    refine task_inv_update h rfl
      (fun t ht => hq t (hperm.symm.subset (List.mem_cons_of_mem _ ht))) ?_
    intro t ht
    simp only [held, List.mem_singleton] at ht
    rw [ht]
    exact hq item (hperm.symm.subset (List.mem_cons_self _ _))
  · intro item rest _ _ hperm
    refine task_inv_update h rfl
      (fun t ht => hq t (hperm.symm.subset (List.mem_cons_of_mem _ ht))) ?_
    intro t ht
    simp only [held, List.mem_singleton] at ht
    rw [ht]
    exact hq item (hperm.symm.subset (List.mem_cons_self _ _))
  · intro _
    exact task_inv_update h rfl (by simpa using hq) (by simp [held])
  · intro _ _
    exact task_inv_update h rfl hq (by simp [held])
  · intro _ _
    exact task_inv_update h rfl hq (by simp [held])
  · intro item hpc
    exact task_inv_update h rfl (by simpa using hq) (by simpa [held, hpc] using hh)
  · intro rest item acc hpc _ _
    have hall : ∀ t ∈ rest ++ [item], well_formed f t := by simpa [held, hpc] using hh
    exact task_inv_update h rfl hq
      (fun t ht => hall t (List.mem_append_left _ (by simpa [held] using ht)))
  · intro rest item acc hpc _ _
    have hall : ∀ t ∈ rest ++ [item], well_formed f t := by simpa [held, hpc] using hh
    have hc := well_formed_children (hall item (by simp))
    refine task_inv_update h rfl hq ?_
    intro t ht
    simp only [held, List.mem_append, List.mem_cons, List.mem_singleton,
      List.not_mem_nil, or_false] at ht
    rcases ht with ht | ht | ht
    · exact hall t (List.mem_append_left _ ht)
    · rw [ht]; exact hc.1
    · rw [ht]; exact hc.2.1
  · intro acc _
    exact task_inv_update h rfl (by simpa using hq) (by simp [held])
  · intro q acc hpc _
    have hall : ∀ t ∈ q, well_formed f t := by simpa [held, hpc] using hh
    refine task_inv_update h rfl ?_ (by simp [held])
    intro t ht
    simp only [set_worker_global_queue, List.mem_append] at ht
    rcases ht with ht | ht
    · exact hq t ht
    · exact hall t ht
  · intro acc _
    exact task_inv_update h rfl (by simpa using hq) (by simp [held])
  · intro _ _ _
    exact h
  · intro _
    exact h

/-- C15: if `a < b` then, in every state of every run, every task in the global queue or
held by a worker has its left bound below its right bound and caches the values of `f`
at its bounds; and whenever `local_handler` splits such a task, the children cover
`[a, mid]` and `[mid, b]` with `a < mid < b`, `mid` being the midpoint. -/
theorem tasks_well_formed (a b : ℚ) (hab : a < b) (f : ℚ → ℚ) (eps : ℚ) (num_threads : ℕ)
    (schedule : List (ℕ × ℕ)) (t : task)
    (ht : t ∈ (exec f eps num_threads schedule (init a b f)).global_queue
      ∨ ∃ j, t ∈ held ((exec f eps num_threads schedule (init a b f)).workers j)) :
    t.a < t.b ∧ t.func_val_a = f t.a ∧ t.func_val_b = f t.b
      ∧ ∀ q acc c1 c2 acc2, local_handler f eps q acc t = some (q ++ [c1, c2], acc2) →
          c1.a = t.a ∧ c1.b = (t.a + t.b) / 2 ∧ c2.a = (t.a + t.b) / 2 ∧ c2.b = t.b
            ∧ t.a < (t.a + t.b) / 2 ∧ (t.a + t.b) / 2 < t.b
            ∧ c1.func_val_a = f c1.a ∧ c1.func_val_b = f c1.b
            ∧ c2.func_val_a = f c2.a ∧ c2.func_val_b = f c2.b := by
  have hinit : task_inv f (init a b f) := by
    refine ⟨?_, ?_⟩
    · intro t ht
      have hroot : (init a b f).global_queue = [root a b f] := rfl
      rw [hroot] at ht
      simp only [List.mem_singleton] at ht
      rw [ht]
      exact ⟨hab, rfl, rfl⟩
    · intro j t ht
      simp [init, held] at ht
  have hinv := exec_invariant f eps num_threads (task_inv f)
    (fun s i k hs _ => task_inv_step eps hs i k) schedule (init a b f) hinit
  have hwf : well_formed f t := by
    rcases ht with ht | ⟨j, ht⟩
    · exact hinv.1 t ht
    · exact hinv.2 j t ht
  refine ⟨hwf.1, hwf.2.1, hwf.2.2, ?_⟩
  intro q acc c1 c2 acc2 hsplit
  obtain ⟨-, h1, h2, -⟩ := local_handler_split_inv hsplit
  have hc := well_formed_children hwf
  subst h1 h2
  refine ⟨rfl, ?_, ?_, rfl, hc.2.2.1, hc.2.2.2, hc.1.2.1, hc.1.2.2, hc.2.1.2.1, hc.2.1.2.2⟩
  · simp [left_child, mid, std_midpoint]
  · simp [right_child, mid, std_midpoint]

/-- Witness of C15: the root task of `x ↦ x` over `[0, 1]` before any step. -/
theorem tasks_well_formed_witness :
    (0 : ℚ) < 1
      ∧ (root 0 1 (fun x => x)).a < (root 0 1 (fun x => x)).b :=
  ⟨by norm_num,
   (tasks_well_formed 0 1 (by norm_num) (fun x => x) (1 / 10) 1 [] (root 0 1 (fun x => x))
      (Or.inl (by simp [exec, init, root]))).1⟩

/-! ## The exit of a lone worker -/

theorem lone_inv_reached (a b : ℚ) (f : ℚ → ℚ) (eps : ℚ) (schedule : List (ℕ × ℕ)) :
    count_inv 1 (reached a b f 1 eps schedule) ∧ queue_inv 1 (reached a b f 1 eps schedule) := by
  refine exec_invariant f eps 1 (fun s => count_inv 1 s ∧ queue_inv 1 s) ?_ schedule
    (init a b f) ⟨count_inv_init _ _ _ _, queue_inv_init 1 (by omega) _ _ _⟩
  intro s i k hs hi
  rw [loops_eq (le_refl 1)] at hi
  exact ⟨count_inv_step (by norm_num) f eps hs.1 hi k, queue_inv_step f eps hs.2 hi k⟩

theorem lone_queue_empty {s : state} (hq : queue_inv 1 s)
    (hpc : (s.workers 0).at_pc = pc.check ∨ (s.workers 0).at_pc = pc.done) :
    s.global_queue = [] := by
  by_contra hne
  obtain ⟨j, hj, hw⟩ := hq hne
  have : j = 0 := by omega
  subst this
  rcases hpc with hpc | hpc <;> simp [will_poll, hpc] at hw

theorem lone_active_count {s : state} (hc : count_inv 1 s) :
    s.active_count = counted (s.workers 0) := by
  rw [hc.2]; simp

/-- C16: with a single worker, whenever `loop_function` has left its loop the global queue
is empty, `active_count` is `0` and the worker holds no task and no unflushed sum; a failed
poll while active makes the worker idle and brings the counter from `1` to `0`; the loop
is left only from the read of `active_count == 0` that follows a failed poll while idle. -/
theorem lone_worker_exit (a b : ℚ) (f : ℚ → ℚ) (eps : ℚ) (schedule : List (ℕ × ℕ)) (k : ℕ) :
    (((reached a b f 1 eps schedule).workers 0).at_pc = pc.done →
        (reached a b f 1 eps schedule).global_queue = []
          ∧ (reached a b f 1 eps schedule).active_count = 0
          ∧ held ((reached a b f 1 eps schedule).workers 0) = []
          ∧ banked ((reached a b f 1 eps schedule).workers 0) = 0)
      ∧ (((reached a b f 1 eps schedule).workers 0).at_pc = pc.poll →
          ((reached a b f 1 eps schedule).workers 0).currently_active = true →
          (reached a b f 1 eps schedule).global_queue = [] →
          (reached a b f 1 eps schedule).active_count = 1
            ∧ (step f eps (reached a b f 1 eps schedule) 0 k).workers 0
              = { at_pc := pc.dec, currently_active := false }
            ∧ (step f eps (step f eps (reached a b f 1 eps schedule) 0 k) 0 k).workers 0
              = { at_pc := pc.poll, currently_active := false }
            ∧ (step f eps (step f eps (reached a b f 1 eps schedule) 0 k) 0 k).active_count
              = 0)
      ∧ (((step f eps (reached a b f 1 eps schedule) 0 k).workers 0).at_pc = pc.done →
          ((reached a b f 1 eps schedule).workers 0).at_pc ≠ pc.done →
          ((reached a b f 1 eps schedule).workers 0).at_pc = pc.check
            ∧ (reached a b f 1 eps schedule).active_count = 0
            ∧ (reached a b f 1 eps schedule).global_queue = [])
      ∧ (((step f eps (reached a b f 1 eps schedule) 0 k).workers 0).at_pc = pc.check →
          ((reached a b f 1 eps schedule).workers 0).at_pc = pc.poll
            ∧ ((reached a b f 1 eps schedule).workers 0).currently_active = false
            ∧ (reached a b f 1 eps schedule).global_queue = []) := by
  obtain ⟨hc, hq⟩ := lone_inv_reached a b f eps schedule
  generalize reached a b f 1 eps schedule = s at hc hq ⊢
  have hcount := lone_active_count hc
  refine ⟨?_, ?_, ?_, ?_⟩
  · intro hpc
    refine ⟨lone_queue_empty hq (Or.inr hpc), ?_, ?_, ?_⟩
    · rw [hcount]; simp [counted, hpc]
    · simp [held, hpc]
    · simp [banked, hpc]
  · intro hpc hact hnil
    have h1 : s.active_count = 1 := by
      rw [hcount]; simp [counted, hpc, hact]
    have hs1 : step f eps s 0 k
        = set_worker s 0 { at_pc := pc.dec, currently_active := false } := by
      simp only [step, hpc, hnil, try_dequeue_nil, hact, if_true]
    refine ⟨h1, ?_, ?_, ?_⟩
    · rw [hs1]; simp
    · rw [hs1]
      simp [step]
    · rw [hs1]
      simp [step, h1, uint32_decrement]
  · refine step_cases f eps s 0 k (fun s2 => (s2.workers 0).at_pc = pc.done →
      (s.workers 0).at_pc ≠ pc.done →
      (s.workers 0).at_pc = pc.check ∧ s.active_count = 0 ∧ s.global_queue = [])
      ?_ ?_ ?_ ?_ ?_ ?_ ?_ ?_ ?_ ?_ ?_ ?_ ?_ ?_ ?_
    · intro _ _ _ h; simp at h
    · intro _ _ _ h; simp at h
    · intro _ _ _ _ _ h; simp at h
    · intro _ _ _ _ _ h; simp at h
    · intro _ h; simp at h
    · intro hpc h0 _ _
      exact ⟨hpc, h0, lone_queue_empty hq (Or.inl hpc)⟩
    · intro _ _ h; simp at h
    · intro _ _ h; simp at h
    · intro _ _ _ _ _ _ h; simp at h
    · intro _ _ _ _ _ _ h; simp at h
    · intro _ _ h; simp at h
    · intro _ _ _ _ h; simp at h
    · intro _ _ h; simp at h
    · intro hpc _ _ _ hne
      exact absurd hpc hne
    · intro _ h hne
      exact absurd h hne
  · refine step_cases f eps s 0 k (fun s2 => (s2.workers 0).at_pc = pc.check →
      (s.workers 0).at_pc = pc.poll ∧ (s.workers 0).currently_active = false
        ∧ s.global_queue = [])
      ?_ ?_ ?_ ?_ ?_ ?_ ?_ ?_ ?_ ?_ ?_ ?_ ?_ ?_ ?_
    · intro _ _ _ h; simp at h
    · intro hpc hact hnil _
      exact ⟨hpc, hact, hnil⟩
    · intro _ _ _ _ _ h; simp at h
    · intro _ _ _ _ _ h; simp at h
    · intro _ h; simp at h
    · intro _ _ h; simp at h
    · intro hpc h0 _
      exfalso
      apply h0
      rw [hcount]; simp [counted, hpc]
    · intro _ _ h; simp at h
    · intro _ _ _ _ _ _ h; simp at h
    · intro _ _ _ _ _ _ h; simp at h
    · intro _ _ h; simp at h
    · intro _ _ _ _ h; simp at h
    · intro _ _ h; simp at h
    · intro hpc _ _ h
      simp [hpc] at h
    · intro hpc h
      rcases hpc with ⟨hpc, -⟩ | hpc <;> simp [hpc] at h

/-! ## One invocation of `global_handler` -/

/-- C13, as stated, fails: on the zero function over `[0, 1]` the lone worker holds `33`
tasks after its 34th step, one more than `local_queue_max_size`, with nothing spilled;
its next step moves all `33` to the global queue and leaves it none. -/
theorem spill_counterexample :
    (held ((reached 0 1 (fun _ => 0) 1 1 (List.replicate 34 (0, 0))).workers 0)).length = 33
      ∧ (reached 0 1 (fun _ => 0) 1 1 (List.replicate 34 (0, 0))).global_queue = []
      ∧ ((reached 0 1 (fun _ => 0) 1 1 (List.replicate 35 (0, 0))).global_queue).length = 33
      ∧ held ((reached 0 1 (fun _ => 0) 1 1 (List.replicate 35 (0, 0))).workers 0) = [] := by
  set_option maxRecDepth 100000 in
  set_option maxHeartbeats 4000000 in
  norm_num [reached, List.replicate, exec, loops, threads, init, step, try_dequeue, set_worker,
    Function.update, while_turn, local_queue_max_size, capacity_extra, local_handler,
    std_midpoint, push_back, uint32_increment, uint32_decrement, held]

/-- C13, amended: a worker in the loop of `global_handler` pushes the two children of a
split whenever its buffer held at most `local_queue_max_size` tasks before the pop, without
touching the global queue; once the buffer holds more than `local_queue_max_size` tasks
its next step enqueues the whole buffer to the global queue in one bulk enqueue and keeps
no task, and the step after adds its local accumulator and returns to the poll. -/
theorem spill_moves_whole_buffer (f : ℚ → ℚ) (eps : ℚ) (s : state) (i k : ℕ) (q : List task)
    (acc : ℚ) (hpc : (s.workers i).at_pc = pc.handle q acc) :
    (local_queue_max_size < q.length →
        (step f eps s i k).global_queue = s.global_queue ++ q
          ∧ ((step f eps s i k).workers i).at_pc = pc.flush acc
          ∧ held ((step f eps s i k).workers i) = []
          ∧ (step f eps (step f eps s i k) i k).accumulated_integral
            = s.accumulated_integral + acc
          ∧ (step f eps (step f eps s i k) i k).global_queue = s.global_queue ++ q
          ∧ ((step f eps (step f eps s i k) i k).workers i).at_pc = pc.poll)
      ∧ ∀ rest item, q = rest ++ [item] → rest.length < local_queue_max_size →
          diverged f eps item →
          (step f eps s i k).global_queue = s.global_queue
            ∧ ((step f eps s i k).workers i).at_pc
              = pc.handle (rest ++ [left_child f item, right_child f item]) acc := by
  constructor
  · intro hlen
    have hstep : step f eps s i k = set_worker
        { s with global_queue := s.global_queue ++ q } i
        { at_pc := pc.flush acc, currently_active := (s.workers i).currently_active } := by
      simp only [step, hpc, while_turn_spill _ _ _ _ hlen]
    rw [hstep]
    simp [step, held]
  · intro rest item hq hrest hd
    subst hq
    have hstep : step f eps s i k = set_worker s i
        { at_pc := pc.handle (rest ++ [left_child f item, right_child f item]) acc,
          currently_active := (s.workers i).currently_active } := by
      simp only [step, hpc, while_turn_concat _ _ _ _ _ hrest, if_pos hd]
    rw [hstep]
    simp

/-- Witness of the amended C13: the lone worker holding the root task of the zero function
splits it and leaves the global queue alone. -/
theorem spill_moves_whole_buffer_witness :
    (step (fun _ => 0) 1 (reached 0 1 (fun _ => 0) 1 1 [(0, 0), (0, 0)]) 0 0).global_queue
      = (reached 0 1 (fun _ => 0) 1 1 [(0, 0), (0, 0)]).global_queue :=
  ((spill_moves_whole_buffer (fun _ => 0) 1 (reached 0 1 (fun _ => 0) 1 1 [(0, 0), (0, 0)]) 0 0
    [{ a := 0, b := 1, func_val_a := 0, func_val_b := 0, integral := 0 }] 0
    (by norm_num [reached, exec, loops, threads, init, step, try_dequeue, set_worker,
      Function.update, std_midpoint, uint32_increment])).2 []
    { a := 0, b := 1, func_val_a := 0, func_val_b := 0, integral := 0 } rfl
    (by norm_num [local_queue_max_size])
    (by norm_num [diverged, new_integral, integral_left, integral_right, mid,
      std_midpoint])).1

/-! ## Workers run one after the other -/

theorem handler_trace_concat (f : ℚ → ℚ) (eps : ℚ) (n : ℕ) (rest : List task) (item : task)
    (acc : ℚ) (h : rest.length < local_queue_max_size) :
    handler_trace f eps (n + 1) (rest ++ [item]) acc =
      if diverged f eps item then
        (item :: (handler_trace f eps n
            (rest ++ [left_child f item, right_child f item]) acc).1,
          (handler_trace f eps n (rest ++ [left_child f item, right_child f item]) acc).2)
      else
        (item :: (handler_trace f eps n rest (acc + new_integral f item)).1,
          (handler_trace f eps n rest (acc + new_integral f item)).2) := by
  have h3 : (rest ++ [item]).getLast? = some item := by simp
  rw [handler_trace, h3, while_turn_concat f eps acc rest item h]
  split_ifs <;> rfl

/-- Below a task whose subdivision is finite and fits the buffer, the loop handles the
subdivision right child first, and then goes on as from the tasks that were below. -/
theorem handler_trace_right_first (f : ℚ → ℚ) (eps : ℚ) : ∀ (d m : ℕ) (rest : List task)
    (t : task) (acc v : ℚ), R f eps d t = some v →
    rest.length + d ≤ local_queue_max_size →
    handler_trace f eps (nodes f eps d t + m) (rest ++ [t]) acc =
      (right_first f eps d t ++ (handler_trace f eps m rest (acc + v)).1,
        (handler_trace f eps m rest (acc + v)).2)
  | 0, m, rest, t, acc, v, h, _ => by simp [R] at h
  | d + 1, m, rest, t, acc, v, h, hlen => by
    have hrest : rest.length < local_queue_max_size := by omega
    by_cases hd : diverged f eps t
    · obtain ⟨x, y, hl, hr, hv, hn⟩ := R_node h hd
      rw [R_succ, if_pos hd] at h
      cases hl2 : R f eps d (left_child f t) with
      | none => simp [hl2] at h
      | some x2 =>
        cases hr2 : R f eps d (right_child f t) with
        | none => simp [hl2, hr2] at h
        | some y2 =>
          rw [hl2, hr2] at h
          simp only [Option.some.injEq] at h
          have e1 : nodes f eps (d + 1) t + m
              = (nodes f eps d (right_child f t) + (nodes f eps d (left_child f t) + m)) + 1 := by
            rw [nodes, if_pos hd]; omega
          have e2 : rest ++ [left_child f t, right_child f t]
              = (rest ++ [left_child f t]) ++ [right_child f t] := by simp
          rw [e1, handler_trace_concat f eps _ rest t acc hrest, if_pos hd, e2,
            handler_trace_right_first f eps d _ (rest ++ [left_child f t]) (right_child f t)
              acc y2 hr2 (by simp; omega),
            handler_trace_right_first f eps d m rest (left_child f t) (acc + y2) x2 hl2
              (by omega)]
          have e3 : acc + y2 + x2 = acc + v := by rw [← h]; ring
          rw [right_first, if_pos hd, e3]
          simp
    · obtain ⟨hv, hn⟩ := R_leaf h hd
      have e1 : nodes f eps (d + 1) t + m = m + 1 := by rw [hn]; omega
      rw [e1, handler_trace_concat f eps _ rest t acc hrest, if_neg hd, right_first,
        if_neg hd, hv]
      simp

/-- While a task pushed after `rest` is in the buffer, the tasks of `rest` stay where they
are. -/
theorem handler_trace_frame (f : ℚ → ℚ) (eps : ℚ) (rest : List task) : ∀ (n : ℕ)
    (s : List task) (acc : ℚ),
    (∀ m, m < n → rest.length < (handler_trace f eps m (rest ++ s) acc).2.1.length) →
    rest <+: (handler_trace f eps n (rest ++ s) acc).2.1
  | 0, s, acc, _ => by simp [handler_trace]
  | n + 1, s, acc, h => by
    have h0 := h 0 (by omega)
    simp only [handler_trace, List.length_append] at h0
    have hs : s ≠ [] := by
      intro e; subst e; simp at h0
    obtain ⟨s1, item, rfl⟩ : ∃ s1 item, s = s1 ++ [item] :=
      ⟨s.dropLast, s.getLast hs, (List.dropLast_append_getLast hs).symm⟩
    by_cases hlen : (rest ++ s1).length < local_queue_max_size
    · have key : ∀ k, handler_trace f eps (k + 1) (rest ++ (s1 ++ [item])) acc =
          if diverged f eps item then
            (item :: (handler_trace f eps k
                (rest ++ (s1 ++ [left_child f item, right_child f item])) acc).1,
              (handler_trace f eps k
                (rest ++ (s1 ++ [left_child f item, right_child f item])) acc).2)
          else
            (item :: (handler_trace f eps k (rest ++ s1) (acc + new_integral f item)).1,
              (handler_trace f eps k (rest ++ s1) (acc + new_integral f item)).2) := by
        intro k
        rw [← List.append_assoc, handler_trace_concat f eps k (rest ++ s1) item acc hlen]
        simp
      rw [key]
      by_cases hd : diverged f eps item
      · rw [if_pos hd]
        refine handler_trace_frame f eps rest n _ acc ?_
        intro m hm
        have := h (m + 1) (by omega)
        rw [key, if_pos hd] at this
        exact this
      · rw [if_neg hd]
        refine handler_trace_frame f eps rest n _ _ ?_
        intro m hm
        have := h (m + 1) (by omega)
        rw [key, if_neg hd] at this
        exact this
    · have hsp : local_queue_max_size < (rest ++ (s1 ++ [item])).length := by
        simp only [List.length_append, List.length_singleton] at hlen ⊢
        omega
      rw [handler_trace, while_turn_spill f eps acc _ hsp]
      simp

/-- C21: inside `global_handler` the local buffer is a stack.  The task handled next is the
back of the buffer, the one pushed last; after a split the right child is handled right
after its parent, before the left child; below a task whose subdivision is finite and fits
the buffer the loop handles the whole subdivision, all of the right child's before all of
the left child's, and only then goes on as from the tasks pushed earlier; and as long as a
task pushed after them is in the buffer, the tasks pushed earlier stay where they are. -/
theorem stack_discipline (f : ℚ → ℚ) (eps : ℚ) :
    (∀ (n : ℕ) (rest : List task) (item : task) (acc : ℚ),
        rest.length < local_queue_max_size →
        (handler_trace f eps (n + 1) (rest ++ [item]) acc).1.head? = some item)
    ∧ (∀ (n : ℕ) (rest : List task) (item : task) (acc : ℚ),
        rest.length + 1 < local_queue_max_size → diverged f eps item →
        (handler_trace f eps (n + 2) (rest ++ [item]) acc).1.take 2
          = [item, right_child f item])
    ∧ (∀ (d m : ℕ) (rest : List task) (t : task) (acc v : ℚ), R f eps d t = some v →
        rest.length + d ≤ local_queue_max_size →
        handler_trace f eps (nodes f eps d t + m) (rest ++ [t]) acc =
          (right_first f eps d t ++ (handler_trace f eps m rest (acc + v)).1,
            (handler_trace f eps m rest (acc + v)).2))
    ∧ (∀ (d : ℕ) (t : task), diverged f eps t →
        right_first f eps (d + 1) t =
          t :: (right_first f eps d (right_child f t) ++ right_first f eps d (left_child f t)))
    ∧ (∀ (n : ℕ) (rest s : List task) (acc : ℚ),
        (∀ m, m < n → rest.length < (handler_trace f eps m (rest ++ s) acc).2.1.length) →
        rest <+: (handler_trace f eps n (rest ++ s) acc).2.1) := by
  refine ⟨?_, ?_, handler_trace_right_first f eps, ?_,
    fun n rest s acc h => handler_trace_frame f eps rest n s acc h⟩
  · intro n rest item acc h
    rw [handler_trace_concat f eps n rest item acc h]
    split_ifs <;> rfl
  · intro n rest item acc h hd
    have e : rest ++ [left_child f item, right_child f item]
        = (rest ++ [left_child f item]) ++ [right_child f item] := by simp
    rw [handler_trace_concat f eps (n + 1) rest item acc (by omega), if_pos hd, e,
      handler_trace_concat f eps n _ _ acc (by simp; omega)]
    split_ifs <;> rfl
  · intro d t hd
    rw [right_first, if_pos hd]

/-- Witness of C21: `x ↦ x * x` over `[1, 3]` with tolerance `1/10` splits once; the three
turns of the loop handle the task, its right child and its left child, in this order. -/
theorem stack_discipline_witness :
    R (fun x => x * x) (1 / 10) 2
        { a := 1, b := 3, func_val_a := 1, func_val_b := 9, integral := 10 } = some (35 / 4)
      ∧ ([] : List task).length + 2 ≤ local_queue_max_size
      ∧ handler_trace (fun x => x * x) (1 / 10)
          (nodes (fun x => x * x) (1 / 10) 2
            { a := 1, b := 3, func_val_a := 1, func_val_b := 9, integral := 10 } + 0)
          ([] ++ [{ a := 1, b := 3, func_val_a := 1, func_val_b := 9, integral := 10 }]) 0 =
        (right_first (fun x => x * x) (1 / 10) 2
            { a := 1, b := 3, func_val_a := 1, func_val_b := 9, integral := 10 }
          ++ (handler_trace (fun x => x * x) (1 / 10) 0 [] (0 + 35 / 4)).1,
          (handler_trace (fun x => x * x) (1 / 10) 0 [] (0 + 35 / 4)).2)
      ∧ right_first (fun x => x * x) (1 / 10) 2
            { a := 1, b := 3, func_val_a := 1, func_val_b := 9, integral := 10 }
          = [{ a := 1, b := 3, func_val_a := 1, func_val_b := 9, integral := 10 },
             { a := 2, b := 3, func_val_a := 4, func_val_b := 9, integral := 13 / 2 },
             { a := 1, b := 2, func_val_a := 1, func_val_b := 4, integral := 5 / 2 }] :=
  ⟨by norm_num [R, abs_of_nonneg, abs_of_nonpos], by decide,
   (stack_discipline (fun x => x * x) (1 / 10)).2.2.1 2 0 []
      { a := 1, b := 3, func_val_a := 1, func_val_b := 9, integral := 10 } 0 (35 / 4)
      (by norm_num [R, abs_of_nonneg, abs_of_nonpos]) (by decide),
   by norm_num [right_first, diverged, new_integral, integral_left, integral_right, mid,
        std_midpoint, left_child, right_child, abs_of_nonneg, abs_of_nonpos]⟩

end lockfree

namespace sort_cpp

variable {α : Type}

/-! ## `merge_sort` of `sort.cpp` -/

theorem inplace_merge_perm [LinearOrder α] : ∀ (xs ys : List α), (inplace_merge xs ys).Perm (xs ++ ys)
  | [], ys => by simp [inplace_merge]
  | x :: xs, [] => by simp [inplace_merge]
  | x :: xs, y :: ys => by
    rw [inplace_merge]
    split_ifs
    · have ih := inplace_merge_perm (x :: xs) ys
      exact (List.Perm.cons y ih).trans (List.perm_middle (a := y)).symm
    · have ih := inplace_merge_perm xs (y :: ys)
      exact List.Perm.cons x ih
termination_by xs ys => xs.length + ys.length

theorem mem_inplace_merge [LinearOrder α] {xs ys : List α} {b : α} :
    b ∈ inplace_merge xs ys ↔ b ∈ xs ∨ b ∈ ys := by
  rw [(inplace_merge_perm xs ys).mem_iff, List.mem_append]

theorem inplace_merge_sorted [LinearOrder α] : ∀ (xs ys : List α), xs.Sorted (· ≤ ·) → ys.Sorted (· ≤ ·) →
    (inplace_merge xs ys).Sorted (· ≤ ·)
  | [], ys, _, hy => by simpa [inplace_merge] using hy
  | x :: xs, [], hx, _ => by simpa [inplace_merge] using hx
  | x :: xs, y :: ys, hx, hy => by
    rw [inplace_merge]
    have hx2 := List.sorted_cons.mp hx
    have hy2 := List.sorted_cons.mp hy
    split_ifs with hlt
    · refine List.sorted_cons.mpr ⟨?_, inplace_merge_sorted (x :: xs) ys hx hy2.2⟩
      intro b hb
      rcases mem_inplace_merge.mp hb with hb | hb
      · rcases List.mem_cons.mp hb with hb | hb
        · rw [hb]; exact le_of_lt hlt
        · exact le_trans (le_of_lt hlt) (hx2.1 b hb)
      · exact hy2.1 b hb
    · have hle : x ≤ y := not_lt.mp hlt
      refine List.sorted_cons.mpr ⟨?_, inplace_merge_sorted xs (y :: ys) hx2.2 hy⟩
      intro b hb
      rcases mem_inplace_merge.mp hb with hb | hb
      · exact hx2.1 b hb
      · rcases List.mem_cons.mp hb with hb | hb
        · rw [hb]; exact hle
        · exact le_trans hle (hy2.1 b hb)
termination_by xs ys _ _ => xs.length + ys.length

theorem merge_sort_spec [LinearOrder α] : ∀ (n : ℕ) (l : List α), l.length ≤ n →
    (merge_sort l).Sorted (· ≤ ·) ∧ (merge_sort l).Perm l
  | 0, l, h => by
    have : l = [] := List.length_eq_zero.mp (by omega)
    subst this
    rw [merge_sort]
    simp
  | n + 1, l, h => by
    rw [merge_sort]
    split_ifs with hl
    · rcases hl with hl | hl
      · have : l = [] := List.length_eq_zero.mp hl
        subst this
        simp
      · obtain ⟨x, rfl⟩ := List.length_eq_one.mp hl
        simp
    · have h1 : (l.take (l.length / 2)).length ≤ n := by
        simp only [List.length_take]; omega
      have h2 : (l.drop (l.length / 2)).length ≤ n := by
        simp only [List.length_drop]; omega
      obtain ⟨s1, p1⟩ := merge_sort_spec n _ h1
      obtain ⟨s2, p2⟩ := merge_sort_spec n _ h2
      refine ⟨inplace_merge_sorted _ _ s1 s2, ?_⟩
      refine (inplace_merge_perm _ _).trans ?_
      have := List.Perm.append p1 p2
      rwa [List.take_append_drop] at this

/-- C18: on every range `merge_sort` returns (it is a total function) and leaves the range
sorted in non-decreasing order and a permutation of its original contents. -/
theorem merge_sort_sorts [LinearOrder α] (l : List α) :
    (merge_sort l).Sorted (· ≤ ·) ∧ (merge_sort l).Perm l :=
  merge_sort_spec l.length l (le_refl _)

/-! ## `parallel_merge_sort` of `sort.cpp` -/

theorem chunk_flatten (n : ℕ) (hn : n ≠ 0) : ∀ (m : ℕ) (l : List α), l.length ≤ m →
    (chunk n l).flatten = l
  | 0, l, h => by
    have : l = [] := List.length_eq_zero.mp (by omega)
    subst this
    rw [chunk]
    simp
  | m + 1, l, h => by
    rw [chunk]
    split_ifs with hl
    · rcases hl with hl | hl
      · exact absurd hl hn
      · have : l = [] := List.length_eq_zero.mp hl
        subst this
        simp
    · have h1 : (l.drop n).length ≤ m := by
        simp only [List.length_drop]; omega
      rw [List.flatten_cons, chunk_flatten n hn m _ h1, List.take_append_drop]

theorem merge_tail_flatten (p : ℕ) : ∀ (fuel : ℕ) (c : List (List α)),
    (merge_tail p fuel c).flatten = c.flatten
  | 0, c => rfl
  | fuel + 1, c => by
    rw [merge_tail]
    split_ifs with h
    · rw [merge_tail_flatten p fuel]
      rcases List.eq_nil_or_concat c with hc | ⟨c1, last, hc⟩
      · subst hc; simp
      · subst hc
        rcases List.eq_nil_or_concat c1 with hc1 | ⟨c2, prev, hc1⟩
        · subst hc1; simp
        · subst hc1; simp
    · rfl

theorem merge_tail_length (p : ℕ) (hp : 1 ≤ p) : ∀ (fuel : ℕ) (c : List (List α)),
    c.length ≤ p + fuel → (merge_tail p fuel c).length ≤ p
  | 0, c, h => by simpa [merge_tail] using h
  | fuel + 1, c, h => by
    rw [merge_tail]
    split_ifs with hlt
    · apply merge_tail_length p hp fuel
      simp only [List.length_append, List.length_dropLast, List.length_singleton]
      omega
    · omega

theorem resize_flatten (n : ℕ) (c : List (List α)) (h : c.length ≤ n) :
    (resize n c).flatten = c.flatten := by
  have hlen : (c ++ List.replicate (n - c.length) ([] : List α)).length = n := by
    simp only [List.length_append, List.length_replicate]; omega
  have : resize n c = c ++ List.replicate (n - c.length) [] := by
    rw [resize, List.take_of_length_le (by rw [hlen])]
  rw [this, List.flatten_append]
  have hz : (List.replicate (n - c.length) ([] : List α)).flatten = [] := by
    induction (n - c.length) with
    | zero => rfl
    | succ k ih => simp [List.replicate_succ, ih]
  rw [hz, List.append_nil]

theorem root_chunks_flatten (p : ℕ) (hp : 1 ≤ p) (values : List α) :
    (root_chunks p values).flatten = values := by
  simp only [root_chunks]
  rw [resize_flatten _ _ (merge_tail_length p hp _ _ (by omega)), merge_tail_flatten]
  apply chunk_flatten _ _ values.length values (le_refl _)
  split_ifs with h
  · omega
  · exact h

theorem map_merge_sort_flatten [LinearOrder α] : ∀ (c : List (List α)),
    ((c.map merge_sort).flatten).Perm c.flatten
  | [] => by simp
  | s :: c => by
    simp only [List.map_cons, List.flatten_cons]
    exact List.Perm.append (merge_sort_sorts s).2 (map_merge_sort_flatten c)

theorem filter_nonempty_flatten : ∀ (c : List (List α)),
    (c.filter (fun container => container.length ≠ 0)).flatten = c.flatten
  | [] => rfl
  | s :: c => by
    by_cases hs : s.length = 0
    · have : s = [] := List.length_eq_zero.mp hs
      subst this
      simpa using filter_nonempty_flatten c
    · simp only [List.filter_cons, hs, ne_eq, not_false_eq_true, decide_True, if_true,
        List.flatten_cons, filter_nonempty_flatten c]

theorem extract_top_isSome [LinearOrder α] : ∀ (h : List (List α)), h ≠ [] →
    ∃ m others, extract_top h = some (m, others)
  | [], hne => absurd rfl hne
  | s :: rest, _ => by
    simp only [extract_top]
    cases extract_top rest with
    | none => exact ⟨s, [], rfl⟩
    | some p =>
      obtain ⟨t, others⟩ := p
      by_cases hf : front_le s t = true
      · exact ⟨s, t :: others, by simp [hf]⟩
      · exact ⟨t, s :: others, by simp [hf]⟩

theorem front_le_trans [LinearOrder α] {s t u : List α} (ht : t ≠ []) (h1 : front_le s t = true)
    (h2 : front_le t u = true) : front_le s u = true := by
  cases s with
  | nil => simp [front_le]
  | cons x s =>
    cases u with
    | nil => simp [front_le]
    | cons z u =>
      cases t with
      | nil => exact absurd rfl ht
      | cons y t =>
        simp only [front_le, decide_eq_true_eq] at h1 h2 ⊢
        exact le_trans h1 h2

theorem front_le_total [LinearOrder α] (s t : List α) : front_le s t = true ∨ front_le t s = true := by
  cases s with
  | nil => left; simp [front_le]
  | cons x s =>
    cases t with
    | nil => left; simp [front_le]
    | cons y t =>
      simp only [front_le, decide_eq_true_eq]
      exact le_total x y

theorem extract_top_spec [LinearOrder α] : ∀ (h : List (List α)) (m : List α)
    (others : List (List α)), (∀ t ∈ h, t ≠ []) → extract_top h = some (m, others) →
    h.Perm (m :: others) ∧ ∀ t ∈ others, front_le m t = true
  | [], m, others, _, htop => by simp [extract_top] at htop
  | s :: rest, m, others, hne, htop => by
    simp only [extract_top] at htop
    have hrest : ∀ t ∈ rest, t ≠ [] := fun t ht => hne t (List.mem_cons_of_mem _ ht)
    cases hr : extract_top rest with
    | none =>
      rw [hr] at htop
      simp only [Option.some.injEq, Prod.mk.injEq] at htop
      obtain ⟨h1, h2⟩ := htop
      subst h1 h2
      have : rest = [] := by
        by_contra hx
        obtain ⟨u, o, hu⟩ := extract_top_isSome rest hx
        rw [hu] at hr
        simp at hr
      subst this
      exact ⟨List.Perm.refl _, by simp⟩
    | some p =>
      obtain ⟨u, o⟩ := p
      rw [hr] at htop
      obtain ⟨hu1, hu2⟩ := extract_top_spec rest u o hrest hr
      have hune : u ≠ [] := hrest u (hu1.symm.subset (List.mem_cons_self _ _))
      by_cases hf : front_le s u = true
      · simp only [hf, if_true, Option.some.injEq, Prod.mk.injEq] at htop
        obtain ⟨h1, h2⟩ := htop
        subst h1 h2
        refine ⟨List.Perm.cons s hu1, ?_⟩
        intro t ht
        rcases List.mem_cons.mp ht with ht | ht
        · rw [ht]; exact hf
        · exact front_le_trans hune hf (hu2 t ht)
      · simp only [hf, Bool.false_eq_true, if_false, Option.some.injEq, Prod.mk.injEq] at htop
        obtain ⟨h1, h2⟩ := htop
        subst h1 h2
        refine ⟨(List.Perm.cons s hu1).trans (List.Perm.swap u s o), ?_⟩
        intro t ht
        rcases List.mem_cons.mp ht with ht | ht
        · rw [ht]
          rcases front_le_total s u with h | h
          · exact absurd h hf
          · exact h
        · exact hu2 t ht

theorem pop_heap_spec [LinearOrder α] (h : List (List α)) (hne : h ≠ [])
    (hall : ∀ t ∈ h, t ≠ []) :
    ∃ m others, h.Perm (m :: others) ∧ (∀ t ∈ others, front_le m t = true)
      ∧ (pop_heap h).getLast? = some m ∧ (pop_heap h).dropLast = others := by
  obtain ⟨m, others, hm⟩ := extract_top_isSome h hne
  obtain ⟨h1, h2⟩ := extract_top_spec h m others hall hm
  refine ⟨m, others, h1, h2, ?_, ?_⟩
  · simp [pop_heap, hm]
  · simp [pop_heap, hm]

theorem front_le_all [LinearOrder α] {x : α} {tl t : List α} (ht : t.Sorted (· ≤ ·))
    (h : front_le (x :: tl) t = true) : ∀ y ∈ t, x ≤ y := by
  cases t with
  | nil => simp
  | cons z t =>
    simp only [front_le, decide_eq_true_eq] at h
    intro y hy
    rcases List.mem_cons.mp hy with hy | hy
    · rw [hy]; exact h
    · exact le_trans h ((List.sorted_cons.mp ht).1 y hy)

/-- The merging loop returns within one turn per element, and its result is sorted and made
of the values it started with and the elements of the spans. -/
theorem heap_merge_spec [LinearOrder α] : ∀ (fuel : ℕ) (h : List (List α)) (out : List α),
    (∀ s ∈ h, s ≠ [] ∧ s.Sorted (· ≤ ·)) → out.Sorted (· ≤ ·) →
    (∀ x ∈ out, ∀ s ∈ h, ∀ y ∈ s, x ≤ y) → h.flatten.length ≤ fuel →
    ∃ r, heap_merge fuel h out = some r ∧ r.Sorted (· ≤ ·) ∧ r.Perm (out ++ h.flatten)
  | fuel, [], out, _, hout, _, _ => ⟨out, by simp [heap_merge], hout, by simp⟩
  | 0, s :: rest, out, hh, _, _, hf => by
    have := (hh s (List.mem_cons_self _ _)).1
    cases s with
    | nil => exact absurd rfl this
    | cons x s => simp at hf
  | fuel + 1, s :: rest, out, hh, hout, hle, hf => by
    obtain ⟨m, others, hperm, hmin, hlast, hdrop⟩ := pop_heap_spec (s :: rest) (by simp)
      (fun t ht => (hh t ht).1)
    have hm : m ∈ s :: rest := hperm.symm.subset (List.mem_cons_self _ _)
    have hflat : (s :: rest).flatten.Perm (m ++ others.flatten) := by
      have := List.Perm.flatten hperm
      simpa using this
    obtain ⟨hmne, hmsorted⟩ := hh m hm
    obtain ⟨x, tl, rfl⟩ : ∃ x tl, m = x :: tl := by
      cases m with
      | nil => exact absurd rfl hmne
      | cons x tl => exact ⟨x, tl, rfl⟩
    have hgoal : ∃ r, heap_merge (fuel + 1) (s :: rest) out = some r ∧ r.Sorted (· ≤ ·)
        ∧ r.Perm (out ++ (s :: rest).flatten) := by
      have hx2 := List.sorted_cons.mp hmsorted
      have hxm : x ∈ x :: tl := List.mem_cons_self _ _
      have hsub : ∀ t ∈ others, t ∈ s :: rest :=
        fun t ht => hperm.symm.subset (List.mem_cons_of_mem _ ht)
      have hout2 : (out ++ [x]).Sorted (· ≤ ·) := by
        rw [List.Sorted, List.pairwise_append]
        refine ⟨hout, List.pairwise_singleton _ _, ?_⟩
        intro a ha b hb
        simp only [List.mem_singleton] at hb
        rw [hb]
        exact hle a ha (x :: tl) hm x hxm
      have hlen : ((s :: rest).flatten).length
          = (x :: tl).length + (others.flatten).length := by
        rw [hflat.length_eq, List.length_append]
      simp only [heap_merge, hlast, hdrop]
      by_cases htl : tl.length = 0
      · have htl2 : tl = [] := List.length_eq_zero.mp htl
        subst htl2
        simp only [List.length_nil, if_true]
        obtain ⟨r, hr1, hr2, hr3⟩ := heap_merge_spec fuel others (out ++ [x])
          (fun t ht => hh t (hsub t ht)) hout2
          (by
            intro a ha t ht y hy
            rcases List.mem_append.mp ha with ha | ha
            · exact hle a ha t (hsub t ht) y hy
            · simp only [List.mem_singleton] at ha
              rw [ha]
              exact front_le_all (hh t (hsub t ht)).2 (hmin t ht) y hy)
          (by simp only [List.length_cons, List.length_nil] at hlen; omega)
        refine ⟨r, hr1, hr2, hr3.trans ?_⟩
        rw [List.append_assoc]
        exact List.Perm.append_left out hflat.symm
      · simp only [htl, if_false]
        obtain ⟨r, hr1, hr2, hr3⟩ := heap_merge_spec fuel (others ++ [tl])
          (out ++ [x])
          (by
            intro t ht
            rcases List.mem_append.mp ht with ht | ht
            · exact hh t (hsub t ht)
            · simp only [List.mem_singleton] at ht
              rw [ht]
              exact ⟨fun h0 => htl (by rw [h0]; rfl), hx2.2⟩)
          hout2
          (by
            intro a ha t ht y hy
            rcases List.mem_append.mp ha with ha | ha
            · rcases List.mem_append.mp ht with ht | ht
              · exact hle a ha t (hsub t ht) y hy
              · simp only [List.mem_singleton] at ht
                rw [ht] at hy
                exact hle a ha (x :: tl) hm y (List.mem_cons_of_mem _ hy)
            · simp only [List.mem_singleton] at ha
              rw [ha]
              rcases List.mem_append.mp ht with ht | ht
              · exact front_le_all (hh t (hsub t ht)).2 (hmin t ht) y hy
              · simp only [List.mem_singleton] at ht
                rw [ht] at hy
                exact hx2.1 y hy)
          (by
            simp only [List.flatten_append, List.length_append, List.flatten_cons,
              List.flatten_nil, List.append_nil]
            simp only [List.length_cons] at hlen
            omega)
        refine ⟨r, hr1, hr2, hr3.trans ?_⟩
        rw [List.append_assoc]
        refine List.Perm.append_left out ?_
        refine List.Perm.trans ?_ hflat.symm
        have e : (others ++ [tl]).flatten = others.flatten ++ tl := by simp
        rw [e]
        show ([x] ++ (others.flatten ++ tl)).Perm (x :: (tl ++ others.flatten))
        exact List.Perm.cons x (@List.perm_append_comm _ others.flatten tl)
    exact hgoal

/-- C17: at the root rank, for every input vector and every communicator size `p >= 1`,
`parallel_merge_sort` returns (within one turn of the merging loop per element) and leaves
`values` sorted in non-decreasing order and a permutation of the original contents. -/
theorem parallel_merge_sort_sorts [LinearOrder α] (fuel p : ℕ) (values : List α) (hp : 1 ≤ p)
    (hfuel : values.length ≤ fuel) :
    ∃ r, parallel_merge_sort fuel p values = some r ∧ r.Sorted (· ≤ ·) ∧ r.Perm values := by
  have hflat : (((root_chunks p values).map merge_sort).filter
      (fun container => container.length ≠ 0)).flatten.Perm values := by
    rw [filter_nonempty_flatten]
    have := map_merge_sort_flatten (root_chunks p values)
    rwa [root_chunks_flatten p hp values] at this
  obtain ⟨r, h1, h2, h3⟩ := heap_merge_spec fuel
    (((root_chunks p values).map merge_sort).filter (fun container => container.length ≠ 0)) []
    (by
      intro s hs
      rw [List.mem_filter] at hs
      obtain ⟨hs1, hs2⟩ := hs
      refine ⟨?_, ?_⟩
      · intro h0
        rw [h0] at hs2
        simp at hs2
      · obtain ⟨c, -, hc⟩ := List.mem_map.mp hs1
        rw [← hc]
        exact (merge_sort_sorts c).1)
    (List.sorted_nil) (by simp) (by rw [hflat.length_eq]; exact hfuel)
  refine ⟨r, h1, h2, ?_⟩
  simpa using h3.trans hflat

/-- Witness of C17: three values on two ranks. -/
theorem parallel_merge_sort_sorts_witness :
    ∃ r, parallel_merge_sort 3 2 ([3, 1, 2] : List ℤ) = some r ∧ r.Sorted (· ≤ ·)
      ∧ r.Perm [3, 1, 2] :=
  parallel_merge_sort_sorts 3 2 [3, 1, 2] (by norm_num) (by simp)

end sort_cpp

namespace sum_cc

/-! ## The partition of the harmonic sum in `sum.cc` -/

theorem mul_per_thread_le {count num_threads i : ℕ} (hi : i ≤ num_threads) :
    i * per_thread count num_threads ≤ count := by
  unfold per_thread
  calc i * (count / num_threads) ≤ num_threads * (count / num_threads) :=
        Nat.mul_le_mul_right _ hi
    _ ≤ count := Nat.mul_div_le count num_threads

theorem uint64_of_lt {x : ℕ} (h : x < 18446744073709551616) : uint64 x = x :=
  Nat.mod_eq_of_lt h

theorem uint32_of_lt {x : ℕ} (h : x < 4294967296) : uint32 x = x :=
  Nat.mod_eq_of_lt h

theorem task_range_eq (count num_threads i : ℕ) (hn : num_threads < 4294967296)
    (hc : count + 1 < 18446744073709551616) (hi : i < num_threads) :
    task_range count num_threads i
      = (bound count num_threads i, bound count num_threads (i + 1)) := by
  have h1 : i * per_thread count num_threads ≤ count := mul_per_thread_le (le_of_lt hi)
  have h2 : (i + 1) * per_thread count num_threads ≤ count :=
    mul_per_thread_le (Nat.succ_le_of_lt hi)
  have hb : bound count num_threads i = max (i * per_thread count num_threads) 1 := by
    rw [bound, if_neg (by omega)]
  simp only [task_range, one_past_all, uint64_of_lt hc,
    uint64_of_lt (lt_of_le_of_lt h1 (by omega)), hb]
  by_cases hlast : i = num_threads - 1
  · rw [if_pos hlast, bound, if_pos (by omega)]
  · rw [if_neg hlast, uint32_of_lt (by omega), uint64_of_lt (lt_of_le_of_lt h2 (by omega)),
      bound, if_neg (by omega), clamp]
    congr 1
    generalize (i + 1) * per_thread count num_threads = y at h2 ⊢
    split_ifs with h3 h4
    · have : y = 0 := by omega
      subst this
      rfl
    · omega
    · exact (max_eq_left (by omega)).symm

theorem bound_mono (count num_threads i : ℕ) (hi : i < num_threads) :
    bound count num_threads i ≤ bound count num_threads (i + 1) := by
  have h2 : (i + 1) * per_thread count num_threads ≤ count :=
    mul_per_thread_le (Nat.succ_le_of_lt hi)
  have h3 : i * per_thread count num_threads ≤ (i + 1) * per_thread count num_threads :=
    Nat.mul_le_mul_right _ (Nat.le_succ i)
  rw [bound, if_neg (by omega), bound]
  generalize i * per_thread count num_threads = x at h3 ⊢
  generalize (i + 1) * per_thread count num_threads = y at h2 h3 ⊢
  split_ifs
  · exact max_le (by omega) (by omega)
  · exact max_le_max h3 (le_refl 1)

theorem telescope (B : ℕ → ℕ) : ∀ (n : ℕ), (∀ i, i < n → B i ≤ B (i + 1)) →
    B 0 ≤ B n ∧ (List.range n).flatMap (fun i => List.range' (B i) (B (i + 1) - B i))
      = List.range' (B 0) (B n - B 0)
  | 0, _ => by simp
  | n + 1, h => by
    obtain ⟨h1, h2⟩ := telescope B n (fun i hi => h i (by omega))
    have h3 := h n (by omega)
    refine ⟨le_trans h1 h3, ?_⟩
    rw [List.range_succ, List.flatMap_append, h2]
    simp only [List.flatMap_cons, List.flatMap_nil, List.append_nil]
    have e1 : B 0 + (B n - B 0) = B n := by omega
    have key := List.range'_append_1 (B 0) (B n - B 0) (B (n + 1) - B n)
    rw [e1] at key
    rw [key]
    congr 1
    omega

theorem sum_map_flatMap {β : Type} (g : ℕ → ℚ) (f : β → List ℕ) : ∀ (l : List β),
    ((l.flatMap f).map g).sum = (l.map (fun r => ((f r).map g).sum)).sum
  | [] => rfl
  | r :: l => by
    simp only [List.flatMap_cons, List.map_append, List.sum_append, List.map_cons,
      List.sum_cons, sum_map_flatMap g f l]

theorem sum_range'_harmonic : ∀ (count : ℕ),
    ((List.range' 1 count).map (fun (value : ℕ) => 1 / (value : ℚ))).sum = harmonic count
  | 0 => by simp
  | count + 1 => by
    rw [List.range'_1_concat, List.map_append, List.sum_append, sum_range'_harmonic count,
      harmonic_succ]
    simp [add_comm]

theorem ranges_flatMap (count num_threads : ℕ) (h1 : 1 ≤ num_threads)
    (hn : num_threads < 4294967296) (hc : count + 1 < 18446744073709551616) :
    (ranges count num_threads).flatMap (fun r => iota r.1 r.2) = List.range' 1 count := by
  have hcongr : (ranges count num_threads).flatMap (fun r => iota r.1 r.2)
      = (List.range num_threads).flatMap (fun i => List.range' (bound count num_threads i)
          (bound count num_threads (i + 1) - bound count num_threads i)) := by
    rw [ranges, List.flatMap_map]
    apply List.flatMap_congr
    intro i hi
    rw [task_range_eq count num_threads i hn hc (List.mem_range.mp hi)]
    rfl
  rw [hcongr, (telescope (bound count num_threads) num_threads
    (fun i hi => bound_mono count num_threads i hi)).2]
  have hb0 : bound count num_threads 0 = 1 := by
    rw [bound, if_neg (by omega)]; simp
  have hbn : bound count num_threads num_threads = count + 1 := by
    rw [bound, if_pos (le_refl _)]
  rw [hb0, hbn, Nat.add_sub_cancel]

/-- C19 fails on the code: for `count = 2^64 - 1` and one thread, `count + 1` wraps to `0` and
the only range handed to `add_task` is `[1, 0)`, which holds no index, so the ranges do not
cover `1, ..., count`. -/
theorem wrapped_count_counterexample :
    ranges 18446744073709551615 1 = [(1, 0)]
      ∧ (ranges 18446744073709551615 1).flatMap (fun r => iota r.1 r.2) = []
      ∧ (ranges 18446744073709551615 1).flatMap (fun r => iota r.1 r.2)
        ≠ List.range' 1 18446744073709551615 := by
  have h : ranges 18446744073709551615 1 = [(1, 0)] := by
    simp [ranges, task_range, one_past_all, uint64, per_thread, List.range_succ]
  refine ⟨h, ?_, ?_⟩
  · rw [h]; simp [iota]
  · rw [h]
    have hne : List.range' 1 18446744073709551615 ≠ [] := by
      intro h0
      have := congrArg List.length h0
      simp at this
    simp [iota, hne.symm]

/-- Where `count + 1` does not wrap: for every `num_threads >= 1` and every `count` with
`count + 1 < 2^64`, the
ranges handed to `add_task` begin at `1`, each ends where the next begins, the last ends
at `count + 1`, and together they list exactly `1, ..., count`, each index once; so in
exact arithmetic the printed value is the harmonic sum of `1/k` for `k = 1..count`. -/
theorem ranges_partition (count num_threads : ℕ) (h1 : 1 ≤ num_threads)
    (hn : num_threads < 4294967296) (hc : count + 1 < 18446744073709551616) :
    (ranges count num_threads).flatMap (fun r => iota r.1 r.2) = List.range' 1 count
      ∧ (task_range count num_threads 0).1 = 1
      ∧ (task_range count num_threads (num_threads - 1)).2 = count + 1
      ∧ (∀ i, i + 1 < num_threads →
          (task_range count num_threads i).2 = (task_range count num_threads (i + 1)).1)
      ∧ (∀ i, i < num_threads →
          (task_range count num_threads i).1 ≤ (task_range count num_threads i).2)
      ∧ accumulated count num_threads = harmonic count := by
  refine ⟨ranges_flatMap count num_threads h1 hn hc, ?_, ?_, ?_, ?_, ?_⟩
  · rw [task_range_eq count num_threads 0 hn hc (by omega), bound, if_neg (by omega)]
    simp
  · rw [task_range_eq count num_threads _ hn hc (by omega)]
    have : num_threads - 1 + 1 = num_threads := by omega
    simp only [this, bound, if_pos (le_refl _)]
  · intro i hi
    rw [task_range_eq count num_threads i hn hc (by omega),
      task_range_eq count num_threads (i + 1) hn hc hi]
  · intro i hi
    rw [task_range_eq count num_threads i hn hc hi]
    exact bound_mono count num_threads i hi
  · have := sum_map_flatMap (fun (value : ℕ) => 1 / (value : ℚ)) (fun r : ℕ × ℕ => iota r.1 r.2)
      (ranges count num_threads)
    rw [ranges_flatMap count num_threads h1 hn hc, sum_range'_harmonic] at this
    rw [this]
    rfl

/-- Ten terms on three threads are listed exactly once each. -/
theorem ranges_partition_witness :
    (ranges 10 3).flatMap (fun r => iota r.1 r.2) = List.range' 1 10 :=
  (ranges_partition 10 3 (by norm_num) (by norm_num) (by norm_num)).1

end sum_cc

namespace transfer_solver

/-! ## The column counts of the ranks -/

theorem size_t_of_lt {x : ℕ} (h : x < 18446744073709551616) : size_t x = x :=
  Nat.mod_eq_of_lt h

theorem minus_of_le {x y : ℕ} (hx : x < 18446744073709551616) (hy : y ≤ x) :
    minus x y = x - y := by
  unfold minus size_t
  rw [Nat.mod_eq_of_lt (show y < 18446744073709551616 by omega)]
  omega

theorem per_process_mul_le {x_dim world_size : ℕ} (hx : x_dim < 18446744073709551616)
    (h1 : 1 ≤ world_size) (hle : world_size ≤ x_dim + 1) :
    per_process x_dim world_size * (world_size - 1) ≤ x_dim := by
  unfold per_process
  have hd : x_dim / world_size < 18446744073709551616 :=
    lt_of_le_of_lt (Nat.div_le_self _ _) hx
  rw [size_t_of_lt hd]
  rcases Nat.lt_or_ge (x_dim / world_size) 1 with h | h
  · rw [max_eq_right (by omega)]
    omega
  · rw [max_eq_left h]
    calc x_dim / world_size * (world_size - 1)
        ≤ x_dim / world_size * world_size := Nat.mul_le_mul_left _ (by omega)
      _ ≤ x_dim := Nat.div_mul_le_self _ _

theorem num_for_this_process_inner {x_dim world_size rank : ℕ}
    (hx : x_dim < 18446744073709551616) (h1 : 1 ≤ world_size) (hle : world_size ≤ x_dim + 1)
    (hr : rank < world_size - 1) :
    num_for_this_process x_dim world_size rank = per_process x_dim world_size := by
  have hb := per_process_mul_le hx h1 hle
  have h2 : per_process x_dim world_size * (rank + 1) ≤ x_dim :=
    le_trans (Nat.mul_le_mul_left _ (by omega)) hb
  have h3 : per_process x_dim world_size * rank ≤ x_dim :=
    le_trans (Nat.mul_le_mul_left _ (by omega)) h2
  unfold num_for_this_process
  rw [if_neg (by omega), size_t_of_lt (by omega), if_neg (by omega), size_t_of_lt (by omega),
    if_neg (by omega)]

theorem num_for_this_process_last {x_dim world_size : ℕ}
    (hx : x_dim < 18446744073709551616) (h1 : 1 ≤ world_size) (hle : world_size ≤ x_dim + 1) :
    num_for_this_process x_dim world_size (world_size - 1)
      = x_dim - per_process x_dim world_size * (world_size - 1) := by
  have hb := per_process_mul_le hx h1 hle
  unfold num_for_this_process
  rw [if_pos rfl, size_t_of_lt (by omega), minus_of_le hx hb]

theorem sum_map_range_const (g : ℕ → ℕ) (c : ℕ) : ∀ (n : ℕ), (∀ r, r < n → g r = c) →
    ((List.range n).map g).sum = n * c
  | 0, _ => by simp
  | n + 1, h => by
    rw [List.range_succ, List.map_append, List.sum_append,
      sum_map_range_const g c n (fun r hr => h r (by omega)), List.map_singleton,
      List.sum_singleton, h n (by omega)]
    ring

/-- Where the ranks are at most one more than the columns, the counts of the ranks
`0..world_size-1` sum to `x_dim` and `final` gets `t_dim * x_dim` elements. -/
theorem counts_sum (t_dim x_dim world_size : ℕ) (hx : t_dim * x_dim < 18446744073709551616)
    (ht : 1 ≤ t_dim) (h1 : 1 ≤ world_size) (hle : world_size ≤ x_dim + 1) :
    ((List.range world_size).map (num_for_this_process x_dim world_size)).sum = x_dim
      ∧ final_size t_dim x_dim world_size = t_dim * x_dim := by
  have hx2 : x_dim < 18446744073709551616 :=
    lt_of_le_of_lt (Nat.le_mul_of_pos_left _ (by omega)) hx
  have hb := per_process_mul_le hx2 h1 hle
  obtain ⟨p, rfl⟩ : ∃ p, world_size = p + 1 := ⟨world_size - 1, by omega⟩
  have hin : ∀ r, r < p →
      num_for_this_process x_dim (p + 1) r = per_process x_dim (p + 1) :=
    fun r hr => num_for_this_process_inner hx2 h1 hle (by omega)
  have hlast := num_for_this_process_last hx2 h1 hle
  simp only [Nat.add_sub_cancel] at hlast hb
  constructor
  · rw [List.range_succ, List.map_append, List.sum_append,
      sum_map_range_const _ _ p hin, List.map_singleton, List.sum_singleton, hlast]
    rw [Nat.mul_comm p]
    omega
  · unfold final_size
    have hmul : ∀ c, c ≤ x_dim → size_t (c * t_dim) = c * t_dim := by
      intro c hc
      apply size_t_of_lt
      calc c * t_dim ≤ x_dim * t_dim := Nat.mul_le_mul_right _ hc
        _ = t_dim * x_dim := Nat.mul_comm _ _
        _ < 18446744073709551616 := hx
    have hpp : per_process x_dim (p + 1) ≤ x_dim ∨ p = 0 := by
      rcases Nat.eq_zero_or_pos p with h | h
      · exact Or.inr h
      · left
        calc per_process x_dim (p + 1) ≤ per_process x_dim (p + 1) * p :=
              Nat.le_mul_of_pos_right _ h
          _ ≤ x_dim := hb
    have hin2 : ∀ r, r < p → data_for_process_size t_dim x_dim (p + 1) r
        = per_process x_dim (p + 1) * t_dim := by
      intro r hr
      unfold data_for_process_size
      rw [hin r hr]
      rcases hpp with h | h
      · exact hmul _ h
      · omega
    rw [List.range_succ, List.map_append, List.sum_append,
      sum_map_range_const _ _ p hin2, List.map_singleton, List.sum_singleton]
    unfold data_for_process_size
    rw [hlast, hmul _ (Nat.sub_le _ _), Nat.sub_mul, ← Nat.mul_assoc, Nat.mul_comm p,
      Nat.mul_comm x_dim t_dim]
    have : per_process x_dim (p + 1) * p * t_dim ≤ t_dim * x_dim := by
      rw [Nat.mul_comm t_dim x_dim]
      exact Nat.mul_le_mul_right _ hb
    omega

/-- C22 fails on the code: with the default `x_dim = 17` and `t_dim = 5` on 19 ranks the
last rank computes `17 - 1 * 18`, which wraps to `2^64 - 1`; the counts of the ranks do not
sum to `x_dim`, and the sizes of the blocks do not sum to `t_dim * x_dim`. -/
theorem last_rank_wraps :
    per_process 17 19 = 1
      ∧ num_for_this_process 17 19 18 = 18446744073709551615
      ∧ ((List.range 19).map (num_for_this_process 17 19)).sum ≠ 17
      ∧ final_size 5 17 19 ≠ 5 * 17 := by
  decide

end transfer_solver

namespace sieve

/-! ## The easy check and the flags -/

theorem uint64_t_of_lt {x : ℕ} (h : x < 18446744073709551616) : uint64_t x = x :=
  Nat.mod_eq_of_lt h

theorem uint64_t_lt (x : ℕ) : uint64_t x < 18446744073709551616 :=
  Nat.mod_lt _ (by norm_num)

/-- A value the easy check rejects has a proper divisor among `2, 3, 5, 7, 11, 13`. -/
theorem easy_check_sound {val : ℕ} (h : easy_check_is_definitely_not_prime val = true) :
    ¬ Nat.Prime val := by
  intro hp
  have key : ∀ d : ℕ, 2 ≤ d → val ≥ d * d → val % d = 0 → False := by
    intro d hd hge hmod
    have hdvd : d ∣ val := Nat.dvd_of_mod_eq_zero hmod
    rcases (Nat.dvd_prime hp).mp hdvd with h1 | h1
    · omega
    · subst h1
      have : d * 2 ≤ d * d := Nat.mul_le_mul_left _ hd
      omega
  unfold easy_check_is_definitely_not_prime at h
  split_ifs at h with h2 h3 h5 h7 h11 h13
  · exact key 2 (by norm_num) h2.1 h2.2
  · exact key 3 (by norm_num) h3.1 h3.2
  · exact key 5 (by norm_num) h5.1 h5.2
  · exact key 7 (by norm_num) h7.1 h7.2
  · exact key 11 (by norm_num) h11.1 h11.2
  · exact key 13 (by norm_num) h13.1 h13.2

/-- From `2` on, the values some sieving value clears are the composite ones. -/
theorem marked_iff_not_prime {k : ℕ} (hk : 2 ≤ k) : marked k ↔ ¬ Nat.Prime k := by
  constructor
  · rintro ⟨i, hi, _, hsq, hdvd⟩ hp
    rcases (Nat.dvd_prime hp).mp hdvd with h1 | h1
    · omega
    · subst h1
      have : i * 2 ≤ i * i := Nat.mul_le_mul_left _ hi
      omega
  · intro hnp
    have hk1 : k ≠ 1 := by omega
    have hmp : Nat.Prime (Nat.minFac k) := Nat.minFac_prime hk1
    refine ⟨Nat.minFac k, hmp.two_le, ?_, ?_, Nat.minFac_dvd k⟩
    · cases h : easy_check_is_definitely_not_prime (Nat.minFac k) with
      | false => rfl
      | true => exact absurd hmp (easy_check_sound h)
    · have := Nat.minFac_sq_le_self (by omega : 0 < k) hnp
      rwa [sq] at this

theorem assign_false_length : ∀ (indices : List ℕ) (are_prime : List Bool),
    (assign_false are_prime indices).length = are_prime.length
  | [], _ => rfl
  | j :: rest, are_prime => by
    rw [assign_false, List.foldl_cons]
    have := assign_false_length rest (are_prime.set j false)
    rw [assign_false] at this
    rw [this, List.length_set]

/-- A flag after the assignments: `false` where an index was assigned, else as before. -/
theorem assign_false_getElem? : ∀ (indices : List ℕ) (are_prime : List Bool) (k : ℕ),
    (assign_false are_prime indices)[k]? =
      if k ∈ indices then (are_prime[k]?).map (fun _ => false) else are_prime[k]?
  | [], _, _ => by simp [assign_false]
  | j :: rest, are_prime, k => by
    rw [assign_false, List.foldl_cons]
    have := assign_false_getElem? rest (are_prime.set j false) k
    rw [assign_false] at this
    rw [this]
    by_cases hkj : k = j
    · subst hkj
      by_cases hk : k < are_prime.length
      · simp [List.getElem?_set, hk]
      · have h1 : are_prime[k]? = none := by simp; omega
        have h2 : (are_prime.set k false)[k]? = none := by simp; omega
        simp [h1, h2]
    · have hjk : j ≠ k := fun h => hkj h.symm
      rw [List.getElem?_set_ne hjk]
      simp [hkj]

/-- The flags depend on the set of the assigned indices only. -/
theorem assign_false_congr {indices indices2 : List ℕ} (are_prime : List Bool)
    (h : ∀ k, k ∈ indices ↔ k ∈ indices2) :
    assign_false are_prime indices = assign_false are_prime indices2 := by
  apply List.ext_getElem?
  intro k
  rw [assign_false_getElem?, assign_false_getElem?]
  by_cases hk : k ∈ indices
  · rw [if_pos hk, if_pos ((h k).mp hk)]
  · rw [if_neg hk, if_neg (fun h2 => hk ((h k).mpr h2))]

/-! ## The loops where nothing wraps -/

theorem lt_of_mul_self_lt {i x : ℕ} (h : i * i ≤ x) (hx : x < 18446744065119617025) :
    i < 4294967295 := by
  by_contra hc
  have h1 : 4294967295 * 4294967295 ≤ i * i := Nat.mul_le_mul (by omega) (by omega)
  have h2 : (4294967295 : ℕ) * 4294967295 = 18446744065119617025 := by norm_num
  omega

theorem mul_self_lt_of_le {i : ℕ} (h : i ≤ 4294967295) : i * i < 18446744073709551616 := by
  have h1 : i * i ≤ 4294967295 * 4294967295 := Nat.mul_le_mul h h
  have h2 : (4294967295 : ℕ) * 4294967295 = 18446744065119617025 := by norm_num
  omega

/-- The inner loop of `process_blockwise` where `j + i` does not wrap: it ends, and it
assigns the indices `j, j + i, j + 2 i, ...` up to `to`. -/
theorem blockwise_inner_spec {to_ i : ℕ} (hi : 1 ≤ i) (hw : to_ + i < 18446744073709551616) :
    ∀ (fuel j : ℕ), to_ + 1 - j < fuel →
    ∃ ws, blockwise_inner to_ i fuel j = some ws
      ∧ ∀ k, k ∈ ws ↔ (j ≤ k ∧ k ≤ to_ ∧ i ∣ k - j)
  | 0, j, h => by omega
  | fuel + 1, j, h => by
    rw [blockwise_inner]
    by_cases hj : j ≤ to_
    · rw [if_pos hj, uint64_t_of_lt (by omega)]
      obtain ⟨ws, hws, hmem⟩ := blockwise_inner_spec hi hw fuel (j + i) (by omega)
      refine ⟨j :: ws, by rw [hws]; rfl, ?_⟩
      intro k
      rw [List.mem_cons, hmem]
      constructor
      · rintro (rfl | ⟨h1, h2, h3⟩)
        · exact ⟨le_refl _, hj, by simp⟩
        · refine ⟨by omega, h2, ?_⟩
          have e : k - j = (k - (j + i)) + i := by omega
          rw [e]
          exact Dvd.dvd.add h3 (dvd_refl i)
      · rintro ⟨h1, h2, h3⟩
        rcases Nat.eq_or_lt_of_le h1 with h4 | h4
        · exact Or.inl h4.symm
        · right
          have h5 : i ≤ k - j := Nat.le_of_dvd (by omega) h3
          refine ⟨by omega, h2, ?_⟩
          have e : k - (j + i) = (k - j) - i := by omega
          rw [e]
          exact Nat.dvd_sub' h3 (dvd_refl i)
    · rw [if_neg hj]
      refine ⟨[], rfl, ?_⟩
      intro k
      simp only [List.not_mem_nil, false_iff]
      omega

/-- The value `start_j` where nothing wraps: the least multiple of `i` that is at least
`from` and at least `i * i`. -/
theorem start_j_spec {from_ i : ℕ} (hi2 : 2 ≤ i) (hi : i ≤ 4294967295)
    (hf : from_ ≤ 18446744069414584320) (k : ℕ) :
    (start_j from_ i ≤ k ∧ i ∣ k - start_j from_ i) ↔ (from_ ≤ k ∧ i * i ≤ k ∧ i ∣ k) := by
  have hsq := mul_self_lt_of_le hi
  have e1 : uint64_t (from_ + i + 18446744073709551615) = from_ + i - 1 := by
    unfold uint64_t
    omega
  have hle : (from_ + i - 1) / i * i ≤ from_ + i - 1 := Nat.div_mul_le_self _ _
  have e2 : start_j from_ i = max ((from_ + i - 1) / i * i) (i * i) := by
    unfold start_j
    rw [e1, uint64_t_of_lt (by omega), uint64_t_of_lt hsq]
  have hdvd : i ∣ start_j from_ i := by
    rw [e2]
    rcases max_choice ((from_ + i - 1) / i * i) (i * i) with h | h <;> rw [h]
    · exact Dvd.intro_left _ rfl
    · exact Dvd.intro_left _ rfl
  have hceil : ∀ m : ℕ, (from_ + i - 1) / i * i ≤ m * i ↔ from_ ≤ m * i := by
    intro m
    have hpos : 0 < i := by omega
    rw [mul_le_mul_right hpos, ← Nat.lt_succ_iff, Nat.div_lt_iff_lt_mul hpos,
      Nat.succ_mul]
    omega
  constructor
  · rintro ⟨h1, h2⟩
    have hk : i ∣ k := by
      have h3 : i ∣ (k - start_j from_ i) + start_j from_ i := Dvd.dvd.add h2 hdvd
      have e2 : (k - start_j from_ i) + start_j from_ i = k := by omega
      rwa [e2] at h3
    obtain ⟨m, rfl⟩ := hk
    rw [e2] at h1
    have h3 := le_trans (le_max_left _ _) h1
    have h4 := le_trans (le_max_right _ _) h1
    rw [Nat.mul_comm i m] at h3
    exact ⟨by rw [Nat.mul_comm i m]; exact (hceil m).mp h3, h4, Dvd.intro _ rfl⟩
  · rintro ⟨h1, h2, ⟨m, rfl⟩⟩
    have h3 : start_j from_ i ≤ i * m := by
      rw [e2]
      refine max_le ?_ h2
      rw [Nat.mul_comm i m]
      rw [Nat.mul_comm i m] at h1
      exact (hceil m).mpr h1
    exact ⟨h3, Nat.dvd_sub' (Dvd.intro _ rfl) hdvd⟩

/-- The outer loop of `process_blockwise` where nothing wraps: it ends, and it assigns the
indices between `from` and `to` that a sieving value from `i` on clears. -/
theorem blockwise_outer_spec {from_ to_ fuel : ℕ} (hto : to_ < 18446744065119617025)
    (hf : from_ ≤ 18446744069414584320) (hfuel : to_ + 2 ≤ fuel) :
    ∀ (turns i : ℕ), 2 ≤ i → i ≤ 4294967295 → to_ + 2 - i < turns →
    ∃ ws, blockwise_outer from_ to_ fuel turns i = some ws
      ∧ ∀ k, k ∈ ws ↔ (from_ ≤ k ∧ k ≤ to_ ∧
          ∃ i2, i ≤ i2 ∧ easy_check_is_definitely_not_prime i2 = false
            ∧ i2 * i2 ≤ k ∧ i2 ∣ k)
  | 0, i, _, _, h => by omega
  | turns + 1, i, hi2, hi, h => by
    rw [blockwise_outer, uint64_t_of_lt (mul_self_lt_of_le hi)]
    by_cases hsq : i * i ≤ to_
    · have hi3 : i < 4294967295 := lt_of_mul_self_lt hsq hto
      have hile : i ≤ to_ := le_trans (Nat.le_mul_self i) hsq
      rw [if_pos hsq, uint64_t_of_lt (by omega)]
      obtain ⟨rest, hrest, hmem⟩ :=
        blockwise_outer_spec hto hf hfuel turns (i + 1) (by omega) (by omega) (by omega)
      cases he : easy_check_is_definitely_not_prime i with
      | true =>
        rw [if_pos rfl]
        refine ⟨rest, hrest, ?_⟩
        intro k
        rw [hmem]
        constructor
        · rintro ⟨h1, h2, i2, h3, h4⟩
          exact ⟨h1, h2, i2, by omega, h4⟩
        · rintro ⟨h1, h2, i2, h3, h4, h5⟩
          refine ⟨h1, h2, i2, ?_, h4, h5⟩
          rcases Nat.eq_or_lt_of_le h3 with h6 | h6
          · subst h6
            rw [he] at h4
            exact absurd h4 (by simp)
          · omega
      | false =>
        rw [if_neg (by simp)]
        obtain ⟨first, hfirst, hmem1⟩ :=
          blockwise_inner_spec (by omega : 1 ≤ i) (by omega : to_ + i < 18446744073709551616)
            fuel (start_j from_ i) (by omega)
        refine ⟨first ++ rest, by rw [hfirst, hrest]; rfl, ?_⟩
        intro k
        rw [List.mem_append, hmem, hmem1]
        constructor
        · rintro (⟨h1, h2, h3⟩ | ⟨h1, h2, i2, h3, h4⟩)
          · obtain ⟨h4, h5, h6⟩ := (start_j_spec hi2 hi hf k).mp ⟨h1, h3⟩
            exact ⟨h4, h2, i, le_refl _, he, h5, h6⟩
          · exact ⟨h1, h2, i2, by omega, h4⟩
        · rintro ⟨h1, h2, i2, h3, h4, h5, h6⟩
          rcases Nat.eq_or_lt_of_le h3 with h7 | h7
          · subst h7
            left
            obtain ⟨h8, h9⟩ := (start_j_spec hi2 hi hf k).mpr ⟨h1, h5, h6⟩
            exact ⟨h8, h2, h9⟩
          · right
            exact ⟨h1, h2, i2, by omega, h4, h5, h6⟩
    · rw [if_neg hsq]
      refine ⟨[], rfl, ?_⟩
      intro k
      simp only [List.not_mem_nil, false_iff]
      rintro ⟨_, h2, i2, h3, _, h5, _⟩
      have : i * i ≤ i2 * i2 := Nat.mul_le_mul h3 h3
      omega

/-- The function `process_blockwise` where nothing wraps: it returns, having assigned the
indices between `from` and `to` that some sieving value clears. -/
theorem process_blockwise_spec (fuel from_ to_ : ℕ) (hto : to_ < 18446744065119617025)
    (hf : from_ ≤ 18446744069414584320) (hfuel : to_ + 2 ≤ fuel) :
    ∃ ws, process_blockwise fuel from_ to_ = some ws
      ∧ ∀ k, k ∈ ws ↔ (from_ ≤ k ∧ k ≤ to_ ∧ marked k) := by
  obtain ⟨ws, hws, hmem⟩ :=
    blockwise_outer_spec hto hf hfuel fuel 2 (le_refl _) (by norm_num) (by omega)
  exact ⟨ws, hws, hmem⟩

theorem naive_inner_eq {n : ℕ} (hn : 1 ≤ n) (i : ℕ) : ∀ (fuel j : ℕ),
    naive_inner n i fuel j = blockwise_inner (n - 1) i fuel j
  | 0, _ => rfl
  | fuel + 1, j => by
    rw [naive_inner, blockwise_inner, naive_inner_eq hn i fuel]
    by_cases h : j < n
    · rw [if_pos h, if_pos (show j ≤ n - 1 by omega)]
    · rw [if_neg h, if_neg (show ¬ j ≤ n - 1 by omega)]

theorem start_j_zero {i : ℕ} (hi : i < 18446744073709551616) :
    start_j 0 i = uint64_t (i * i) := by
  have e : uint64_t (0 + i + 18446744073709551615) / i * i = 0 := by
    rcases Nat.eq_zero_or_pos i with h | h
    · subst h; simp
    · have e1 : uint64_t (0 + i + 18446744073709551615) = i - 1 := by
        unfold uint64_t
        omega
      rw [e1, Nat.div_eq_of_lt (by omega), Nat.zero_mul]
  unfold start_j
  rw [e]
  simp [uint64_t]

/-- The loop of `find_primes_naive` is the loop of `process_blockwise` for the block from `0`
to `n - 1`. -/
theorem naive_outer_eq {n : ℕ} (hn : 1 ≤ n) (fuel : ℕ) : ∀ (turns i : ℕ),
    i < 18446744073709551616 →
    naive_outer n fuel turns i = blockwise_outer 0 (n - 1) fuel turns i
  | 0, _, _ => rfl
  | turns + 1, i, hi => by
    rw [naive_outer, blockwise_outer, naive_outer_eq hn fuel turns _ (uint64_t_lt _),
      naive_inner_eq hn, start_j_zero hi]
    by_cases h : uint64_t (i * i) < n
    · rw [if_pos h, if_pos (show uint64_t (i * i) ≤ n - 1 by omega)]
    · rw [if_neg h, if_neg (show ¬ uint64_t (i * i) ≤ n - 1 by omega)]

/-- The loop of `find_primes_naive` for `n` up to `(2^32 - 1)^2`: it ends, and it assigns the
indices below `n` that some sieving value clears. -/
theorem naive_outer_spec (n fuel : ℕ) (hn : n ≤ 18446744065119617025) (hfuel : n + 1 ≤ fuel) :
    ∃ ws, naive_outer n fuel fuel 2 = some ws ∧ ∀ k, k ∈ ws ↔ (k < n ∧ marked k) := by
  rcases Nat.eq_zero_or_pos n with h0 | h0
  · subst h0
    obtain ⟨f2, rfl⟩ : ∃ f2, fuel = f2 + 1 := ⟨fuel - 1, by omega⟩
    refine ⟨[], ?_, by simp⟩
    rw [naive_outer, if_neg (by omega)]
  · obtain ⟨ws, hws, hmem⟩ := process_blockwise_spec fuel 0 (n - 1)
      (by omega) (by omega) (by omega)
    refine ⟨ws, ?_, ?_⟩
    · rw [naive_outer_eq h0 fuel fuel 2 (by norm_num)]
      exact hws
    · intro k
      rw [hmem]
      constructor
      · rintro ⟨_, h2, h3⟩
        exact ⟨by omega, h3⟩
      · rintro ⟨h2, h3⟩
        exact ⟨by omega, by omega, h3⟩

/-- A flag of the bitset that starts all set, after the assignments. -/
theorem assign_false_replicate (n : ℕ) (ws : List ℕ) {k : ℕ} (hk : k < n) :
    (assign_false (List.replicate n true) ws)[k]? = some true ↔ k ∉ ws := by
  rw [assign_false_getElem?]
  have e : (List.replicate n true)[k]? = some true := by
    rw [List.getElem?_replicate]
    simp [hk]
  rw [e]
  by_cases h : k ∈ ws
  · simp [h]
  · simp [h]

theorem naive_inner_even : ∀ (fuel j : ℕ), j % 2 = 0 → j < 18446744073709551616 →
    naive_inner 18446744073709551615 2 fuel j = none
  | 0, _, _, _ => rfl
  | fuel + 1, j, h2, hj => by
    rw [naive_inner, if_pos (by omega),
      naive_inner_even fuel (uint64_t (j + 2)) (by unfold uint64_t; omega) (uint64_t_lt _)]
    rfl

/-! ## The claims about the sieves -/

/-- C23, as stated, fails: `n = 2^64 - 1` is a value of `uint64_t`, and
`find_primes_naive(2^64 - 1)` returns no bitset.  For the first sieving value `i = 2` the
index `j` runs over the even numbers, wraps around at `2^64` and stays below `n`, so the
inner loop does not end. -/
theorem naive_counterexample :
    uint64_t 18446744073709551615 = 18446744073709551615
      ∧ ∀ fuel, find_primes_naive fuel 18446744073709551615 = none := by
  refine ⟨by decide, ?_⟩
  intro fuel
  cases fuel with
  | zero => rfl
  | succ fuel =>
    have h1 : uint64_t (2 * 2) < 18446744073709551615 := by decide
    have h2 : ¬ easy_check_is_definitely_not_prime 2 = true := by decide
    rw [find_primes_naive, naive_outer, if_pos h1, if_neg h2,
      naive_inner_even (fuel + 1) (uint64_t (2 * 2)) (by decide) (by decide)]
    rfl

/-- C23, amended: for every `n` up to `(2^32 - 1)^2 = 18446744065119617025`, so that no
product `i * i` and no sum `j + i` wraps, `find_primes_naive(n)` returns a bitset of `n`
flags, and for every `k` with `2 ≤ k < n` flag `k` is set if and only if `k` is prime; a
value `i` for which `easy_check_is_definitely_not_prime(i)` holds is never a prime. -/
theorem find_primes_naive_correct (n fuel : ℕ) (hn : n ≤ 18446744065119617025)
    (hfuel : n + 1 ≤ fuel) :
    ∃ are_prime, find_primes_naive fuel n = some are_prime
      ∧ are_prime.length = n
      ∧ (∀ k, 2 ≤ k → k < n → (are_prime[k]? = some true ↔ Nat.Prime k))
      ∧ (∀ i, easy_check_is_definitely_not_prime i = true → ¬ Nat.Prime i) := by
  obtain ⟨ws, hws, hmem⟩ := naive_outer_spec n fuel hn hfuel
  refine ⟨assign_false (List.replicate n true) ws, ?_, ?_, ?_, fun i h => easy_check_sound h⟩
  · rw [find_primes_naive, hws]
    rfl
  · rw [assign_false_length, List.length_replicate]
  · intro k hk2 hkn
    rw [assign_false_replicate n ws hkn, hmem]
    constructor
    · intro h
      by_contra hp
      exact h ⟨hkn, (marked_iff_not_prime hk2).mpr hp⟩
    · rintro hp ⟨_, hm⟩
      exact (marked_iff_not_prime hk2).mp hm hp

/-- Witness of C23: the bitset of `n = 30`. -/
theorem find_primes_naive_correct_witness :
    30 ≤ 18446744065119617025 ∧ 30 + 1 ≤ 31
      ∧ ∃ are_prime, find_primes_naive 31 30 = some are_prime
        ∧ are_prime.length = 30
        ∧ (∀ k, 2 ≤ k → k < 30 → (are_prime[k]? = some true ↔ Nat.Prime k))
        ∧ (∀ i, easy_check_is_definitely_not_prime i = true → ¬ Nat.Prime i) :=
  ⟨by decide, by decide, find_primes_naive_correct 30 31 (by decide) (by decide)⟩

/-- The bitset of `n = 30`, evaluated: the flags `0` and `1` stay set, from `2` on the set
flags are `2, 3, 5, 7, 11, 13, 17, 19, 23, 29`. -/
theorem find_primes_naive_thirty :
    find_primes_naive 31 30 =
      some [true, true, true, true, false, true, false, true, false, false,
            false, true, false, true, false, false, false, true, false, true,
            false, false, false, true, false, false, false, false, false, true] := by
  decide

theorem four_le_of_marked {k : ℕ} (h : marked k) : 4 ≤ k := by
  obtain ⟨i, hi, _, hsq, _⟩ := h
  have : 2 * 2 ≤ i * i := Nat.mul_le_mul hi hi
  omega

/-- One turn of the loop over the blocks, where the block does not wrap. -/
theorem block_loop_turn (n block_size last fuel turns i : ℕ) (hi : i < n)
    (hto : min (uint64_t (i + block_size)) last < 18446744065119617025)
    (hf : i ≤ 18446744069414584320)
    (hfuel : min (uint64_t (i + block_size)) last + 2 ≤ fuel) {P : ℕ → Prop}
    (hrest : ∃ rest, block_loop n block_size last fuel turns (uint64_t (i + block_size))
        = some rest ∧ ∀ k, k ∈ rest ↔ P k) :
    ∃ ws, block_loop n block_size last fuel (turns + 1) i = some ws
      ∧ ∀ k, k ∈ ws ↔
        ((i ≤ k ∧ k ≤ min (uint64_t (i + block_size)) last ∧ marked k) ∨ P k) := by
  obtain ⟨rest, hr, hmem⟩ := hrest
  obtain ⟨first, hfirst, hmem1⟩ := process_blockwise_spec fuel i _ hto hf hfuel
  refine ⟨first ++ rest, ?_, ?_⟩
  · rw [block_loop, if_pos hi, hfirst, hr]
    rfl
  · intro k
    rw [List.mem_append, hmem, hmem1]

/-- The loop over the blocks where `i + block_size` does not wrap: it ends, and it assigns
the indices from `i` to `last` that some sieving value clears. -/
theorem block_loop_spec (n block_size last fuel : ℕ) (hn : n ≤ 9223372036854775808)
    (hbs : 1 ≤ block_size) (hl1 : n ≤ last + 1) (hl2 : last ≤ n) (hfuel : n + 2 ≤ fuel) :
    ∀ (turns i : ℕ), (i < n → i + block_size < 18446744073709551616) → n + 1 - i < turns →
    ∃ ws, block_loop n block_size last fuel turns i = some ws
      ∧ ∀ k, k ∈ ws ↔ (i < n ∧ i ≤ k ∧ k ≤ last ∧ marked k)
  | 0, i, _, h => by omega
  | turns + 1, i, hC, h => by
    by_cases hi : i < n
    · have hw := hC hi
      have e : uint64_t (i + block_size) = i + block_size := uint64_t_of_lt hw
      have hmin : min (uint64_t (i + block_size)) last ≤ last := Nat.min_le_right _ _
      have h5 : min (uint64_t (i + block_size)) last < 18446744065119617025 := by omega
      have h6 : min (uint64_t (i + block_size)) last + 2 ≤ fuel := by omega
      obtain ⟨ws, hws, hmem⟩ := block_loop_turn n block_size last fuel turns i
        (P := fun k => i + block_size < n ∧ i + block_size ≤ k ∧ k ≤ last ∧ marked k) hi
        h5 (show i ≤ 18446744069414584320 by omega) h6
        (by
          rw [e]
          exact block_loop_spec n block_size last fuel hn hbs hl1 hl2 hfuel turns
            (i + block_size) (by omega)
            (by omega))
      refine ⟨ws, hws, ?_⟩
      intro k
      rw [hmem, e]
      constructor
      · rintro (⟨h1, h2, h3⟩ | ⟨h1, h2, h3, h4⟩)
        · exact ⟨hi, h1, le_trans h2 (Nat.min_le_right _ _), h3⟩
        · exact ⟨hi, by omega, h3, h4⟩
      · rintro ⟨_, h2, h3, h4⟩
        by_cases hk : k ≤ i + block_size
        · exact Or.inl ⟨h2, Nat.le_min.mpr ⟨hk, h3⟩, h4⟩
        · exact Or.inr ⟨by omega, by omega, h3, h4⟩
    · refine ⟨[], ?_, ?_⟩
      · rw [block_loop, if_neg hi]
      · intro k
        simp only [List.not_mem_nil, false_iff]
        rintro ⟨h1, _⟩
        exact hi h1

/-- The loop of `find_primes_sequential` for `n` up to `2^63` and any block size: it ends,
and it assigns the indices below `n` that some sieving value clears. -/
theorem sequential_loop_spec {n block_size fuel : ℕ} (hn : n ≤ 9223372036854775808)
    (hbs : 1 ≤ block_size) (hbs2 : block_size < 18446744073709551616)
    (hfuel : n + 4 ≤ fuel) :
    ∃ ws, block_loop n block_size (uint64_t (n + 18446744073709551615)) fuel fuel 2 = some ws
      ∧ ∀ k, k ∈ ws ↔ (k < n ∧ marked k) := by
  by_cases h2 : 2 < n
  · have elast : uint64_t (n + 18446744073709551615) = n - 1 := by
      unfold uint64_t
      omega
    rw [elast]
    obtain ⟨f3, rfl⟩ : ∃ f3, fuel = f3 + 3 := ⟨fuel - 3, by omega⟩
    have tail : ∀ turns, n + 1 < turns →
        ∃ ws, block_loop n block_size (n - 1) (f3 + 3) turns 0 = some ws
          ∧ ∀ k, k ∈ ws ↔ (0 < n ∧ 0 ≤ k ∧ k ≤ n - 1 ∧ marked k) :=
      fun turns ht => block_loop_spec n block_size (n - 1) (f3 + 3) hn hbs (by omega) (by omega)
        (by omega) turns 0
        (by omega) (by omega)
    by_cases hb : block_size ≤ 18446744073709551613
    · obtain ⟨ws, hws, hmem⟩ := block_loop_spec n block_size (n - 1) (f3 + 3) hn hbs
        (by omega) (by omega) (by omega) (f3 + 3) 2 (by omega) (by omega)
      refine ⟨ws, hws, ?_⟩
      intro k
      rw [hmem]
      constructor
      · rintro ⟨_, _, h3, h4⟩
        exact ⟨by omega, h4⟩
      · rintro ⟨h3, h4⟩
        have := four_le_of_marked h4
        exact ⟨h2, by omega, by omega, h4⟩
    · by_cases hb2 : block_size = 18446744073709551614
      · subst hb2
        have e0 : uint64_t (2 + 18446744073709551614) = 0 := by decide
        obtain ⟨ws, hws, hmem⟩ := block_loop_turn n 18446744073709551614 (n - 1) (f3 + 3)
          (f3 + 2) 2 h2
          (by rw [e0]; simp) (by norm_num) (by rw [e0]; simp)
          (by rw [e0]; exact tail (f3 + 2) (by omega))
        refine ⟨ws, hws, ?_⟩
        intro k
        rw [hmem, e0]
        constructor
        · rintro (⟨h3, h4, _⟩ | ⟨_, _, h3, h4⟩)
          · have := le_trans h4 (Nat.min_le_left _ _)
            omega
          · exact ⟨by omega, h4⟩
        · rintro ⟨h3, h4⟩
          exact Or.inr ⟨by omega, by omega, by omega, h4⟩
      · have hb3 : block_size = 18446744073709551615 := by omega
        subst hb3
        have e1 : uint64_t (2 + 18446744073709551615) = 1 := by decide
        have e0 : uint64_t (1 + 18446744073709551615) = 0 := by decide
        obtain ⟨ws1, hws1, hmem1⟩ := block_loop_turn n 18446744073709551615 (n - 1)
          (f3 + 3) (f3 + 1) 1 (by omega)
          (by rw [e0]; simp) (by norm_num) (by rw [e0]; simp)
          (by rw [e0]; exact tail (f3 + 1) (by omega))
        obtain ⟨ws, hws, hmem⟩ := block_loop_turn n 18446744073709551615 (n - 1)
          (f3 + 3) (f3 + 2) 2 h2
          (by rw [e1]; exact lt_of_le_of_lt (Nat.min_le_left _ _) (by norm_num))
          (by norm_num)
          (by rw [e1]; have := Nat.min_le_left 1 (n - 1); omega)
          (by rw [e1]; exact ⟨ws1, hws1, hmem1⟩)
        refine ⟨ws, hws, ?_⟩
        intro k
        rw [hmem, e1, e0]
        constructor
        · rintro (⟨h3, h4, _⟩ | ⟨h3, h4, _⟩ | ⟨_, _, h3, h4⟩)
          · have := le_trans h4 (Nat.min_le_left _ _)
            omega
          · have := le_trans h4 (Nat.min_le_left _ _)
            omega
          · exact ⟨by omega, h4⟩
        · rintro ⟨h3, h4⟩
          exact Or.inr (Or.inr ⟨by omega, by omega, by omega, h4⟩)
  · obtain ⟨f2, rfl⟩ : ∃ f2, fuel = f2 + 1 := ⟨fuel - 1, by omega⟩
    refine ⟨[], ?_, ?_⟩
    · rw [block_loop, if_neg h2]
    · intro k
      simp only [List.not_mem_nil, false_iff]
      rintro ⟨h3, h4⟩
      have := four_le_of_marked h4
      omega

theorem block_loop_cycle (last fuel : ℕ) : ∀ (turns i : ℕ),
    i = 2 ∨ i = 9223372036854775810 →
    block_loop 9223372036854775811 9223372036854775808 last fuel turns i = none
  | 0, _, _ => rfl
  | turns + 1, i, h => by
    have hi : i < 9223372036854775811 := by omega
    have hnext : uint64_t (i + 9223372036854775808) = 2
        ∨ uint64_t (i + 9223372036854775808) = 9223372036854775810 := by
      unfold uint64_t
      omega
    rw [block_loop, if_pos hi, block_loop_cycle last fuel turns _ hnext]
    cases process_blockwise fuel i (min (uint64_t (i + 9223372036854775808)) last) <;> rfl

/-- C24, as stated, fails: for `n = 2^63 + 3` and `block_size = 2^63` the loop of
`find_primes_sequential` does not end, as `i` goes from `2` to `2^63 + 2` and, wrapping
around, to `2` again; `find_primes_naive` returns for this `n`. -/
theorem sequential_counterexample :
    (∀ fuel, find_primes_sequential fuel 9223372036854775811 9223372036854775808 = none)
      ∧ ∃ fuel are_prime, find_primes_naive fuel 9223372036854775811 = some are_prime := by
  constructor
  · intro fuel
    rw [find_primes_sequential, block_loop_cycle _ fuel fuel 2 (Or.inl rfl)]
    rfl
  · obtain ⟨ws, hws, _⟩ := naive_outer_spec 9223372036854775811 _
      (show 9223372036854775811 ≤ 18446744065119617025 by norm_num) (le_refl _)
    exact ⟨_, _, by rw [find_primes_naive, hws]; rfl⟩

/-- C24, amended: for every `n` up to `2^63` and every `block_size ≥ 1`,
`find_primes_sequential(n, block_size)` and `find_primes_naive(n)` both return, and they
return the same bitset, whatever the block size. -/
theorem sequential_eq_naive (n block_size fuel : ℕ) (hn : n ≤ 9223372036854775808)
    (h1 : 1 ≤ block_size) (h2 : block_size < 18446744073709551616) (hfuel : n + 4 ≤ fuel) :
    ∃ are_prime, find_primes_sequential fuel n block_size = some are_prime
      ∧ find_primes_naive fuel n = some are_prime ∧ are_prime.length = n := by
  obtain ⟨ws, hws, hmem⟩ := sequential_loop_spec hn h1 h2 hfuel
  obtain ⟨ws2, hws2, hmem2⟩ := naive_outer_spec n fuel (by omega) (by omega)
  refine ⟨assign_false (List.replicate n true) ws, ?_, ?_, ?_⟩
  · rw [find_primes_sequential, hws]
    rfl
  · rw [find_primes_naive, hws2]
    have e : assign_false (List.replicate n true) ws2
        = assign_false (List.replicate n true) ws :=
      assign_false_congr _ (fun k => by rw [hmem, hmem2])
    rw [← e]
    rfl
  · rw [assign_false_length, List.length_replicate]

/-- Witness of C24: `n = 30` in blocks of `7`. -/
theorem sequential_eq_naive_witness :
    30 ≤ 9223372036854775808 ∧ 1 ≤ 7 ∧ 7 < 18446744073709551616 ∧ 30 + 4 ≤ 34
      ∧ ∃ are_prime, find_primes_sequential 34 30 7 = some are_prime
        ∧ find_primes_naive 34 30 = some are_prime ∧ are_prime.length = 30 :=
  ⟨by decide, by decide, by decide, by decide,
    sequential_eq_naive 30 7 34 (by decide) (by decide) (by decide) (by decide)⟩

/-- For a composite `n`, `find_primes_parallel` stores at index `n`, one past the flags. -/
theorem parallel_stores_at_n (n block_size fuel : ℕ) (hn : n ≤ 9223372036854775808)
    (hc : 2 ≤ n ∧ ¬ Nat.Prime n) (h1 : 1 ≤ block_size)
    (h2 : block_size ≤ 18446744073709551613) (hfuel : n + 2 ≤ fuel) :
    ∃ ws, find_primes_parallel fuel n block_size = some ws ∧ n ∈ ws := by
  have hm : marked n := (marked_iff_not_prime hc.1).mpr hc.2
  have h4 := four_le_of_marked hm
  obtain ⟨ws, hws, hmem⟩ := block_loop_spec n block_size n fuel hn h1 (by omega) (le_refl _)
    hfuel fuel 2 (by omega) (by omega)
  exact ⟨ws, hws, (hmem n).mpr ⟨by omega, by omega, le_refl _, hm⟩⟩

/-- C25 fails on the code: `find_primes_parallel(4, 131072)` makes one store, at index `4`
of its `4` flags; and with the default `n = 2^20` and `block_size = 2^17` it stores at
index `2^20`.  Its last block ends at `std::min(i + block_size, n)`, where
`find_primes_sequential` has `n - 1`. -/
theorem parallel_out_of_bounds :
    find_primes_parallel 6 4 131072 = some [4]
      ∧ ∃ ws, find_primes_parallel 1048578 1048576 131072 = some ws ∧ 1048576 ∈ ws :=
  ⟨by decide,
    parallel_stores_at_n 1048576 131072 1048578 (by norm_num) ⟨by norm_num, by norm_num⟩
      (by norm_num) (by norm_num) (le_refl _)⟩

end sieve

namespace binary64

set_option exponentiation.threshold 5000
set_option maxRecDepth 100000

/-! ## The refinement step on `double` -/

/-- Where neither value is a NaN, `x >= y` is false exactly when `x < y`. -/
theorem ge_eq_false_iff_lt {x y : double} (hx : x ≠ double.nan) (hy : y ≠ double.nan) :
    ge x y = false ↔ lt x y = true := by
  cases x with
  | nan => exact absurd rfl hx
  | infinity s1 =>
    cases y with
    | nan => exact absurd rfl hy
    | infinity s2 => cases s1 <;> cases s2 <;> simp [ge, le, lt]
    | finite s2 k2 => simp [ge, le, lt]
  | finite s1 k1 =>
    cases y with
    | nan => exact absurd rfl hy
    | infinity s2 => simp [ge, le, lt]
    | finite s2 k2 =>
      cases s1 <;> cases s2 <;> simp [ge, le, lt]
      omega

/-- A comparison with a NaN is false. -/
theorem nan_unordered {x y : double} (h : x = double.nan ∨ y = double.nan) :
    ge x y = false ∧ lt x y = false := by
  rcases h with h | h
  · subst h
    cases y <;> simp [ge, le, lt]
  · subst h
    cases x <;> simp [ge, le, lt]

theorem push_back_double_eq_some {capacity : ℕ} {v : List task} (x : task)
    (h : v.length < capacity) :
    push_back capacity v x = some (v ++ [x]) := by
  simp [push_back, h]

/-- The two branches of `local_handler` on a buffer with room for two more tasks. -/
theorem local_handler_double_eq (function : double → double) (eps : double)
    (local_queue : List task)
    (local_accumulator : double) (t : task) (hroom : local_queue.length + 2 ≤ 36) :
    local_handler function eps local_queue local_accumulator t =
      if ge (abs (sub (new_integral function t) t.integral))
          (mul eps (abs (new_integral function t))) = true then
        some (local_queue ++ [left_child function t, right_child function t],
          local_accumulator)
      else some (local_queue, add local_accumulator (new_integral function t)) := by
  simp only [local_handler, new_integral, integral_left, integral_right, mid]
  split_ifs with h1
  · rw [push_back_double_eq_some (v := local_queue) _ (by omega)]
    simp only [Option.some_bind]
    rw [push_back_double_eq_some _ (by simp; omega)]
    simp [left_child, right_child, mid, integral_left, integral_right]
  · rfl

/-- C1, as stated, fails: on the task `(0, 1, NaN, 1, NaN)`, as the root of a function whose
value at `a` is not a number, with tolerance `1` and the identity as function, the refined
estimate is a NaN; `|refined - integral| < eps * |refined|` is false, and yet `local_handler`
pushes no task and adds the refined estimate to the accumulator. -/
theorem nan_counterexample :
    new_integral (fun x => x)
        { a := double.finite false 0, b := double.finite false (2 ^ 1074),
          func_val_a := double.nan, func_val_b := double.finite false (2 ^ 1074),
          integral := double.nan } = double.nan
      ∧ lt (abs (sub double.nan double.nan))
          (mul (double.finite false (2 ^ 1074)) (abs double.nan)) = false
      ∧ local_handler (fun x => x) (double.finite false (2 ^ 1074)) []
          (double.finite false 0)
          { a := double.finite false 0, b := double.finite false (2 ^ 1074),
            func_val_a := double.nan, func_val_b := double.finite false (2 ^ 1074),
            integral := double.nan }
        = some ([], double.nan) := by
  decide

/-- C1, amended: for every task `(a, b, f_a, f_b, integral)`, tolerance and function,
`local_handler` (on a buffer with room for two tasks, as in `global_handler`) computes
`mid`, the two trapezoid estimates and `refined` in the arithmetic of `double`, and it adds
`refined` to the accumulator and pushes no task exactly when the test
`|refined - integral| >= eps * |refined|` of the code is false; where neither side of the
test is a NaN that is exactly when `|refined - integral| < eps * |refined|`, and where a
side is a NaN the test is false too.  In every other case it pushes exactly the two child
tasks and adds nothing. -/
theorem local_handler_converged (function : double → double)
    (eps a b f_a f_b integral : double) (local_queue : List task)
    (local_accumulator : double) (hroom : local_queue.length + 2 ≤ 36) :
    (local_handler function eps local_queue local_accumulator
        { a := a, b := b, func_val_a := f_a, func_val_b := f_b, integral := integral }
        = some (local_queue, add local_accumulator
            (add (mul (std_midpoint f_a (function (std_midpoint a b))) (sub (std_midpoint a b) a))
              (mul (std_midpoint (function (std_midpoint a b)) f_b)
                (sub b (std_midpoint a b)))))
      ↔ ge (abs (sub (add
              (mul (std_midpoint f_a (function (std_midpoint a b))) (sub (std_midpoint a b) a))
              (mul (std_midpoint (function (std_midpoint a b)) f_b)
                (sub b (std_midpoint a b)))) integral))
          (mul eps (abs (add
              (mul (std_midpoint f_a (function (std_midpoint a b))) (sub (std_midpoint a b) a))
              (mul (std_midpoint (function (std_midpoint a b)) f_b)
                (sub b (std_midpoint a b)))))) = false)
    ∧ (ge (abs (sub (add
              (mul (std_midpoint f_a (function (std_midpoint a b))) (sub (std_midpoint a b) a))
              (mul (std_midpoint (function (std_midpoint a b)) f_b)
                (sub b (std_midpoint a b)))) integral))
          (mul eps (abs (add
              (mul (std_midpoint f_a (function (std_midpoint a b))) (sub (std_midpoint a b) a))
              (mul (std_midpoint (function (std_midpoint a b)) f_b)
                (sub b (std_midpoint a b)))))) = true →
        local_handler function eps local_queue local_accumulator
          { a := a, b := b, func_val_a := f_a, func_val_b := f_b, integral := integral }
          = some (local_queue ++
              [{ a := a, b := std_midpoint a b, func_val_a := f_a,
                 func_val_b := function (std_midpoint a b),
                 integral := mul (std_midpoint f_a (function (std_midpoint a b)))
                   (sub (std_midpoint a b) a) },
               { a := std_midpoint a b, b := b, func_val_a := function (std_midpoint a b),
                 func_val_b := f_b,
                 integral := mul (std_midpoint (function (std_midpoint a b)) f_b)
                   (sub b (std_midpoint a b)) }],
              local_accumulator))
    ∧ (∀ x y : double, x ≠ double.nan → y ≠ double.nan →
        (ge x y = false ↔ lt x y = true))
    ∧ (∀ x y : double, x = double.nan ∨ y = double.nan → ge x y = false ∧ lt x y = false) := by
  have h := local_handler_double_eq function eps local_queue local_accumulator
    { a := a, b := b, func_val_a := f_a, func_val_b := f_b, integral := integral } hroom
  simp only [new_integral, integral_left, integral_right, mid, left_child, right_child] at h
  refine ⟨?_, ?_, fun x y hx hy => ge_eq_false_iff_lt hx hy, fun x y hxy => nan_unordered hxy⟩
  · rw [h]
    constructor
    · intro h2
      split_ifs at h2 with h1
      · have := congrArg (fun r => (r.map Prod.fst).map List.length) h2
        simp at this
      · simpa using h1
    · intro h2
      rw [if_neg (by simp [h2])]
  · intro h2
    rw [h, if_pos h2]

/-- Witness of C1: the task of `x ↦ x` over `[0, 1]` with tolerance `2^(-10)` converges on
the empty buffer; `0.5` is added to the accumulator. -/
theorem local_handler_converged_witness :
    ([] : List task).length + 2 ≤ 36
      ∧ local_handler (fun x => x) (double.finite false (2 ^ 1064)) [] (double.finite false 0)
          { a := double.finite false 0, b := double.finite false (2 ^ 1074),
            func_val_a := double.finite false 0, func_val_b := double.finite false (2 ^ 1074),
            integral := double.finite false (2 ^ 1073) }
        = some ([], add (double.finite false 0)
            (add (mul (std_midpoint (double.finite false 0)
                  ((fun x => x) (std_midpoint (double.finite false 0)
                    (double.finite false (2 ^ 1074)))))
                (sub (std_midpoint (double.finite false 0) (double.finite false (2 ^ 1074)))
                  (double.finite false 0)))
              (mul (std_midpoint ((fun x => x) (std_midpoint (double.finite false 0)
                    (double.finite false (2 ^ 1074)))) (double.finite false (2 ^ 1074)))
                (sub (double.finite false (2 ^ 1074))
                  (std_midpoint (double.finite false 0) (double.finite false (2 ^ 1074)))))))
      ∧ add (double.finite false 0) (new_integral (fun x => x)
          { a := double.finite false 0, b := double.finite false (2 ^ 1074),
            func_val_a := double.finite false 0, func_val_b := double.finite false (2 ^ 1074),
            integral := double.finite false (2 ^ 1073) }) = double.finite false (2 ^ 1073) :=
  ⟨by decide,
   (local_handler_converged (fun x => x) (double.finite false (2 ^ 1064))
      (double.finite false 0) (double.finite false (2 ^ 1074)) (double.finite false 0)
      (double.finite false (2 ^ 1074)) (double.finite false (2 ^ 1073)) []
      (double.finite false 0) (by decide)).1.2 (by decide),
   by decide⟩

end binary64
